import Mathlib

/-!
Verification model of the `ssh-multi-connect` VS Code extension
(repository STeXE89/ssh-multi-connect).

The development shallowly embeds the parts of the TypeScript source that the
verified properties are about:

* `src/utils/sshUtils.ts` — the SSH config store (parsing, serialization,
  idempotent upsert/remove, the `beautifySSHConfig` formatting pass) and the
  known-hosts trust-store helpers (`isKnownHost`, `addKnownHost`,
  `removeKnownHost`, `getHostKeyFromKeyscan`);
* `src/sshConnection.ts` — the session registry (`SSHViewProvider`): the
  `connect` / `tryConnect` / `connectWithPassword` / `connectWithSSHKey` /
  `disconnect` / `moveConnectionToFolder` flow;
* `src/remoteFile.ts` — the remote file browser's `sortRemoteFiles`.

JavaScript strings are modelled as `List Char` (named `Str`); the JS string
operations used by the source (`trim`, `split(' ')`, `split('\n')`,
`split(': ')`, `join`, `startsWith`, `parseInt`, template literals) are given
faithful executable models below.  File contents are a single `Str` including
newline characters.  External tools (`ssh-keyscan`, `ssh-keygen`, `sshpass`
presence, VS Code input boxes) are modelled as explicit oracle/environment
records, and the asynchronous SSH client events (`ready` / `error`) as
explicitly fired transitions.
-/

namespace SMC


/-- JavaScript strings, modelled as lists of characters. -/
abbrev Str := List Char

/-- Coercion from Lean string literals to the `Str` model. -/
def strLit (s : String) : Str := s.data

/-- The whitespace class used by JavaScript `String.prototype.trim` (restricted
to the characters that can occur in this application's data). -/
def isJsSpace (c : Char) : Bool := c = ' ' || c = '\t' || c = '\n' || c = '\r'

/-- JS `s.trimStart()` (also the first half of `s.trim()`). -/
def trimStart (s : Str) : Str := s.dropWhile isJsSpace

/-- JS `s.trimEnd()` (the second half of `s.trim()`). -/
def trimEnd (s : Str) : Str := (s.reverse.dropWhile isJsSpace).reverse

/-- JS `s.trim()`. -/
def jsTrim (s : Str) : Str := trimEnd (trimStart s)

/-- JS `s.split(' ')` (keeps empty segments, like JavaScript). -/
def splitSp (s : Str) : List Str := s.splitOn ' '

/-- JS `arr.join(' ')`. -/
def joinSp : List Str → Str
  | [] => []
  | [p] => p
  | p :: ps => p ++ ' ' :: joinSp ps

/-- JS `s.split('\n')`. -/
def splitNl (s : Str) : List Str := s.splitOn '\n'

/-- JS `arr.join('\n')`. -/
def joinNl : List Str → Str
  | [] => []
  | [l] => l
  | l :: ls => l ++ '\n' :: joinNl ls

/-- JS `s.split(': ')` — a two-character separator, scanned left to right. -/
def splitColonSpace : Str → List Str
  | [] => [[]]
  | ':' :: ' ' :: rest => [] :: splitColonSpace rest
  | c :: rest =>
    match splitColonSpace rest with
    | [] => [[c]]
    | h :: t => (c :: h) :: t

/-- Decimal digits of a positive number, least significant first. -/
def natDigitsRev : Nat → List Char
  | 0 => []
  | n + 1 => Nat.digitChar ((n + 1) % 10) :: natDigitsRev ((n + 1) / 10)
decreasing_by exact Nat.div_lt_self (Nat.succ_pos n) (by omega)

/-- JS number-to-string conversion (template literal `${n}`) for integers. -/
def intToStr (n : Int) : Str :=
  if n < 0 then '-' :: (natDigitsRev n.natAbs).reverse
  else if n = 0 then ['0']
  else (natDigitsRev n.natAbs).reverse

/-- Accumulate the value of a digit string. -/
def digitsToNat (ds : Str) : Nat := ds.foldl (fun a c => a * 10 + (c.toNat - '0'.toNat)) 0

/-- JS `parseInt(s, 10)`: skip leading whitespace, optional sign, then the
longest decimal-digit run; `none` models `NaN` (no digits). -/
def parseIntJS (s : Str) : Option Int :=
  let t := s.dropWhile isJsSpace
  if t.headD 'x' = '-' then
    let ds := (t.drop 1).takeWhile Char.isDigit
    if ds.isEmpty then none else some (-(digitsToNat ds : Int))
  else if t.headD 'x' = '+' then
    let ds := (t.drop 1).takeWhile Char.isDigit
    if ds.isEmpty then none else some ((digitsToNat ds : Int))
  else
    let ds := t.takeWhile Char.isDigit
    if ds.isEmpty then none else some ((digitsToNat ds : Int))

/-- JS truthiness of an optional string field (`undefined` and `''` are falsy). -/
def strT : Option Str → Bool
  | some s => !s.isEmpty
  | none => false

/-- JS truthiness of an optional numeric field (`undefined`, `0` and `NaN` are
falsy; `NaN` is conflated with `none` by `parseIntJS`). -/
def numT : Option Int → Bool
  | some n => n != 0
  | none => false

/-! ## Config Store (`src/utils/sshUtils.ts`)

The `SSHConnection` interface (sshUtils.ts lines 11–26).  Optional fields are
`Option`; `parseInt` results that would be `NaN` in JS are conflated with the
absent value (`none`), which is sound here because `NaN` and `undefined` have
the same truthiness and neither is serialized by `buildConnectionEntry`. -/

structure SSHConnection where
  host : Str
  hostname : Str
  user : Option Str := none
  port : Option Int := none
  identityFile : Option Str := none
  proxyCommand : Option Str := none
  forwardAgent : Option Bool := none
  localForward : Option Str := none
  remoteForward : Option Str := none
  compression : Option Bool := none
  serverAliveInterval : Option Int := none
  serverAliveCountMax : Option Int := none
  logLevel : Option Str := none
  vFolderTag : Option Str := none
deriving Repr, DecidableEq

/-- The entry lines of `buildConnectionEntry` (sshUtils.ts lines 124–160)
before the `filter(Boolean)` pass: `none` models a `null` array element. -/
def entryLinesOpt (c : SSHConnection) : List (Option Str) :=
  [ some (strLit "Host " ++ c.host),
    if strT c.vFolderTag then some (strLit "  # vFolderTag: " ++ c.vFolderTag.getD []) else none,
    some (strLit "  HostName " ++ c.hostname),
    if strT c.user then some (strLit "  User " ++ c.user.getD []) else none,
    if numT c.port then some (strLit "  Port " ++ intToStr (c.port.getD 0)) else none,
    if strT c.identityFile then some (strLit "  IdentityFile " ++ c.identityFile.getD []) else none,
    if strT c.proxyCommand then some (strLit "  ProxyCommand " ++ c.proxyCommand.getD []) else none,
    match c.forwardAgent with
    | some b => some (strLit "  ForwardAgent " ++ strLit (if b then "yes" else "no"))
    | none => none,
    if strT c.localForward then some (strLit "  LocalForward " ++ c.localForward.getD []) else none,
    if strT c.remoteForward then some (strLit "  RemoteForward " ++ c.remoteForward.getD []) else none,
    match c.compression with
    | some b => some (strLit "  Compression " ++ strLit (if b then "yes" else "no"))
    | none => none,
    if numT c.serverAliveInterval then some (strLit "  ServerAliveInterval " ++ intToStr (c.serverAliveInterval.getD 0)) else none,
    if numT c.serverAliveCountMax then some (strLit "  ServerAliveCountMax " ++ intToStr (c.serverAliveCountMax.getD 0)) else none,
    if strT c.logLevel then some (strLit "  LogLevel " ++ c.logLevel.getD []) else none ]

/-- The lines of a serialized connection block (all lines are non-empty, so
`filter(Boolean)` only removes the `null` entries). -/
def entryLines (c : SSHConnection) : List Str := (entryLinesOpt c).filterMap id

/-- `buildConnectionEntry` (sshUtils.ts lines 124–160). -/
def buildConnectionEntry (c : SSHConnection) : Str := joinNl (entryLines c)

/-- One step of the formatting loop of `beautifySSHConfig` (sshUtils.ts lines
88–106); state is `(insideHostBlock, formattedLines)`. -/
def beautifyStep (st : Bool × List Str) (line : Str) : Bool × List Str :=
  let inside := st.1
  let acc := st.2
  if (strLit "Host ").isPrefixOf (jsTrim line) then
    let acc' := if acc ≠ [] ∧ jsTrim (acc.getLastD []) ≠ [] then acc ++ [[]] else acc
    (true, acc' ++ [jsTrim line])
  else if inside ∧ jsTrim line ≠ [] ∧ ¬ ([' '].isPrefixOf line) then
    (inside, acc ++ [strLit "  " ++ jsTrim line])
  else
    (if jsTrim line = [] then false else inside, acc ++ [line])

/-- The `.replace(/\n{3,}/g, '\n\n')` pass: runs of `n ≥ 3` newline characters
are replaced by exactly two.  The accumulator counts pending newlines. -/
def collapseNlAux : Nat → Str → Str
  | n, [] => List.replicate (min n 2) '\n'
  | n, c :: cs =>
    if c = '\n' then collapseNlAux (n + 1) cs
    else List.replicate (min n 2) '\n' ++ c :: collapseNlAux 0 cs

def collapseNl (s : Str) : Str := collapseNlAux 0 s

/-- `beautifySSHConfig` (sshUtils.ts lines 81–117) as a function from the
config file's content to the content it writes back
(`formatted.join('\n').replace(/\n{3,}/g,'\n\n')`, then `trim() + '\n'`). -/
def beautifySSHConfig (file : Str) : Str :=
  let lines := splitNl file
  let formatted := (lines.foldl beautifyStep (false, [])).2
  jsTrim (collapseNl (joinNl formatted)) ++ ['\n']

/-- One step of the replacement loop of `insertOrUpdateConnection`
(sshUtils.ts lines 177–191); state is `(updatedContent, isTargetHost,
isUpdated)`. -/
def insertStep (c : SSHConnection) (st : Str × Bool × Bool) (line : Str) : Str × Bool × Bool :=
  let out := st.1
  let isTarget := st.2.1
  let isUpdated := st.2.2
  let out' := if (strLit "Host ").isPrefixOf line ∧ isTarget then
      out ++ buildConnectionEntry c ++ ['\n'] else out
  let isUpdated' := if (strLit "Host ").isPrefixOf line ∧ isTarget then true else isUpdated
  let isTarget' := if (strLit "Host ").isPrefixOf line then
      decide ((splitSp line).getD 1 [] = c.host) else isTarget
  if ¬ isTarget' ∨ isUpdated' then (out' ++ line ++ ['\n'], isTarget', isUpdated')
  else (out', isTarget', isUpdated')

/-- `insertOrUpdateConnection` (sshUtils.ts lines 167–202): the replacement
loop, the fallback append, the `trim() + '\n'` write, then the
`beautifySSHConfig()` pass.  A missing config file (`ensureFileExists`) is the
empty content `[]`. -/
def insertOrUpdateConnection (file : Str) (c : SSHConnection) : Str :=
  let lines := splitNl file
  let st := lines.foldl (insertStep c) ([], false, false)
  let out := if st.2.2 then st.1 else st.1 ++ ['\n'] ++ buildConnectionEntry c ++ ['\n']
  beautifySSHConfig (jsTrim out ++ ['\n'])

/-- The `while (... last.trim().startsWith('#')) updatedLines.pop()` loop of
`removeConnection` (sshUtils.ts lines 227–229). -/
def popComments (acc : List Str) : List Str :=
  match h : acc.getLast? with
  | some l => if ['#'].isPrefixOf (jsTrim l) then popComments acc.dropLast else acc
  | none => acc
termination_by acc.length
decreasing_by
  have hne : acc ≠ [] := by intro hh; subst hh; simp at h
  have := List.length_pos.mpr hne
  simp only [List.length_dropLast]
  omega

/-- One step of the skip loop of `removeConnection` (sshUtils.ts lines
216–239); state is `(updatedLines, insideHostBlock)` (the source's
`skipComments` flag is written but never read). -/
def removeStep (host : Str) (st : List Str × Bool) (line : Str) : List Str × Bool :=
  let acc := st.1
  let inside := st.2
  if (strLit "Host ").isPrefixOf line then
    if (splitSp line).getD 1 [] = host then (popComments acc, true)
    else (acc ++ [line], false)
  else if inside then (acc, inside)
  else (acc ++ [line], inside)

/-- `removeConnection` (sshUtils.ts lines 208–252): skip the matching block
(and any comment lines directly above it), write `join('\n').trim() + '\n'`,
then `beautifySSHConfig()`. -/
def removeConnection (file : Str) (host : Str) : Str :=
  let lines := splitNl file
  let st := lines.foldl (removeStep host) ([], false)
  beautifySSHConfig (jsTrim (joinNl st.1) ++ ['\n'])

/-- The `switch (key)` of `getAllConnections` (sshUtils.ts lines 291–333). -/
def applyField (c : SSHConnection) (key value : Str) : SSHConnection :=
  if key = strLit "HostName" then { c with hostname := value }
  else if key = strLit "User" then { c with user := some value }
  else if key = strLit "Port" then { c with port := parseIntJS value }
  else if key = strLit "IdentityFile" then { c with identityFile := some value }
  else if key = strLit "ProxyCommand" then { c with proxyCommand := some value }
  else if key = strLit "ForwardAgent" then { c with forwardAgent := some (value = strLit "yes") }
  else if key = strLit "LocalForward" then { c with localForward := some value }
  else if key = strLit "RemoteForward" then { c with remoteForward := some value }
  else if key = strLit "Compression" then { c with compression := some (value = strLit "yes") }
  else if key = strLit "ServerAliveInterval" then { c with serverAliveInterval := parseIntJS value }
  else if key = strLit "ServerAliveCountMax" then { c with serverAliveCountMax := parseIntJS value }
  else if key = strLit "LogLevel" then { c with logLevel := some value }
  else if key = ['#'] then
    if (strLit "vFolderTag:").isPrefixOf value then { c with vFolderTag := (splitColonSpace value).get? 1 }
    else c
  else c

/-- One line of the parsing loop of `getAllConnections` (sshUtils.ts lines
280–335); state is `(connections, currentConnection)`. -/
def parseStep (st : List SSHConnection × Option SSHConnection) (line : Str) :
    List SSHConnection × Option SSHConnection :=
  let acc := st.1
  let cur := st.2
  if (strLit "Host ").isPrefixOf line then
    (acc ++ cur.toList, some { host := (splitSp line).getD 1 [], hostname := [] })
  else
    match cur with
    | none => (acc, none)
    | some c =>
      let parts := splitSp (jsTrim line)
      (acc, some (applyField c (parts.headD []) (joinSp parts.tail)))

/-- `getAllConnections` (sshUtils.ts lines 273–346): parse the whole config
content into records.  A missing config file (read error, caught) is the empty
content `[]`, which yields `[]`. -/
def getAllConnections (file : Str) : List SSHConnection :=
  let st := (splitNl file).foldl parseStep ([], none)
  st.1 ++ st.2.toList

/-! ## Canonical config files, well-formed records, and the store's
reference semantics -/

/-- The line list of a config file in the shape `beautifySSHConfig`
normalizes to: serialized blocks separated by exactly one blank line. -/
def canonLines : List SSHConnection → List Str
  | [] => []
  | [r] => entryLines r
  | r :: rs => entryLines r ++ ([] : Str) :: canonLines rs

/-- The canonical config file content for a record list. -/
def canonFile (rs : List SSHConnection) : Str := joinNl (canonLines rs) ++ ['\n']

/-- A value that survives a `Key value` config line: non-empty, no line
breaks, and no whitespace at either end (the `trim()` passes would strip it). -/
def cleanVal (s : Str) : Bool :=
  !s.isEmpty && s.all (fun c => !(c = '\n' || c = '\r')) &&
  !isJsSpace (s.headD '.') && !isJsSpace (s.getLastD '.')

/-- A single-token value (no whitespace anywhere): the shape `Host <alias>`
lines are parsed with `line.split(' ')[1]`. -/
def tokenVal (s : Str) : Bool := !s.isEmpty && s.all (fun c => !isJsSpace c)

def optClean : Option Str → Bool
  | none => true
  | some s => cleanVal s

def optPos : Option Int → Bool
  | none => true
  | some n => decide (0 < n)

/-- Folder tags additionally must not contain the `': '` separator that
`getAllConnections` splits the comment value on. -/
def tagOk : Option Str → Bool
  | none => true
  | some t => cleanVal t && decide (splitColonSpace t = [t])

/-- Well-formed connection record: every recognized field holds a value that
the config text format can represent. -/
def wfRec (c : SSHConnection) : Bool :=
  tokenVal c.host && cleanVal c.hostname && optClean c.user && optPos c.port &&
  optClean c.identityFile && optClean c.proxyCommand && optClean c.localForward &&
  optClean c.remoteForward && optPos c.serverAliveInterval &&
  optPos c.serverAliveCountMax && optClean c.logLevel && tagOk c.vFolderTag

/-- Alias uniqueness for a record list. -/
def uniqHosts (rs : List SSHConnection) : Bool := (rs.map (·.host)).Nodup

/-- Reference semantics of `insertOrUpdateConnection` on record lists:
replace in place if the alias exists, else append. -/
def upsertL (rs : List SSHConnection) (r : SSHConnection) : List SSHConnection :=
  if rs.any (fun x => x.host = r.host) then
    rs.map (fun x => if x.host = r.host then r else x)
  else rs ++ [r]

/-- Reference semantics of `removeConnection` on record lists. -/
def removeL (rs : List SSHConnection) (h : Str) : List SSHConnection :=
  rs.filter (fun x => ¬(x.host = h))

/-- A Config Store operation. -/
inductive CfgOp where
  | upsert : SSHConnection → CfgOp
  | removeByAlias : Str → CfgOp

def applyOpFile (f : Str) : CfgOp → Str
  | .upsert c => insertOrUpdateConnection f c
  | .removeByAlias h => removeConnection f h

def applyOpSpec (rs : List SSHConnection) : CfgOp → List SSHConnection
  | .upsert c => upsertL rs c
  | .removeByAlias h => removeL rs h

def wfOp : CfgOp → Bool
  | .upsert c => wfRec c
  | .removeByAlias _ => true

/-! ## Lemmas about the string primitives -/

/-- Everything the formatting/parsing loops need to know about one serialized
body line. -/
def bodyLineOk (l : Str) : Prop :=
  l ≠ [] ∧ (∀ c ∈ l, c ≠ '\n') ∧ ([' '].isPrefixOf l = true) ∧
  ((strLit "Host ").isPrefixOf l = false) ∧ jsTrim l ≠ [] ∧
  ((strLit "Host ").isPrefixOf (jsTrim l) = false) ∧
  isJsSpace (l.getLastD '.') = false

/-- The body lines of a serialized block (everything after the `Host` line). -/
def entryBody (c : SSHConnection) : List Str := ((entryLinesOpt c).tail).filterMap id

/-- Raw block streams: serialized blocks each followed by some number of blank
lines (the shapes `insertOrUpdateConnection` / `removeConnection` produce
before their final `beautifySSHConfig` pass). -/
def blkLines : List (SSHConnection × Nat) → List Str
  | [] => []
  | (r, a) :: rest => entryLines r ++ List.replicate a [] ++ blkLines rest

/-- What the formatting loop of `beautifySSHConfig` turns a raw block stream
into: a missing separating blank line is inserted (`max a 1`), everything else
is kept. -/
def fmtLines : List (SSHConnection × Nat) → List Str
  | [] => []
  | [(r, a)] => entryLines r ++ List.replicate a []
  | (r, a) :: rest => entryLines r ++ List.replicate (max a 1) [] ++ fmtLines rest

/-- The blank line the formatting loop inserts before a `Host` line when the
previous emitted line is non-blank. -/
def sepIns (acc : List Str) : List Str :=
  if acc ≠ [] ∧ jsTrim (acc.getLastD []) ≠ [] then [([] : Str)] else []

/-- Result shape of folding the formatting loop over a raw block stream. -/
def fmtTail (acc : List Str) : List (SSHConnection × Nat) → List Str
  | [] => acc
  | p :: rest => acc ++ sepIns acc ++ fmtLines (p :: rest)

def catNl (L : List Str) : Str := (L.map (fun l => l ++ ['\n'])).flatten

/-- Witness data: two well-formed connection records. -/
def wRecA : SSHConnection :=
  { host := strLit "alpha", hostname := strLit "10.0.0.1",
    user := some (strLit "root"), port := some 22 }

def wRecB : SSHConnection :=
  { host := strLit "beta", hostname := strLit "example.com",
    vFolderTag := some (strLit "work") }

def wRecB2 : SSHConnection :=
  { host := strLit "beta", hostname := strLit "beta.internal",
    identityFile := some (strLit "~/.ssh/id_ed25519") }

def wOps : List CfgOp :=
  [CfgOp.upsert wRecA, CfgOp.upsert wRecB, CfgOp.removeByAlias (strLit "alpha")]

/-- An in-memory connection entry (`ExtendedSSHConnection`): the parsed record
plus the transient session state.  Client and provider handles are allocation
numbers so that object identity is observable. -/
structure Conn where
  id : Str
  crec : SSHConnection
  usePrivateKey : Bool
  client : Option Nat
  password : Option Str
  privateKey : Option Str
  passphrase : Option Str
deriving Repr, DecidableEq

/-- A spawned interactive terminal: its visible `shellArgs` command line and
the optional environment binding passed to it. -/
structure VTerminal where
  args : Str
  envv : Option (Str × Str)
deriving Repr, DecidableEq

/-- The registry state: config file content, the connection list, the trust
store (hostname ↦ stored public key line), spawned terminals, the remote file
providers map, and the allocation counters. -/
structure RegState where
  config : Str
  connections : List Conn
  knownHosts : List (Str × Str)
  terminals : List VTerminal
  providers : List (Str × Nat)
  nextClient : Nat
  nextProvider : Nat
deriving Repr, DecidableEq

/-- The environment oracle for a connect attempt: prompt answers, the local
tool probe, key file facts, the scanner, and the protocol outcome. -/
structure ConnectEnv where
  promptUser : Option Str
  promptPassword : Option Str
  promptPassphrase : Option Str
  sshpassInstalled : Option Bool
  keyRead : Option Str
  keyEncrypted : Bool
  scanKey : Option Str
  fprOf : Str → Str
  identityFileOf : Option Str
  mismatchAnswer : Bool
  connectOk : Bool

def jsShowStr (o : Option Str) : Str := o.getD (strLit "undefined")

def jsShowInt : Option Int → Str
  | some n => intToStr n
  | none => strLit "undefined"

/-- The password path's terminal command line (sshConnection.ts line 1499):
built from user, hostname and port only — the secret is not an argument. -/
def sshpassPwdArgs (user : Option Str) (hostname : Str) (port : Option Int) : Str :=
  strLit "sshpass -e ssh -o StrictHostKeyChecking=no " ++ jsShowStr user ++
    ['@'] ++ hostname ++ strLit " -p " ++ jsShowInt port

/-- The key path's terminal command line (sshConnection.ts line 1564): the
passphrase is interpolated into the argument string. -/
def sshpassKeyArgs (identityFile passphrase : Str) (user : Option Str)
    (hostname : Str) (port : Option Int) : Str :=
  strLit "sshpass -P \"Enter passphrase for key '" ++ identityFile ++
    strLit "':\" -p " ++ passphrase ++ strLit " ssh -i " ++ identityFile ++
    [' '] ++ jsShowStr user ++ ['@'] ++ hostname ++ strLit " -p " ++ jsShowInt port

def mkLoadedConn (r : SSHConnection) : Conn :=
  { id := r.host, crec := r, usePrivateKey := strT r.identityFile, client := none,
    password := none, privateKey := none, passphrase := none }

def cmpStr (a b : Str) : Int :=
  if a < b then -1 else if b < a then 1 else 0

/-- The comparator of `loadSSHConnections` (sshConnection.ts lines 1108–1127). -/
def connCmp (a b : Conn) : Int :=
  if strT a.crec.vFolderTag ∧ strT b.crec.vFolderTag then
    cmpStr (a.crec.vFolderTag.getD []) (b.crec.vFolderTag.getD [])
  else if strT a.crec.vFolderTag then -1
  else if strT b.crec.vFolderTag then 1
  else
    let hc := cmpStr a.crec.host b.crec.host
    if hc ≠ 0 then hc
    else if a.crec.user = none ∧ b.crec.user ≠ none then 1
    else if a.crec.user ≠ none ∧ b.crec.user = none then -1
    else 0

/-- `loadSSHConnections` (sshConnection.ts lines 1095–1139): parse the config,
keep records with a host, drop all transient state, sort. -/
def loadConns (config : Str) : List Conn :=
  List.insertionSort (fun a b => connCmp a b ≤ 0)
    (((getAllConnections config).filter (fun r => !r.host.isEmpty)).map mkLoadedConn)

/-- `removeConnectionFromList` (lines 1391–1398): filter the alias out, then
`loadSSHConnections` rebuilds the list from the config file, so the net effect
on the list is a fresh reload (every reloaded entry is client-free). -/
def removeConnectionFromList (st : RegState) : RegState :=
  { st with connections := loadConns st.config }

def updConn (st : RegState) (cid : Str) (f : Conn → Conn) : RegState :=
  { st with connections := st.connections.map (fun c => if c.id = cid then f c else c) }

def findConn (st : RegState) (cid : Str) : Option Conn :=
  st.connections.find? (fun c => c.id = cid)

def lookupKH (kh : List (Str × Str)) (h : Str) : Option Str :=
  (kh.find? (fun p => p.1 = h)).map (fun p => p.2)

/-- `isKnownHost` over the modelled trust store: the stored key's fingerprint. -/
def isKnownHostR (env : ConnectEnv) (st : RegState) (h : Str) : Bool × Option Str :=
  match lookupKH st.knownHosts h with
  | some k => (true, some (env.fprOf k))
  | none => (false, none)

/-- `removeKnownHost` (sshUtils.ts lines 422–436). -/
def removeKnownHostR (st : RegState) (h : Str) : RegState :=
  { st with knownHosts := st.knownHosts.filter (fun p => ¬ p.1 = h) }

/-- `addKnownHost` (sshUtils.ts lines 390–416): on a fingerprint change the old
entry is removed first; the appended entry is a fresh keyscan output — the
`fingerprint` argument is only compared against, never written. -/
def addKnownHostR (env : ConnectEnv) (st : RegState) (h : Str) (fpr : Str) : RegState :=
  match lookupKH st.knownHosts h with
  | some k =>
    if env.fprOf k ≠ fpr then
      match env.scanKey with
      | some k2 =>
        { st with knownHosts :=
            (st.knownHosts.filter (fun p => ¬ p.1 = h)) ++ [(h, k2)] }
      | none => removeKnownHostR st h
    else st
  | none =>
    match env.scanKey with
    | some k2 => { st with knownHosts := st.knownHosts ++ [(h, k2)] }
    | none => st

/-- `getHostKeyFromKeyscan` (sshUtils.ts lines 473–493); `none` models a throw. -/
def getHostKeyFromKeyscanR (env : ConnectEnv) : Option Str :=
  match env.scanKey with
  | some k => some (env.fprOf k)
  | none => none

/-- `updateKnownHosts` (sshConnection.ts lines 966–993); `Except.error` models
the rejected promise. -/
def updateKnownHostsR (env : ConnectEnv) (st : RegState) (h : Str) :
    Except Unit RegState :=
  match getHostKeyFromKeyscanR env with
  | none => .error ()
  | some fpr =>
    match lookupKH st.knownHosts h with
    | some k =>
      if env.fprOf k ≠ fpr then
        if env.mismatchAnswer then
          .ok (addKnownHostR env (removeKnownHostR st h) h fpr)
        else .error ()
      else .ok st
    | none => .error ()

/-- `handleConnectionReady` plus `client.connect` (lines 1401–1422, 1503–1509,
1560–1571): the ready handler spawns the terminal and loads the file browser;
the error handler tears the alias down via `removeConnectionFromList`. -/
def fireConnect (env : ConnectEnv) (st : RegState) (cid : Str) (args : Str)
    (tenv : Option (Str × Str)) : RegState :=
  if env.connectOk then
    let st1 := { st with terminals := st.terminals ++ [⟨args, tenv⟩] }
    match findConn st1 cid with
    | some c =>
      if c.client ≠ none then
        match st1.providers.find? (fun p => p.1 = cid) with
        | some _ => st1
        | none =>
          { st1 with
            providers := st1.providers ++ [(cid, st1.nextProvider)]
            nextProvider := st1.nextProvider + 1 }
      else st1
    | none => st1
  else removeConnectionFromList st

/-- `connectWithPassword` (sshConnection.ts lines 1483–1514). -/
def connectWithPasswordR (env : ConnectEnv) (st : RegState) (cid : Str)
    (password : Str) : RegState :=
  match env.sshpassInstalled with
  | none => removeConnectionFromList st
  | some false => removeConnectionFromList st
  | some true =>
    match findConn st cid with
    | none => st
    | some c =>
      fireConnect env st cid (sshpassPwdArgs c.crec.user c.crec.hostname c.crec.port)
        (some (strLit "SSHPASS", password))

/-- `connectWithSSHKey` (sshConnection.ts lines 1516–1577).  Note: the
`sshpass` probe rejection falls into the outer catch, which has no teardown;
the missing-passphrase return at line 1551 has no teardown either; a fresh
client is allocated unconditionally at line 1556. -/
def connectWithSSHKeyR (env : ConnectEnv) (st : RegState) (cid : Str) : RegState :=
  match env.sshpassInstalled with
  | none => st
  | some false => removeConnectionFromList st
  | some true =>
    match findConn st cid with
    | none => st
    | some c =>
      let identityFile := c.crec.identityFile.getD []
      match env.keyRead with
      | none => removeConnectionFromList st
      | some _ =>
        if env.keyEncrypted ∧ ¬ strT env.promptPassphrase then
          removeConnectionFromList st
        else
          let passphrase : Option Str :=
            if env.keyEncrypted then env.promptPassphrase else c.passphrase
          if ¬ strT passphrase then st
          else
            let st1 := updConn st cid (fun x => { x with client := some st.nextClient })
            let st2 := { st1 with nextClient := st1.nextClient + 1 }
            fireConnect env st2 cid
              (sshpassKeyArgs identityFile (passphrase.getD []) c.crec.user
                c.crec.hostname c.crec.port)
              none

/-- `tryConnect` (sshConnection.ts lines 1315–1346), after the username step. -/
def tryConnect2 (env : ConnectEnv) (st : RegState) (cid : Str) : RegState :=
  match findConn st cid with
  | none => st
  | some c =>
    if c.usePrivateKey then
      match env.identityFileOf with
      | none => removeConnectionFromList st
      | some idf =>
        connectWithSSHKeyR env
          (updConn st cid (fun x => { x with crec := { x.crec with identityFile := some idf } }))
          cid
    else
      match env.promptPassword with
      | some pw =>
        if pw.isEmpty then removeConnectionFromList st
        else
          connectWithPasswordR env
            (updConn st cid (fun x => { x with password := some pw })) cid pw
      | none => removeConnectionFromList st

/-- `tryConnect` (sshConnection.ts lines 1315–1346). -/
def tryConnectR (env : ConnectEnv) (st : RegState) (cid : Str) : RegState :=
  match findConn st cid with
  | none => st
  | some c =>
    if ¬ strT c.crec.user then
      match env.promptUser with
      | some u =>
        if u.isEmpty then removeConnectionFromList st
        else
          tryConnect2 env
            (updConn st cid (fun x => { x with crec := { x.crec with user := some u } })) cid
      | none => removeConnectionFromList st
    else tryConnect2 env st cid

/-- `connect` (sshConnection.ts lines 1272–1312): allocate a client only when
the slot is empty, then branch on the trust-store lookup. -/
def connectR (env : ConnectEnv) (st : RegState) (cid : Str) : RegState :=
  match findConn st cid with
  | none => st
  | some c =>
    let st0 :=
      if c.client = none then
        { updConn st cid (fun x => { x with client := some st.nextClient }) with
          nextClient := st.nextClient + 1 }
      else st
    if (isKnownHostR env st0 c.crec.hostname).1 = false then
      let st1 := tryConnectR env st0 cid
      match getHostKeyFromKeyscanR env with
      | none => removeConnectionFromList st1
      | some fpr => addKnownHostR env st1 c.crec.hostname fpr
    else
      match updateKnownHostsR env st0 c.crec.hostname with
      | .error _ => removeConnectionFromList st0
      | .ok st1 => tryConnectR env st1 cid

/-- `moveConnectionToFolder` (sshConnection.ts lines 1222–1270). -/
def moveConnectionToFolderR (folderName : Option Str) (st : RegState) (cid : Str) :
    RegState :=
  match findConn st cid with
  | none => st
  | some c =>
    match folderName with
    | none => st
    | some fname =>
      let newTag : Option Str := if (jsTrim fname).isEmpty then none
        else some (jsTrim fname)
      let rec2 := { c.crec with vFolderTag := newTag }
      let config2 := insertOrUpdateConnection st.config rec2
      let conns1 := loadConns config2
      match conns1.find? (fun x => x.crec.host = c.crec.host ∧ x.crec.user = c.crec.user) with
      | some u =>
        { st with
          config := config2
          connections := conns1.map (fun x => if x.id = u.id then
            { x with
              client := c.client
              password := c.password
              privateKey := c.privateKey
              passphrase := c.passphrase } else x) }
      | none => { st with config := config2, connections := conns1 }

/-! ## Remote file browser (`src/unnamed/part_006`, `RemoteFileProvider`) -/

/-- A directory entry as returned by the protocol client's listing. -/
structure RemoteFile where
  filename : Str
  isDirectory : Bool
deriving Repr, DecidableEq

def lowerKey (f : RemoteFile) : Str := f.filename.map Char.toLower

/-- The `localeCompare`-on-`toLowerCase` comparator as a relation
(lexicographic order on the lower-cased name). -/
def leKey (a b : RemoteFile) : Prop := lowerKey a ≤ lowerKey b

instance : DecidableRel leKey := fun a b =>
  inferInstanceAs (Decidable (lowerKey a ≤ lowerKey b))

/-- `sortRemoteFiles` (part_006 lines 599–603): directories first, then files,
each group sorted case-insensitively by name (stable sort with the
`localeCompare`-on-`toLowerCase` comparator). -/
def sortRemoteFiles (list : List RemoteFile) : List RemoteFile :=
  List.insertionSort leKey (list.filter (fun f => f.isDirectory)) ++
    List.insertionSort leKey (list.filter (fun f => !f.isDirectory))

/-! ## Trust-store lookup (`isKnownHost`, sshUtils.ts lines 443–465) -/

/-- The `/SHA256:[^\s]+/` match at one position. -/
def sha256Here (s : Str) : Option Str :=
  if (strLit "SHA256:").isPrefixOf s then
    let rest := (s.drop 7).takeWhile (fun ch => !isJsSpace ch)
    if rest.isEmpty then none else some (strLit "SHA256:" ++ rest)
  else none

/-- `fingerprint.match(/SHA256:[^\s]+/)`: first match anywhere in the string. -/
def findSha256 : Str → Option Str
  | [] => none
  | c :: cs =>
    match sha256Here (c :: cs) with
    | some m => some m
    | none => findSha256 cs

/-- The external-tool oracle for one `isKnownHost` call: whether the trust
file exists, and the outputs of the two `ssh-keygen` invocations (`none`
models a throwing `execSync`). -/
structure KeyToolEnv where
  knownHostsExists : Bool
  keygenF : Option Str
  keygenLf : Option Str
deriving Repr, DecidableEq

/-- `isKnownHost` (sshUtils.ts lines 443–465) over the tool oracle; the result
models the `{ exists, key }` object. -/
def isKnownHostT (env : KeyToolEnv) : Bool × Option Str :=
  if env.knownHostsExists = false then (false, none)
  else
    match env.keygenF with
    | none => (false, none)
    | some out =>
      if (jsTrim out).length > 0 then
        match env.keygenLf with
        | none => (false, none)
        | some out2 => (true, findSha256 (jsTrim out2))
      else (false, none)

/-- C10 counterexample: with the trust file present, a found entry, and an
`ssh-keygen -lf` output that the SHA256 regex does not match, `isKnownHost`
returns `{exists: true, key: null}` — not `{exists: false, key: null}` as the
claim states for a failing lookup. -/
def c10Env : KeyToolEnv where
  knownHostsExists := true
  keygenF := some (strLit "host ssh-rsa AAAA")
  keygenLf := some (strLit "2048 MD5:aa:bb host (RSA)")

def c10EnvMissing : KeyToolEnv where
  knownHostsExists := false
  keygenF := none
  keygenLf := none

def devRec : SSHConnection where
  host := strLit "dev"
  hostname := strLit "dev.example.com"
  user := some (strLit "alice")
  identityFile := some (strLit "~/.ssh/id_rsa")

def webRec : SSHConnection where
  host := strLit "web"
  hostname := strLit "web.example.com"
  user := some (strLit "bob")

def regKey1 : Str := strLit "ssh-rsa AAAA1"

def regKey2 : Str := strLit "ssh-rsa AAAA2"

def envHappy : ConnectEnv where
  promptUser := none
  promptPassword := some (strLit "s3cret")
  promptPassphrase := none
  sshpassInstalled := some true
  keyRead := some (strLit "KEYDATA")
  keyEncrypted := false
  scanKey := some regKey1
  fprOf := fun k => strLit "FP-" ++ k
  identityFileOf := some (strLit "~/.ssh/id_rsa")
  mismatchAnswer := false
  connectOk := true

/-- A registry with the key-based alias `dev` already connected (client 0). -/
def stKeyConnected : RegState where
  config := canonFile [devRec]
  connections := [{ mkLoadedConn devRec with
    client := some 0
    passphrase := some (strLit "hunter2") }]
  knownHosts := [(strLit "dev.example.com", regKey1)]
  terminals := []
  providers := []
  nextClient := 1
  nextProvider := 0

/-- The same registry with `dev` disconnected. -/
def stKeyDisconnected : RegState where
  config := canonFile [devRec]
  connections := [{ mkLoadedConn devRec with passphrase := some (strLit "hunter2") }]
  knownHosts := [(strLit "dev.example.com", regKey1)]
  terminals := []
  providers := []
  nextClient := 5
  nextProvider := 0

/-- A registry with the password-based alias `web` already connected. -/
def stPwdConnected : RegState where
  config := canonFile [webRec]
  connections := [{ mkLoadedConn webRec with client := some 7 }]
  knownHosts := [(strLit "web.example.com", regKey1)]
  terminals := []
  providers := []
  nextClient := 8
  nextProvider := 0

def envNoSshpass : ConnectEnv := { envHappy with sshpassInstalled := none }

def devConn : Conn :=
  { mkLoadedConn devRec with client := some 0, passphrase := some (strLit "hunter2") }

def envMismatch : ConnectEnv := { envHappy with scanKey := some regKey2 }

theorem trimStart_eq_self {s : Str} (h : isJsSpace (s.headD '.') = false) :
    trimStart s = s := by
  cases s with
  | nil => rfl
  | cons c cs =>
    simp only [List.headD_cons] at h
    simp [trimStart, List.dropWhile_cons, h]

theorem trimEnd_eq_self {s : Str} (h : isJsSpace (s.getLastD '.') = false) :
    trimEnd s = s := by
  induction s using List.reverseRecOn with
  | nil => rfl
  | append_singleton xs x _ =>
    rw [List.getLastD_concat] at h
    simp [trimEnd, List.dropWhile_cons, h]

theorem trimStart_append_sp {s t : Str} (h : ∀ c ∈ s, isJsSpace c = true) :
    trimStart (s ++ t) = trimStart t := by
  induction s with
  | nil => rfl
  | cons c cs ih =>
    simp only [List.cons_append, trimStart, List.dropWhile_cons,
      h c (List.mem_cons_self c cs)]
    exact ih fun c hc => h c (List.mem_cons_of_mem _ hc)

theorem trimEnd_append_sp {s t : Str} (h : ∀ c ∈ t, isJsSpace c = true) :
    trimEnd (s ++ t) = trimEnd s := by
  unfold trimEnd
  rw [List.reverse_append, List.dropWhile_append]
  have : t.reverse.dropWhile isJsSpace = [] := by
    rw [List.dropWhile_eq_nil_iff]
    intro c hc
    exact h c (List.mem_reverse.mp hc)
  simp [this]

theorem trimStart_cons_sp {c : Char} {s : Str} (h : isJsSpace c = true) :
    trimStart (c :: s) = trimStart s := by
  simp [trimStart, List.dropWhile_cons, h]

theorem joinNl_eq_intercalate (ls : List Str) : joinNl ls = ['\n'].intercalate ls := by
  induction ls with
  | nil => rfl
  | cons l ls ih =>
    cases ls with
    | nil => simp [joinNl, List.intercalate]
    | cons m ms =>
      simp only [joinNl, ih]
      simp [List.intercalate, List.intersperse]

theorem joinSp_eq_intercalate (ps : List Str) : joinSp ps = [' '].intercalate ps := by
  induction ps with
  | nil => rfl
  | cons l ls ih =>
    cases ls with
    | nil => simp [joinSp, List.intercalate]
    | cons m ms =>
      simp only [joinSp, ih]
      simp [List.intercalate, List.intersperse]

theorem splitNl_joinNl {L : List Str} (h : ∀ l ∈ L, '\n' ∉ l) (hne : L ≠ []) :
    splitNl (joinNl L) = L := by
  rw [joinNl_eq_intercalate]
  exact List.splitOn_intercalate L '\n' h hne

theorem joinSp_splitSp (v : Str) : joinSp (splitSp v) = v := by
  rw [joinSp_eq_intercalate]
  exact List.intercalate_splitOn v ' '

theorem joinNl_splitNl (s : Str) : joinNl (splitNl s) = s := by
  rw [joinNl_eq_intercalate]
  exact List.intercalate_splitOn s '\n'

theorem mem_splitNl_not_nl (s : Str) : ∀ l ∈ splitNl s, '\n' ∉ l := by
  induction s with
  | nil =>
    intro l hl
    simp only [splitNl, List.splitOn_nil, List.mem_singleton] at hl
    simp [hl]
  | cons c cs ih =>
    intro l hl
    by_cases hc : c = '\n'
    · subst hc
      simp only [splitNl, List.splitOn, List.splitOnP_cons, beq_self_eq_true, if_pos] at hl
      rcases List.mem_cons.mp hl with rfl | hl
      · simp
      · exact ih l hl
    · have hbe : (c == '\n') = false := by simp [hc]
      simp only [splitNl, List.splitOn, List.splitOnP_cons, hbe, Bool.false_eq_true,
        if_false] at hl
      rcases (List.splitOnP (fun x => x == '\n') cs).eq_nil_or_concat with hnil | _
      · have := List.splitOnP_ne_nil (fun x => x == '\n') cs
        exact absurd hnil this
      rcases hsp : List.splitOnP (fun x => x == '\n') cs with _ | ⟨h0, t0⟩
      · exact absurd hsp (List.splitOnP_ne_nil _ cs)
      · rw [hsp, List.modifyHead] at hl
        rcases List.mem_cons.mp hl with rfl | hl
        · intro hmem
          rcases List.mem_cons.mp hmem with rfl | hmem
          · exact hc rfl
          · exact ih h0 (by rw [splitNl, List.splitOn, hsp]; exact List.mem_cons_self _ _) hmem
        · exact ih l (by rw [splitNl, List.splitOn, hsp]; exact List.mem_cons_of_mem _ hl)

theorem joinNl_append_blank {L : List Str} (hne : L ≠ []) :
    joinNl (L ++ [[]]) = joinNl L ++ ['\n'] := by
  induction L with
  | nil => exact absurd rfl hne
  | cons l ls ih =>
    cases ls with
    | nil => simp [joinNl]
    | cons m ms =>
      have := ih (by simp)
      simp only [List.cons_append, joinNl] at *
      simp [this]

theorem splitNl_append_blank (s : Str) : splitNl (s ++ ['\n']) = splitNl s ++ [[]] := by
  conv_lhs => rw [← joinNl_splitNl s]
  rw [← joinNl_append_blank (by simp [splitNl, List.splitOn]; exact List.splitOnP_ne_nil _ s)]
  refine splitNl_joinNl ?_ (by simp)
  intro l hl
  rcases List.mem_append.mp hl with hl | hl
  · exact mem_splitNl_not_nl s l hl
  · simp only [List.mem_singleton] at hl
    simp [hl]

theorem splitNl_append_cons {a : Str} (b : Str) (h : '\n' ∉ a) :
    splitNl (a ++ '\n' :: b) = a :: splitNl b := by
  apply List.splitOnP_first _ a ?_ '\n' (by simp) b
  intro x hx
  simp only [beq_iff_eq]
  intro hq
  exact h (hq ▸ hx)

theorem splitSp_single {v : Str} (h : ' ' ∉ v) : splitSp v = [v] := by
  apply List.splitOnP_eq_single
  intro x hx
  simp only [beq_iff_eq]
  intro hq
  exact h (hq ▸ hx)

theorem splitSp_append_cons {k : Str} (v : Str) (h : ' ' ∉ k) :
    splitSp (k ++ ' ' :: v) = k :: splitSp v := by
  apply List.splitOnP_first _ k ?_ ' ' (by simp) v
  intro x hx
  simp only [beq_iff_eq]
  intro hq
  exact h (hq ▸ hx)

theorem splitNl_single {v : Str} (h : '\n' ∉ v) : splitNl v = [v] := by
  apply List.splitOnP_eq_single
  intro x hx
  simp only [beq_iff_eq]
  intro hq
  exact h (hq ▸ hx)

theorem joinNl_append {A B : List Str} (hA : A ≠ []) (hB : B ≠ []) :
    joinNl (A ++ B) = joinNl A ++ '\n' :: joinNl B := by
  induction A with
  | nil => exact absurd rfl hA
  | cons a as ih =>
    cases as with
    | nil =>
      cases B with
      | nil => exact absurd rfl hB
      | cons b bs => simp [joinNl]
    | cons a' as' =>
      have := ih (by simp)
      simp only [List.cons_append, joinNl] at *
      simp [this]

theorem collapseNlAux_nil (n : Nat) : collapseNlAux n [] = List.replicate (min n 2) '\n' := by
  simp [collapseNlAux]

theorem collapseNlAux_nl (n : Nat) (rest : Str) :
    collapseNlAux n ('\n' :: rest) = collapseNlAux (n + 1) rest := by
  simp [collapseNlAux]

theorem collapseNlAux_cons {c : Char} (n : Nat) (rest : Str) (h : c ≠ '\n') :
    collapseNlAux n (c :: rest) = List.replicate (min n 2) '\n' ++ c :: collapseNlAux 0 rest := by
  simp [collapseNlAux, h]

theorem collapseNlAux_zero_append {l : Str} (rest : Str) (h : '\n' ∉ l) :
    collapseNlAux 0 (l ++ rest) = l ++ collapseNlAux 0 rest := by
  induction l with
  | nil => rfl
  | cons c cs ih =>
    have hc : c ≠ '\n' := fun hq => h (hq ▸ List.mem_cons_self c cs)
    rw [List.cons_append, collapseNlAux_cons 0 _ hc]
    simp only [Nat.zero_min, List.replicate_zero, List.nil_append]
    rw [ih (fun hm => h (List.mem_cons_of_mem _ hm))]
    simp

theorem collapseNlAux_repl (n k : Nat) (rest : Str) :
    collapseNlAux n (List.replicate k '\n' ++ rest) = collapseNlAux (n + k) rest := by
  induction k generalizing n with
  | zero => simp
  | succ m ih =>
    rw [List.replicate_succ, List.cons_append, collapseNlAux_nl, ih]
    congr 1
    omega

theorem collapseNlAux_one_of_head {s : Str} (hne : s ≠ []) (h : s.headD ' ' ≠ '\n') :
    collapseNlAux 1 s = '\n' :: collapseNlAux 0 s := by
  cases s with
  | nil => exact absurd rfl hne
  | cons c cs =>
    simp only [List.headD_cons] at h
    rw [collapseNlAux_cons 1 _ h, collapseNlAux_cons 0 _ h]
    simp

/-- Collapsing newline runs passes unchanged over a joined list of non-empty,
newline-free lines. -/
theorem collapseNlAux_join {L : List Str} (rest : Str)
    (h : ∀ l ∈ L, l ≠ [] ∧ '\n' ∉ l) :
    collapseNlAux 0 (joinNl L ++ rest) = joinNl L ++ collapseNlAux 0 rest := by
  induction L with
  | nil => rfl
  | cons l ls ih =>
    cases ls with
    | nil =>
      simpa [joinNl] using collapseNlAux_zero_append rest (h l (by simp)).2
    | cons m ms =>
      have hl := h l (by simp)
      have hm := h m (by simp)
      have ihm := ih (fun x hx => h x (List.mem_cons_of_mem _ hx))
      have hjoin_ne : joinNl (m :: ms) ++ rest ≠ [] := by
        intro hq
        rcases List.append_eq_nil.mp hq with ⟨hq1, _⟩
        cases ms with
        | nil => exact hm.1 (by simpa [joinNl] using hq1)
        | cons m' ms' =>
          simp only [joinNl] at hq1
          exact hm.1 (List.append_eq_nil.mp hq1).1
      have hhead : (joinNl (m :: ms) ++ rest).headD ' ' ≠ '\n' := by
        have hm_ne := hm.1
        have : (joinNl (m :: ms) ++ rest).headD ' ' = m.headD ' ' := by
          cases hmm : m with
          | nil => exact absurd hmm hm_ne
          | cons c cs =>
            cases ms with
            | nil => simp [joinNl, hmm]
            | cons m' ms' => simp [joinNl, hmm]
        rw [this]
        intro hq
        cases hmm : m with
        | nil => exact hm_ne hmm
        | cons c cs =>
          rw [hmm] at hq
          simp only [List.headD_cons] at hq
          exact hm.2 (hq ▸ (hmm ▸ List.mem_cons_self c cs))
      have step : joinNl (l :: m :: ms) ++ rest = l ++ '\n' :: (joinNl (m :: ms) ++ rest) := by
        simp [joinNl]
      rw [step, collapseNlAux_zero_append _ hl.2, collapseNlAux_nl 0,
        collapseNlAux_one_of_head hjoin_ne hhead, ihm]
      simp [joinNl]

/-! ## Decimal round trip (`${n}` templates vs `parseInt`) -/

theorem digitChar_isDigit {m : Nat} (h : m < 10) : (Nat.digitChar m).isDigit = true := by
  interval_cases m <;> decide

theorem digitChar_val {m : Nat} (h : m < 10) :
    (Nat.digitChar m).toNat - '0'.toNat = m := by
  interval_cases m <;> decide

theorem isJsSpace_of_digit {c : Char} (h : c.isDigit = true) : isJsSpace c = false := by
  by_contra hq
  have hq' : isJsSpace c = true := by revert hq; cases isJsSpace c <;> simp
  have : ((c = ' ' ∨ c = '\t') ∨ c = '\n') ∨ c = '\r' := by
    simpa [isJsSpace] using hq'
  rcases this with ((rfl | rfl) | rfl) | rfl <;> simp at h

theorem natDigitsRev_digits (n : Nat) : ∀ c ∈ natDigitsRev n, c.isDigit = true := by
  induction n using Nat.strong_induction_on with
  | _ n ih =>
    cases n with
    | zero => intro c hc; simp [natDigitsRev] at hc
    | succ m =>
      intro c hc
      rw [natDigitsRev] at hc
      rcases List.mem_cons.mp hc with rfl | hc
      · exact digitChar_isDigit (Nat.mod_lt _ (by omega))
      · exact ih ((m + 1) / 10) (Nat.div_lt_self (by omega) (by omega)) c hc

theorem digitsToNat_append (xs : Str) (c : Char) :
    digitsToNat (xs ++ [c]) = 10 * digitsToNat xs + (c.toNat - '0'.toNat) := by
  simp [digitsToNat, List.foldl_append]
  ring

theorem digitsToNat_natDigitsRev (n : Nat) :
    digitsToNat (natDigitsRev n).reverse = n := by
  induction n using Nat.strong_induction_on with
  | _ n ih =>
    cases n with
    | zero => simp [natDigitsRev, digitsToNat]
    | succ m =>
      rw [natDigitsRev, List.reverse_cons, digitsToNat_append,
        ih ((m + 1) / 10) (Nat.div_lt_self (by omega) (by omega)),
        digitChar_val (Nat.mod_lt _ (by omega))]
      omega

theorem intToStr_pos_digits {n : Int} (h : 0 < n) :
    ∀ c ∈ intToStr n, c.isDigit = true := by
  intro c hc
  unfold intToStr at hc
  rw [if_neg (by omega), if_neg (by omega)] at hc
  exact natDigitsRev_digits n.natAbs c (List.mem_reverse.mp hc)

theorem natDigitsRev_pos_ne_nil {k : Nat} (h : 0 < k) : natDigitsRev k ≠ [] := by
  cases k with
  | zero => omega
  | succ m => rw [natDigitsRev]; simp

theorem intToStr_pos_eq {n : Int} (h : 0 < n) :
    intToStr n = (natDigitsRev n.natAbs).reverse := by
  unfold intToStr
  rw [if_neg (by omega), if_neg (by omega)]

theorem intToStr_pos_ne_nil {n : Int} (h : 0 < n) : intToStr n ≠ [] := by
  rw [intToStr_pos_eq h]
  simpa using natDigitsRev_pos_ne_nil (k := n.natAbs) (by omega)

theorem parseIntJS_of_digits {s : Str} (hne : s ≠ [])
    (hd : ∀ c ∈ s, c.isDigit = true) :
    parseIntJS s = some (digitsToNat s : Int) := by
  have hdrop : s.dropWhile isJsSpace = s := by
    apply List.dropWhile_eq_self_iff.mpr
    intro hlen
    rw [isJsSpace_of_digit (hd _ (List.get_mem _ _ _))]
    simp
  have hhead : s.headD 'x' ≠ '-' ∧ s.headD 'x' ≠ '+' := by
    cases s with
    | nil => exact absurd rfl hne
    | cons c cs =>
      have hc := hd c (List.mem_cons_self c cs)
      constructor <;> intro hq <;> simp only [List.headD_cons] at hq <;>
        rw [hq] at hc <;> simp at hc
  have htake : s.takeWhile Char.isDigit = s := by
    apply List.takeWhile_eq_self_iff.mpr
    intro i hi
    exact hd _ hi
  unfold parseIntJS
  simp only [hdrop, if_neg hhead.1, if_neg hhead.2, htake]
  rw [if_neg (by simpa using hne)]

theorem parseIntJS_intToStr {n : Int} (h : 0 < n) : parseIntJS (intToStr n) = some n := by
  rw [parseIntJS_of_digits (intToStr_pos_ne_nil h) (intToStr_pos_digits h),
    intToStr_pos_eq h, digitsToNat_natDigitsRev]
  congr 1
  omega

/-! ## Shape facts about serialized blocks -/

theorem mem_getLastD {α : Type _} {l : List α} (d : α) (h : l ≠ []) : l.getLastD d ∈ l := by
  induction l using List.reverseRecOn with
  | nil => exact absurd rfl h
  | append_singleton xs x _ => rw [List.getLastD_concat]; simp

theorem getLastD_append_right {α : Type _} {a v : List α} (d : α) (h : v ≠ []) :
    (a ++ v).getLastD d = v.getLastD d := by
  induction v using List.reverseRecOn with
  | nil => exact absurd rfl h
  | append_singleton xs x _ =>
    rw [← List.append_assoc, List.getLastD_concat, List.getLastD_concat]

theorem headD_append_left {α : Type _} {a v : List α} (d : α) (h : a ≠ []) :
    (a ++ v).headD d = a.headD d := by
  cases a with
  | nil => exact absurd rfl h
  | cons c cs => rfl

theorem not_isPrefixOf_append {a b v : Str} (h : a.isPrefixOf b = false)
    (hlen : a.length ≤ b.length) : a.isPrefixOf (b ++ v) = false := by
  by_contra hq
  have hq' : a.isPrefixOf (b ++ v) = true := by revert hq; cases a.isPrefixOf (b ++ v) <;> simp
  have hpre : a <+: b ++ v := List.isPrefixOf_iff_prefix.mp hq'
  have htake : (b ++ v).take a.length = a := (List.prefix_iff_eq_take.mp hpre).symm
  rw [List.take_append_of_le_length hlen] at htake
  have : a <+: b := htake ▸ List.take_prefix a.length b
  rw [← List.isPrefixOf_iff_prefix, h] at this
  exact Bool.noConfusion this

/-- `trim()` of a two-space-indented line whose payload has no whitespace at
either end. -/
theorem jsTrim_two_sp {m : Str} (h1 : isJsSpace (m.headD '.') = false)
    (h2 : isJsSpace (m.getLastD '.') = false) :
    jsTrim (strLit "  " ++ m) = m := by
  have hsp : ∀ c ∈ strLit "  ", isJsSpace c = true := by decide
  unfold jsTrim
  rw [trimStart_append_sp hsp, trimStart_eq_self h1, trimEnd_eq_self h2]

theorem bodyLineOk_mk (p : String) {v : Str}
    (hp : 7 ≤ p.data.length)
    (hp2 : p.data.take 2 = strLit "  ")
    (hpc : isJsSpace ((p.data.drop 2).headD '.') = false)
    (hpnl : ∀ c ∈ p.data, c ≠ '\n')
    (hpH : (strLit "Host ").isPrefixOf (p.data.drop 2) = false)
    (hv : v ≠ [])
    (hvnl : ∀ c ∈ v, c ≠ '\n')
    (hvl : isJsSpace (v.getLastD '.') = false) :
    bodyLineOk (p.data ++ v) := by
  have hsplit : p.data = strLit "  " ++ p.data.drop 2 := by
    conv_lhs => rw [← List.take_append_drop 2 p.data]
    rw [hp2]
  have hd2len : 5 ≤ (p.data.drop 2).length := by
    rw [List.length_drop]; omega
  have hd2ne : p.data.drop 2 ≠ [] := by
    intro hq; rw [hq] at hd2len; simp at hd2len
  have hsp2 : strLit "  " = [' ', ' '] := rfl
  refine ⟨by intro hq; exact hv (List.append_eq_nil.mp hq).2, ?_, ?_, ?_, ?_, ?_, ?_⟩
  · intro c hc
    rcases List.mem_append.mp hc with hc | hc
    · exact hpnl c hc
    · exact hvnl c hc
  · rw [hsplit, hsp2]
    simp [List.isPrefixOf]
  · rw [hsplit, hsp2]
    show (strLit "Host ").isPrefixOf (' ' :: ' ' :: (p.data.drop 2 ++ v)) = false
    simp [strLit, List.isPrefixOf]
  · have htr : jsTrim (p.data ++ v) = p.data.drop 2 ++ v := by
      rw [hsplit, List.append_assoc]
      exact jsTrim_two_sp (by rwa [headD_append_left _ hd2ne])
        (by rwa [getLastD_append_right _ hv])
    rw [htr]
    simp [hd2ne]
  · have htr : jsTrim (p.data ++ v) = p.data.drop 2 ++ v := by
      rw [hsplit, List.append_assoc]
      exact jsTrim_two_sp (by rwa [headD_append_left _ hd2ne])
        (by rwa [getLastD_append_right _ hv])
    rw [htr]
    exact not_isPrefixOf_append hpH (by simpa [strLit] using hd2len)
  · rwa [getLastD_append_right _ hv]

/-! ## Well-formedness unpacking -/

theorem cleanVal_facts {v : Str} (h : cleanVal v = true) :
    v ≠ [] ∧ (∀ c ∈ v, c ≠ '\n') ∧ isJsSpace (v.headD '.') = false ∧
    isJsSpace (v.getLastD '.') = false := by
  simp only [cleanVal, Bool.and_eq_true, Bool.not_eq_true', List.all_eq_true] at h
  obtain ⟨⟨⟨hne, hnl⟩, hh⟩, hl⟩ := h
  refine ⟨by simpa using hne, ?_, hh, hl⟩
  intro c hc hq
  have := hnl c hc
  rw [hq] at this
  simp at this

theorem tokenVal_facts {v : Str} (h : tokenVal v = true) :
    v ≠ [] ∧ (∀ c ∈ v, isJsSpace c = false) := by
  simp only [tokenVal, Bool.and_eq_true, Bool.not_eq_true', List.all_eq_true] at h
  exact ⟨by simpa using h.1, h.2⟩

theorem headD_mem {α : Type _} {l : List α} (d : α) (h : l ≠ []) : l.headD d ∈ l := by
  cases l with
  | nil => exact absurd rfl h
  | cons c cs => simp

theorem tokenVal_cleanish {v : Str} (h : tokenVal v = true) :
    v ≠ [] ∧ (∀ c ∈ v, c ≠ '\n') ∧ isJsSpace (v.headD '.') = false ∧
    isJsSpace (v.getLastD '.') = false ∧ ' ' ∉ v := by
  obtain ⟨hne, hws⟩ := tokenVal_facts h
  refine ⟨hne, ?_, hws _ (headD_mem '.' hne), hws _ (mem_getLastD '.' hne), ?_⟩
  · intro c hc hq
    have := hws c hc
    rw [hq] at this
    simp [isJsSpace] at this
  · intro hmem
    have := hws ' ' hmem
    simp [isJsSpace] at this

theorem wfRec_parts {c : SSHConnection} (h : wfRec c = true) :
    tokenVal c.host = true ∧ cleanVal c.hostname = true ∧ optClean c.user = true ∧
    optPos c.port = true ∧ optClean c.identityFile = true ∧
    optClean c.proxyCommand = true ∧ optClean c.localForward = true ∧
    optClean c.remoteForward = true ∧ optPos c.serverAliveInterval = true ∧
    optPos c.serverAliveCountMax = true ∧ optClean c.logLevel = true ∧
    tagOk c.vFolderTag = true := by
  simpa [wfRec, Bool.and_eq_true, and_assoc] using h

theorem strT_getD {o : Option Str} (h : strT o = true) :
    o = some (o.getD []) ∧ o.getD [] ≠ [] := by
  cases o with
  | none => simp [strT] at h
  | some v =>
    simp only [strT, Bool.not_eq_true', List.isEmpty_eq_false] at h
    exact ⟨rfl, by simpa using h⟩

theorem numT_pos {o : Option Int} (ht : numT o = true) (hp : optPos o = true) :
    o = some (o.getD 0) ∧ 0 < o.getD 0 := by
  cases o with
  | none => simp [numT] at ht
  | some v => exact ⟨rfl, by simpa [optPos] using hp⟩

theorem optClean_val {o : Option Str} (hc : optClean o = true) (ht : strT o = true) :
    o.getD [] ≠ [] ∧ (∀ ch ∈ o.getD [], ch ≠ '\n') ∧
    isJsSpace ((o.getD []).headD '.') = false ∧
    isJsSpace ((o.getD []).getLastD '.') = false := by
  obtain ⟨ho, _⟩ := strT_getD ht
  have : cleanVal (o.getD []) = true := by
    cases o with
    | none => simp at ho
    | some v => simpa [optClean] using hc
  obtain ⟨h1, h2, h3, h4⟩ := cleanVal_facts this
  exact ⟨h1, h2, h3, h4⟩

theorem intToStr_val_facts {p : Int} (h : 0 < p) :
    intToStr p ≠ [] ∧ (∀ ch ∈ intToStr p, ch ≠ '\n') ∧
    isJsSpace ((intToStr p).getLastD '.') = false := by
  have hd := intToStr_pos_digits h
  have hne := intToStr_pos_ne_nil h
  refine ⟨hne, ?_, ?_⟩
  · intro ch hch hq
    have := hd ch hch
    rw [hq] at this
    simp at this
  · exact isJsSpace_of_digit (hd _ (mem_getLastD '.' hne))

/-! ## The serialized block: head line and body lines -/

theorem entryLines_eq (c : SSHConnection) :
    entryLines c = (strLit "Host " ++ c.host) :: entryBody c := by
  simp [entryLines, entryBody, entryLinesOpt]

theorem yesno_facts (b : Bool) :
    strLit (if b then "yes" else "no") ≠ [] ∧
    (∀ ch ∈ strLit (if b then "yes" else "no"), ch ≠ '\n') ∧
    isJsSpace ((strLit (if b then "yes" else "no")).getLastD '.') = false := by
  cases b <;> exact ⟨by decide, by decide, by decide⟩

theorem tagOk_val {o : Option Str} (h : tagOk o = true) (ht : strT o = true) :
    cleanVal (o.getD []) = true ∧ splitColonSpace (o.getD []) = [o.getD []] := by
  cases o with
  | none => simp [strT] at ht
  | some t => simpa [tagOk, Bool.and_eq_true] using h

theorem entryBody_ok {c : SSHConnection} (hwf : wfRec c = true) :
    ∀ l ∈ entryBody c, bodyLineOk l := by
  obtain ⟨hhost, hhn, huser, hport, hid, hproxy, hlf, hrf, hsai, hsacm, hll, htag⟩ :=
    wfRec_parts hwf
  intro l hl
  rw [entryBody, List.mem_filterMap] at hl
  obtain ⟨o, ho, hol⟩ := hl
  simp only [id] at hol
  subst hol
  simp only [entryLinesOpt, List.tail_cons, List.mem_cons, List.mem_singleton,
    List.not_mem_nil, or_false] at ho
  rcases ho with ho | ho | ho | ho | ho | ho | ho | ho | ho | ho | ho | ho | ho
  · -- vFolderTag comment line
    split_ifs at ho with hc1
    · obtain ⟨h1, h2, _, h4⟩ := cleanVal_facts (tagOk_val htag hc1).1
      exact (Option.some.inj ho) ▸
        bodyLineOk_mk "  # vFolderTag: " (by decide) (by decide) (by decide)
          (by decide) (by decide) h1 h2 h4
  · -- HostName line
    obtain ⟨h1, h2, _, h4⟩ := cleanVal_facts hhn
    exact (Option.some.inj ho) ▸
      bodyLineOk_mk "  HostName " (by decide) (by decide) (by decide)
        (by decide) (by decide) h1 h2 h4
  · -- User line
    split_ifs at ho with hc1
    · obtain ⟨h1, h2, _, h4⟩ := optClean_val huser hc1
      exact (Option.some.inj ho) ▸
        bodyLineOk_mk "  User " (by decide) (by decide) (by decide)
          (by decide) (by decide) h1 h2 h4
  · -- Port line
    split_ifs at ho with hc1
    · obtain ⟨_, hpos⟩ := numT_pos hc1 hport
      obtain ⟨h1, h2, h4⟩ := intToStr_val_facts hpos
      exact (Option.some.inj ho) ▸
        bodyLineOk_mk "  Port " (by decide) (by decide) (by decide)
          (by decide) (by decide) h1 h2 h4
  · -- IdentityFile line
    split_ifs at ho with hc1
    · obtain ⟨h1, h2, _, h4⟩ := optClean_val hid hc1
      exact (Option.some.inj ho) ▸
        bodyLineOk_mk "  IdentityFile " (by decide) (by decide) (by decide)
          (by decide) (by decide) h1 h2 h4
  · -- ProxyCommand line
    split_ifs at ho with hc1
    · obtain ⟨h1, h2, _, h4⟩ := optClean_val hproxy hc1
      exact (Option.some.inj ho) ▸
        bodyLineOk_mk "  ProxyCommand " (by decide) (by decide) (by decide)
          (by decide) (by decide) h1 h2 h4
  · -- ForwardAgent line
    rcases hfa : c.forwardAgent with _ | b
    · rw [hfa] at ho; exact Option.noConfusion ho
    · rw [hfa] at ho
      obtain ⟨h1, h2, h4⟩ := yesno_facts b
      exact (Option.some.inj ho) ▸
        bodyLineOk_mk "  ForwardAgent " (by decide) (by decide) (by decide)
          (by decide) (by decide) h1 h2 h4
  · -- LocalForward line
    split_ifs at ho with hc1
    · obtain ⟨h1, h2, _, h4⟩ := optClean_val hlf hc1
      exact (Option.some.inj ho) ▸
        bodyLineOk_mk "  LocalForward " (by decide) (by decide) (by decide)
          (by decide) (by decide) h1 h2 h4
  · -- RemoteForward line
    split_ifs at ho with hc1
    · obtain ⟨h1, h2, _, h4⟩ := optClean_val hrf hc1
      exact (Option.some.inj ho) ▸
        bodyLineOk_mk "  RemoteForward " (by decide) (by decide) (by decide)
          (by decide) (by decide) h1 h2 h4
  · -- Compression line
    rcases hcp : c.compression with _ | b
    · rw [hcp] at ho; exact Option.noConfusion ho
    · rw [hcp] at ho
      obtain ⟨h1, h2, h4⟩ := yesno_facts b
      exact (Option.some.inj ho) ▸
        bodyLineOk_mk "  Compression " (by decide) (by decide) (by decide)
          (by decide) (by decide) h1 h2 h4
  · -- ServerAliveInterval line
    split_ifs at ho with hc1
    · obtain ⟨_, hpos⟩ := numT_pos hc1 hsai
      obtain ⟨h1, h2, h4⟩ := intToStr_val_facts hpos
      exact (Option.some.inj ho) ▸
        bodyLineOk_mk "  ServerAliveInterval " (by decide) (by decide) (by decide)
          (by decide) (by decide) h1 h2 h4
  · -- ServerAliveCountMax line
    split_ifs at ho with hc1
    · obtain ⟨_, hpos⟩ := numT_pos hc1 hsacm
      obtain ⟨h1, h2, h4⟩ := intToStr_val_facts hpos
      exact (Option.some.inj ho) ▸
        bodyLineOk_mk "  ServerAliveCountMax " (by decide) (by decide) (by decide)
          (by decide) (by decide) h1 h2 h4
  · -- LogLevel line
    split_ifs at ho with hc1
    · obtain ⟨h1, h2, _, h4⟩ := optClean_val hll hc1
      exact (Option.some.inj ho) ▸
        bodyLineOk_mk "  LogLevel " (by decide) (by decide) (by decide)
          (by decide) (by decide) h1 h2 h4

/-! ## Host-line facts and aggregate block facts -/

theorem hostLine_isHost (host : Str) :
    (strLit "Host ").isPrefixOf (strLit "Host " ++ host) = true := by
  rw [List.isPrefixOf_iff_prefix]
  exact List.prefix_append _ _

theorem hostLine_not_sp (host : Str) :
    ([' '].isPrefixOf (strLit "Host " ++ host)) = false := by
  show ([' '].isPrefixOf ('H' :: (strLit "ost " ++ host))) = false
  simp [List.isPrefixOf]

theorem hostLine_nl {host : Str} (h : tokenVal host = true) :
    ∀ c ∈ strLit "Host " ++ host, c ≠ '\n' := by
  obtain ⟨_, h2, _, _, _⟩ := tokenVal_cleanish h
  have hfix : ∀ c ∈ strLit "Host ", c ≠ '\n' := by decide
  intro c hc
  rcases List.mem_append.mp hc with hc | hc
  · exact hfix c hc
  · exact h2 c hc

theorem hostLine_last {host : Str} (h : tokenVal host = true) :
    isJsSpace ((strLit "Host " ++ host).getLastD '.') = false := by
  obtain ⟨h1, _, _, h4, _⟩ := tokenVal_cleanish h
  rwa [getLastD_append_right _ h1]

theorem hostLine_trim {host : Str} (h : tokenVal host = true) :
    jsTrim (strLit "Host " ++ host) = strLit "Host " ++ host := by
  obtain ⟨h1, _, _, h4, _⟩ := tokenVal_cleanish h
  have hhd : isJsSpace ((strLit "Host " ++ host).headD '.') = false := by
    rw [headD_append_left '.' (by decide)]
    decide
  unfold jsTrim
  rw [trimStart_eq_self hhd, trimEnd_eq_self (by rwa [getLastD_append_right _ h1])]

theorem hostLine_split {host : Str} (h : tokenVal host = true) :
    (splitSp (strLit "Host " ++ host)).getD 1 [] = host := by
  obtain ⟨_, _, _, _, h5⟩ := tokenVal_cleanish h
  have : strLit "Host " ++ host = strLit "Host" ++ ' ' :: host := rfl
  rw [this, splitSp_append_cons host (by decide), splitSp_single h5]
  rfl

theorem entryLines_ne_nil (c : SSHConnection) : entryLines c ≠ [] := by
  rw [entryLines_eq]
  simp

theorem mem_entryLines {c : SSHConnection} {x : Str} :
    x ∈ entryLines c ↔ x = strLit "Host " ++ c.host ∨ x ∈ entryBody c := by
  rw [entryLines_eq]
  simp

theorem entryLines_facts {c : SSHConnection} (hwf : wfRec c = true) :
    ∀ l ∈ entryLines c, l ≠ [] ∧ '\n' ∉ l := by
  intro l hl
  rw [mem_entryLines] at hl
  rcases hl with rfl | hl
  · constructor
    · simp [strLit]
    · intro hm
      exact hostLine_nl (wfRec_parts hwf).1 _ hm rfl
  · obtain ⟨h1, h2, _⟩ := entryBody_ok hwf l hl
    exact ⟨h1, fun hm => h2 _ hm rfl⟩

theorem getLastD_joinNl {L : List Str} (d : Char) (hne : L ≠ [])
    (h : ∀ l ∈ L, l ≠ []) : (joinNl L).getLastD d = (L.getLastD []).getLastD d := by
  induction L with
  | nil => exact absurd rfl hne
  | cons l ls ih =>
    cases ls with
    | nil => simp [joinNl]
    | cons m ms =>
      have hrec := ih (by simp) (fun x hx => h x (List.mem_cons_of_mem _ hx))
      have hjoin_ne : joinNl (m :: ms) ≠ [] := by
        intro hq
        cases ms with
        | nil => exact h m (by simp) (by simpa [joinNl] using hq)
        | cons m2 ms2 =>
          simp only [joinNl] at hq
          exact h m (by simp) (List.append_eq_nil.mp hq).1
      show ((l ++ '\n' :: joinNl (m :: ms)).getLastD d) = _
      rw [getLastD_append_right d (by simp), show ('\n' :: joinNl (m :: ms)) = ['\n'] ++ joinNl (m :: ms) from rfl,
        getLastD_append_right d hjoin_ne, hrec]
      rfl

theorem headD_joinNl {L : List Str} (d : Char) (hne : L ≠ [])
    (h : ∀ l ∈ L, l ≠ []) : (joinNl L).headD d = (L.headD []).headD d := by
  cases L with
  | nil => exact absurd rfl hne
  | cons l ls =>
    cases ls with
    | nil => rfl
    | cons m ms =>
      show ((l ++ '\n' :: joinNl (m :: ms)).headD d) = _
      rw [headD_append_left d (h l (by simp))]
      rfl

theorem entry_last_ws {c : SSHConnection} (hwf : wfRec c = true) :
    isJsSpace ((buildConnectionEntry c).getLastD '.') = false := by
  unfold buildConnectionEntry
  rw [getLastD_joinNl '.' (entryLines_ne_nil c)
    (fun l hl => (entryLines_facts hwf l hl).1)]
  have hmem : (entryLines c).getLastD [] ∈ entryLines c :=
    mem_getLastD [] (entryLines_ne_nil c)
  rcases mem_entryLines.mp hmem with hm | hm
  · rw [hm]
    exact hostLine_last (wfRec_parts hwf).1
  · exact (entryBody_ok hwf _ hm).2.2.2.2.2.2

theorem entry_head {c : SSHConnection} (hwf : wfRec c = true) :
    (buildConnectionEntry c).headD '.' = 'H' := by
  unfold buildConnectionEntry
  rw [headD_joinNl '.' (entryLines_ne_nil c)
    (fun l hl => (entryLines_facts hwf l hl).1), entryLines_eq]
  rfl

/-! ## The `beautifySSHConfig` normalization theorem -/

theorem fold_body {body : List Str} (hb : ∀ l ∈ body, bodyLineOk l) :
    ∀ st : Bool × List Str, body.foldl beautifyStep st = (st.1, st.2 ++ body) := by
  induction body with
  | nil => intro st; simp
  | cons l ls ih =>
    intro st
    obtain ⟨_, _, hsp, _, htr, hnh, _⟩ := hb l (by simp)
    have hstep : beautifyStep st l = (st.1, st.2 ++ [l]) := by
      unfold beautifyStep
      rw [if_neg (by simp [hnh]), if_neg (by simp [hsp]), if_neg (by simp [htr])]
    rw [List.foldl_cons, hstep, ih (fun x hx => hb x (List.mem_cons_of_mem _ hx))]
    simp

theorem fold_blanks (k : Nat) :
    ∀ st : Bool × List Str, (List.replicate k ([] : Str)).foldl beautifyStep st =
      ((if k = 0 then st.1 else false), st.2 ++ List.replicate k []) := by
  induction k with
  | zero => intro st; simp
  | succ m ih =>
    intro st
    have htrnil : jsTrim ([] : Str) = [] := rfl
    have hstep : beautifyStep st [] = (false, st.2 ++ [[]]) := by
      unfold beautifyStep
      rw [htrnil]
      simp [List.isPrefixOf]
    rw [List.replicate_succ, List.foldl_cons, hstep, ih]
    cases m <;> simp [List.replicate_succ]

theorem sepIns_of_last_blank (acc : List Str) (h : jsTrim (acc.getLastD []) = []) :
    sepIns acc = [] := by
  unfold sepIns
  rw [if_neg]
  intro hq
  exact hq.2 h

theorem entry_getLast_trim_ne {r : SSHConnection} (hwf : wfRec r = true) :
    jsTrim ((entryLines r).getLastD []) ≠ [] := by
  have hmem : (entryLines r).getLastD [] ∈ entryLines r :=
    mem_getLastD [] (entryLines_ne_nil r)
  rcases mem_entryLines.mp hmem with hm | hm
  · rw [hm, hostLine_trim (wfRec_parts hwf).1]
    simp [strLit]
  · exact (entryBody_ok hwf _ hm).2.2.2.2.1

theorem sepIns_entry_end (A : List Str) {r : SSHConnection} (hwf : wfRec r = true) :
    sepIns (A ++ entryLines r) = [([] : Str)] := by
  unfold sepIns
  rw [if_pos]
  constructor
  · intro hq
    exact entryLines_ne_nil r (List.append_eq_nil.mp hq).2
  · rw [getLastD_append_right _ (entryLines_ne_nil r)]
    exact entry_getLast_trim_ne hwf

theorem fold_entry {r : SSHConnection} (hwf : wfRec r = true) :
    ∀ st : Bool × List Str, (entryLines r).foldl beautifyStep st =
      (true, st.2 ++ sepIns st.2 ++ entryLines r) := by
  intro st
  have hhost := (wfRec_parts hwf).1
  rw [entryLines_eq, List.foldl_cons]
  have hstep : beautifyStep st (strLit "Host " ++ r.host) =
      (true, st.2 ++ sepIns st.2 ++ [strLit "Host " ++ r.host]) := by
    unfold beautifyStep sepIns
    rw [if_pos (by rw [hostLine_trim hhost]; exact hostLine_isHost r.host)]
    rw [hostLine_trim hhost]
    split_ifs with hcond <;> simp
  rw [hstep, fold_body (fun x hx => entryBody_ok hwf x hx)]
  simp [entryLines_eq, List.append_assoc]

theorem replicate_blank_getLastD (a : Nat) :
    (List.replicate a ([] : Str)).getLastD [] = [] := by
  cases ha : a with
  | zero => rfl
  | succ m =>
    have hne : List.replicate (m + 1) ([] : Str) ≠ [] := by simp
    exact List.eq_of_mem_replicate (mem_getLastD [] hne)

theorem fold_stream {items : List (SSHConnection × Nat)}
    (hwf : ∀ p ∈ items, wfRec p.1 = true) :
    ∀ st : Bool × List Str, ((blkLines items).foldl beautifyStep st).2 =
      fmtTail st.2 items := by
  induction items with
  | nil => intro st; simp [blkLines, fmtTail]
  | cons p rest ih =>
    intro st
    obtain ⟨r, a⟩ := p
    have hwr : wfRec r = true := hwf (r, a) (by simp)
    rw [blkLines, List.append_assoc, List.foldl_append, fold_entry hwr st,
      List.foldl_append, fold_blanks a _]
    rcases rest with _ | ⟨q, qs⟩
    · simp only [blkLines, List.foldl_nil, fmtTail, fmtLines]
      simp [List.append_assoc]
    · have ihr := ih (fun x hx => hwf x (List.mem_cons_of_mem _ hx))
      have hstep := ihr ((if a = 0 then true else false),
        (st.2 ++ sepIns st.2 ++ entryLines r) ++ List.replicate a [])
      rw [hstep]
      show fmtTail ((st.2 ++ sepIns st.2 ++ entryLines r) ++ List.replicate a []) (q :: qs) =
        fmtTail st.2 ((r, a) :: q :: qs)
      rw [fmtTail, fmtTail]
      by_cases ha : a = 0
      · subst ha
        simp only [List.replicate_zero, List.append_nil]
        rw [sepIns_entry_end (st.2 ++ sepIns st.2) hwr]
        have hfmt : fmtLines ((r, 0) :: q :: qs) =
            entryLines r ++ List.replicate (max 0 1) [] ++ fmtLines (q :: qs) := rfl
        rw [hfmt]
        simp [List.append_assoc]
      · have ha1 : 1 ≤ a := by omega
        have hrepl_ne : List.replicate a ([] : Str) ≠ [] := by
          simp only [ne_eq, List.replicate_eq_nil_iff]
          omega
        rw [sepIns_of_last_blank ((st.2 ++ sepIns st.2 ++ entryLines r) ++ List.replicate a []) (by
          rw [getLastD_append_right _ hrepl_ne, replicate_blank_getLastD a]
          rfl)]
        have hfmt : fmtLines ((r, a) :: q :: qs) =
            entryLines r ++ List.replicate (max a 1) [] ++ fmtLines (q :: qs) := rfl
        rw [hfmt, max_eq_left ha1]
        simp [List.append_assoc]

theorem joinNl_cons_ne_nil {x : Str} (xs : List Str) (hx : x ≠ []) :
    joinNl (x :: xs) ≠ [] := by
  cases xs with
  | nil => simpa [joinNl] using hx
  | cons m ms =>
    simp only [joinNl]
    intro hq
    exact hx (List.append_eq_nil.mp hq).1

theorem joinNl_headD_cons {x : Str} (xs : List Str) (d : Char) (hx : x ≠ []) :
    (joinNl (x :: xs)).headD d = x.headD d := by
  cases xs with
  | nil => rfl
  | cons m ms =>
    show ((x ++ '\n' :: joinNl (m :: ms)).headD d) = _
    exact headD_append_left d hx

theorem getLastD_default_irrel {α : Type _} {l : List α} (d1 d2 : α) (h : l ≠ []) :
    l.getLastD d1 = l.getLastD d2 := by
  induction l using List.reverseRecOn with
  | nil => exact absurd rfl h
  | append_singleton xs x _ => rw [List.getLastD_concat, List.getLastD_concat]

theorem getLastD_joinNl_lastline {L : List Str} (d : Char) (hne : L ≠ [])
    (hlast : L.getLastD [] ≠ []) :
    (joinNl L).getLastD d = (L.getLastD []).getLastD d := by
  induction L with
  | nil => exact absurd rfl hne
  | cons l ls ih =>
    cases ls with
    | nil => simp [joinNl]
    | cons m ms =>
      have hlast' : (m :: ms).getLastD [] ≠ [] := by
        rw [List.getLastD_cons] at hlast
        rwa [getLastD_default_irrel l [] (by simp)] at hlast
      have hlast2 : (l :: m :: ms).getLastD [] = (m :: ms).getLastD [] := by
        rw [List.getLastD_cons]
        exact getLastD_default_irrel l [] (by simp)
      have hJ : joinNl (m :: ms) ≠ [] := by
        cases ms with
        | nil =>
          simp only [joinNl]
          rwa [show (m :: ([] : List Str)).getLastD [] = m by rfl] at hlast'
        | cons m2 ms2 =>
          simp only [joinNl]
          intro hq
          have := (List.append_eq_nil.mp hq).2
          simp at this
      have hrec := ih (by simp) hlast'
      show ((l ++ '\n' :: joinNl (m :: ms)).getLastD d) = _
      rw [getLastD_append_right d (by simp), List.getLastD_cons,
        getLastD_default_irrel '\n' d hJ, hrec, hlast2]

theorem canonLines_ne_nil {rs : List SSHConnection} (h : rs ≠ []) :
    canonLines rs ≠ [] := by
  cases rs with
  | nil => exact absurd rfl h
  | cons r rs' =>
    cases rs' with
    | nil => simpa [canonLines] using entryLines_ne_nil r
    | cons q qs =>
      show entryLines r ++ ([] : Str) :: canonLines (q :: qs) ≠ []
      intro hq
      have := (List.append_eq_nil.mp hq).2
      simp at this

theorem canonLines_cons_head {r : SSHConnection} (rs : List SSHConnection) :
    ∃ T, canonLines (r :: rs) = (strLit "Host " ++ r.host) :: T := by
  cases rs with
  | nil => exact ⟨entryBody r, by simp [canonLines, entryLines_eq]⟩
  | cons q qs =>
    refine ⟨entryBody r ++ ([] : Str) :: canonLines (q :: qs), ?_⟩
    show entryLines r ++ ([] : Str) :: canonLines (q :: qs) = _
    rw [entryLines_eq]
    simp

theorem canonLines_last {rs : List SSHConnection} (hne : rs ≠ [])
    (hwf : ∀ r ∈ rs, wfRec r = true) :
    (canonLines rs).getLastD [] ≠ [] ∧
    isJsSpace (((canonLines rs).getLastD []).getLastD '.') = false := by
  induction rs with
  | nil => exact absurd rfl hne
  | cons r rs' ih =>
    cases rs' with
    | nil =>
      rw [show canonLines [r] = entryLines r from rfl]
      have hmem : (entryLines r).getLastD [] ∈ entryLines r :=
        mem_getLastD [] (entryLines_ne_nil r)
      have hwr := hwf r (by simp)
      rcases mem_entryLines.mp hmem with hm | hm
      · rw [hm]
        exact ⟨by simp [strLit], hostLine_last (wfRec_parts hwr).1⟩
      · obtain ⟨h1, _, _, _, _, _, h7⟩ := entryBody_ok hwr _ hm
        exact ⟨h1, h7⟩
    | cons q qs =>
      have ihr := ih (by simp) (fun x hx => hwf x (List.mem_cons_of_mem _ hx))
      have hstep : (canonLines (r :: q :: qs)).getLastD [] =
          (canonLines (q :: qs)).getLastD [] := by
        show ((entryLines r ++ ([] : Str) :: canonLines (q :: qs)).getLastD []) = _
        rw [getLastD_append_right _ (by simp), List.getLastD_cons,
          getLastD_default_irrel [] [] ?hcc]
        case hcc => exact canonLines_ne_nil (by simp)
      rw [hstep]
      exact ihr

theorem mem_canonLines {rs : List SSHConnection} {l : Str} (h : l ∈ canonLines rs) :
    l = [] ∨ ∃ r ∈ rs, l ∈ entryLines r := by
  induction rs with
  | nil => simp [canonLines] at h
  | cons r rs' ih =>
    cases rs' with
    | nil =>
      right
      exact ⟨r, by simp, by simpa [canonLines] using h⟩
    | cons q qs =>
      have h' : l ∈ entryLines r ++ ([] : Str) :: canonLines (q :: qs) := h
      rcases List.mem_append.mp h' with hm | hm
      · exact Or.inr ⟨r, by simp, hm⟩
      · rcases List.mem_cons.mp hm with rfl | hm
        · exact Or.inl rfl
        · rcases ih hm with hl | ⟨x, hx, hlx⟩
          · exact Or.inl hl
          · exact Or.inr ⟨x, List.mem_cons_of_mem _ hx, hlx⟩

theorem mem_blkLines {items : List (SSHConnection × Nat)} {l : Str}
    (h : l ∈ blkLines items) : l = [] ∨ ∃ p ∈ items, l ∈ entryLines p.1 := by
  induction items with
  | nil => simp [blkLines] at h
  | cons p rest ih =>
    obtain ⟨r, a⟩ := p
    have h' : l ∈ entryLines r ++ List.replicate a [] ++ blkLines rest := h
    rcases List.mem_append.mp h' with hm | hm
    · rcases List.mem_append.mp hm with hm2 | hm2
      · exact Or.inr ⟨(r, a), by simp, hm2⟩
      · exact Or.inl (List.eq_of_mem_replicate hm2)
    · rcases ih hm with hl | ⟨x, hx, hlx⟩
      · exact Or.inl hl
      · exact Or.inr ⟨x, List.mem_cons_of_mem _ hx, hlx⟩

theorem mem_fmtLines {items : List (SSHConnection × Nat)} {l : Str}
    (h : l ∈ fmtLines items) : l = [] ∨ ∃ p ∈ items, l ∈ entryLines p.1 := by
  induction items with
  | nil => simp [fmtLines] at h
  | cons p rest ih =>
    obtain ⟨r, a⟩ := p
    cases rest with
    | nil =>
      have h' : l ∈ entryLines r ++ List.replicate a [] := h
      rcases List.mem_append.mp h' with hm | hm
      · exact Or.inr ⟨(r, a), by simp, hm⟩
      · exact Or.inl (List.eq_of_mem_replicate hm)
    | cons q qs =>
      have h' : l ∈ entryLines r ++ List.replicate (max a 1) [] ++ fmtLines (q :: qs) := h
      rcases List.mem_append.mp h' with hm | hm
      · rcases List.mem_append.mp hm with hm2 | hm2
        · exact Or.inr ⟨(r, a), by simp, hm2⟩
        · exact Or.inl (List.eq_of_mem_replicate hm2)
      · rcases ih hm with hl | ⟨x, hx, hlx⟩
        · exact Or.inl hl
        · exact Or.inr ⟨x, List.mem_cons_of_mem _ hx, hlx⟩

theorem fmtLines_cons_eq {p : SSHConnection × Nat} (rest : List (SSHConnection × Nat)) :
    ∃ T, fmtLines (p :: rest) = entryLines p.1 ++ T := by
  obtain ⟨r, a⟩ := p
  cases rest with
  | nil => exact ⟨List.replicate a [], rfl⟩
  | cons q qs =>
    exact ⟨List.replicate (max a 1) [] ++ fmtLines (q :: qs), by
      rw [show fmtLines ((r, a) :: q :: qs) = entryLines r ++ List.replicate (max a 1) [] ++ fmtLines (q :: qs) from rfl, List.append_assoc]⟩

theorem fmtLines_ne_nil {items : List (SSHConnection × Nat)} (h : items ≠ []) :
    fmtLines items ≠ [] := by
  cases items with
  | nil => exact absurd rfl h
  | cons p rest =>
    obtain ⟨T, hT⟩ := fmtLines_cons_eq (p := p) rest
    rw [hT]
    intro hq
    exact entryLines_ne_nil p.1 (List.append_eq_nil.mp hq).1

theorem blkLines_ne_nil {items : List (SSHConnection × Nat)} (h : items ≠ []) :
    blkLines items ≠ [] := by
  cases items with
  | nil => exact absurd rfl h
  | cons p rest =>
    obtain ⟨r, a⟩ := p
    show entryLines r ++ List.replicate a [] ++ blkLines rest ≠ []
    intro hq
    exact entryLines_ne_nil r (List.append_eq_nil.mp (List.append_eq_nil.mp hq).1).1

theorem joinNl_append_blanks {L : List Str} (k : Nat) (h : L ≠ []) :
    joinNl (L ++ List.replicate k []) = joinNl L ++ List.replicate k '\n' := by
  induction k with
  | zero => simp
  | succ m ih =>
    rw [List.replicate_succ', ← List.append_assoc, joinNl_append_blank (by
      intro hq
      exact h (List.append_eq_nil.mp hq).1), ih, List.replicate_succ']
    simp

theorem collapseNlAux_of_head {s : Str} (n : Nat) (hne : s ≠ [])
    (h : s.headD ' ' ≠ '\n') :
    collapseNlAux n s = List.replicate (min n 2) '\n' ++ collapseNlAux 0 s := by
  cases s with
  | nil => exact absurd rfl hne
  | cons c cs =>
    simp only [List.headD_cons] at h
    rw [collapseNlAux_cons n _ h, collapseNlAux_cons 0 _ h]
    simp

theorem joinNl_blank_cons {C : List Str} (h : C ≠ []) :
    joinNl (([] : Str) :: C) = '\n' :: joinNl C := by
  cases C with
  | nil => exact absurd rfl h
  | cons x xs => rfl

theorem fmt_collapse {items : List (SSHConnection × Nat)} (hne : items ≠ [])
    (hwf : ∀ p ∈ items, wfRec p.1 = true) (ha : ∀ p ∈ items, p.2 ≤ 2) :
    ∃ k ≤ 2, collapseNlAux 0 (joinNl (fmtLines items) ++ ['\n']) =
      joinNl (canonLines (items.map Prod.fst)) ++ List.replicate k '\n' := by
  induction items with
  | nil => exact absurd rfl hne
  | cons p rest ih =>
    obtain ⟨r, a⟩ := p
    have hwr : wfRec r = true := hwf (r, a) (by simp)
    have hEfacts : ∀ l ∈ entryLines r, l ≠ [] ∧ '\n' ∉ l := entryLines_facts hwr
    cases rest with
    | nil =>
      refine ⟨min (a + 1) 2, by omega, ?_⟩
      have h1 : fmtLines [(r, a)] = entryLines r ++ List.replicate a [] := rfl
      have h2 : List.replicate a '\n' ++ ['\n'] = List.replicate (a + 1) '\n' := by
        rw [List.replicate_succ']
      rw [h1, joinNl_append_blanks a (entryLines_ne_nil r), List.append_assoc, h2,
        collapseNlAux_join _ hEfacts,
        show List.replicate (a + 1) '\n' = List.replicate (a + 1) '\n' ++ [] by simp,
        collapseNlAux_repl 0 (a + 1) [], collapseNlAux_nil]
      simp [canonLines]
    | cons q qs =>
      have hrest_ne : (q :: qs : List (SSHConnection × Nat)) ≠ [] := by simp
      obtain ⟨k, hk, ihr⟩ := ih hrest_ne (fun x hx => hwf x (List.mem_cons_of_mem _ hx))
        (fun x hx => ha x (List.mem_cons_of_mem _ hx))
      set g := max a 1 with hg
      have hg1 : 1 ≤ g := le_max_right a 1
      have h1 : fmtLines ((r, a) :: q :: qs) =
          (entryLines r ++ List.replicate g []) ++ fmtLines (q :: qs) := by
        rw [show fmtLines ((r, a) :: q :: qs) = entryLines r ++ List.replicate g [] ++ fmtLines (q :: qs) from rfl]
      have hEg_ne : entryLines r ++ List.replicate g ([] : Str) ≠ [] := by
        intro hq
        exact entryLines_ne_nil r (List.append_eq_nil.mp hq).1
      rw [h1, joinNl_append hEg_ne (fmtLines_ne_nil hrest_ne),
        joinNl_append_blanks g (entryLines_ne_nil r)]
      have hshape : (joinNl (entryLines r) ++ List.replicate g '\n') ++ '\n' :: joinNl (fmtLines (q :: qs)) ++ ['\n'] =
          joinNl (entryLines r) ++ (List.replicate (g + 1) '\n' ++ (joinNl (fmtLines (q :: qs)) ++ ['\n'])) := by
        rw [List.replicate_succ']
        simp [List.append_assoc]
      rw [hshape, collapseNlAux_join _ hEfacts, collapseNlAux_repl 0 (g + 1) _]
      obtain ⟨qT, hqT⟩ := fmtLines_cons_eq (p := q) qs
      have hFexp : fmtLines (q :: qs) = (strLit "Host " ++ q.1.host) :: (entryBody q.1 ++ qT) := by
        rw [hqT, entryLines_eq, List.cons_append]
      have hhost_ne : strLit "Host " ++ q.1.host ≠ [] := by simp [strLit]
      have hF_ne : joinNl (fmtLines (q :: qs)) ++ ['\n'] ≠ [] := by simp
      have hHD : (joinNl (fmtLines (q :: qs)) ++ ['\n']).headD ' ' ≠ '\n' := by
        rw [hFexp, headD_append_left ' ' (joinNl_cons_ne_nil _ hhost_ne),
          joinNl_headD_cons _ ' ' hhost_ne]
        rw [headD_append_left ' ' (by simp [strLit])]
        decide
      rw [show (0 + (g + 1)) = g + 1 from by omega,
        collapseNlAux_of_head (g + 1) hF_ne hHD, ihr,
        show min (g + 1) 2 = 2 from by omega]
      refine ⟨k, hk, ?_⟩
      have hmapne : ((q :: qs).map Prod.fst) ≠ [] := by simp
      have hcanon : canonLines (r :: Prod.fst q :: List.map Prod.fst qs) =
          entryLines r ++ ([] : Str) :: canonLines (Prod.fst q :: List.map Prod.fst qs) := rfl
      simp only [List.map_cons]
      rw [hcanon, joinNl_append (entryLines_ne_nil r) (by simp),
        joinNl_blank_cons (canonLines_ne_nil (by simp))]
      simp only [List.map_cons] at ihr
      simp [List.append_assoc, List.replicate_succ]

theorem beautifyStep_blank_snd (st : Bool × List Str) :
    (beautifyStep st []).2 = st.2 ++ [[]] := by
  have h := fold_blanks 1 st
  simp only [List.replicate_succ, List.replicate_zero, List.foldl_cons, List.foldl_nil] at h
  rw [h]

theorem fmtTail_nil_acc {items : List (SSHConnection × Nat)} (hne : items ≠ []) :
    fmtTail [] items = fmtLines items := by
  cases items with
  | nil => exact absurd rfl hne
  | cons p rest =>
    show ([] : List Str) ++ sepIns [] ++ fmtLines (p :: rest) = _
    rw [sepIns_of_last_blank [] rfl]
    simp

theorem wf_map_fst {items : List (SSHConnection × Nat)}
    (hwf : ∀ p ∈ items, wfRec p.1 = true) :
    ∀ r ∈ items.map Prod.fst, wfRec r = true := by
  intro r hr
  rcases List.mem_map.mp hr with ⟨p, hp, rfl⟩
  exact hwf p hp

/-- Master normalization theorem: `beautifySSHConfig` turns any raw block
stream (blocks of well-formed records separated by at most two blank lines)
into the canonical file for those records. -/
theorem beautify_canon {items : List (SSHConnection × Nat)} (hne : items ≠ [])
    (hwf : ∀ p ∈ items, wfRec p.1 = true) (ha : ∀ p ∈ items, p.2 ≤ 2) :
    beautifySSHConfig (joinNl (blkLines items) ++ ['\n']) = canonFile (items.map Prod.fst) := by
  have hblk_nl : ∀ l ∈ blkLines items, '\n' ∉ l := by
    intro l hl
    rcases mem_blkLines hl with rfl | ⟨p, hp, hlp⟩
    · simp
    · exact (entryLines_facts (hwf p hp) l hlp).2
  have hsplit : splitNl (joinNl (blkLines items) ++ ['\n']) = blkLines items ++ [[]] := by
    rw [splitNl_append_blank, splitNl_joinNl hblk_nl (blkLines_ne_nil hne)]
  show jsTrim (collapseNl (joinNl (((splitNl (joinNl (blkLines items) ++ ['\n'])).foldl beautifyStep (false, [])).2))) ++ ['\n'] = canonFile (items.map Prod.fst)
  rw [hsplit, List.foldl_append]
  have hfold2 : ((List.foldl beautifyStep (List.foldl beautifyStep (false, []) (blkLines items)) [[]])).2 =
      fmtLines items ++ [[]] := by
    rw [show (List.foldl beautifyStep (List.foldl beautifyStep (false, []) (blkLines items)) [[]]) =
      beautifyStep (List.foldl beautifyStep (false, []) (blkLines items)) [] from rfl]
    rw [beautifyStep_blank_snd, fold_stream hwf, fmtTail_nil_acc hne]
  rw [hfold2, joinNl_append_blank (fmtLines_ne_nil hne)]
  unfold collapseNl
  obtain ⟨k, hk, hcol⟩ := fmt_collapse hne hwf ha
  rw [hcol]
  -- now trim the trailing newlines
  rcases hitems : items with _ | ⟨p, rest⟩
  · exact absurd hitems hne
  rw [← hitems]
  have hmap_ne : items.map Prod.fst ≠ [] := by rw [hitems]; simp
  obtain ⟨T, hT⟩ : ∃ T, canonLines (items.map Prod.fst) = (strLit "Host " ++ p.1.host) :: T := by
    rw [hitems, List.map_cons]
    exact canonLines_cons_head _
  have hhost_ne : strLit "Host " ++ p.1.host ≠ [] := by simp [strLit]
  have hjC_ne : joinNl (canonLines (items.map Prod.fst)) ≠ [] := by
    rw [hT]
    exact joinNl_cons_ne_nil _ hhost_ne
  have hhd : isJsSpace ((joinNl (canonLines (items.map Prod.fst)) ++ List.replicate k '\n').headD '.') = false := by
    rw [headD_append_left '.' hjC_ne, hT, joinNl_headD_cons _ '.' hhost_ne,
      headD_append_left '.' (by simp [strLit])]
    decide
  obtain ⟨hlast_ne, hlast_ws⟩ := canonLines_last hmap_ne (wf_map_fst hwf)
  have hlast : isJsSpace ((joinNl (canonLines (items.map Prod.fst))).getLastD '.') = false := by
    rw [getLastD_joinNl_lastline '.' (canonLines_ne_nil hmap_ne) hlast_ne]
    exact hlast_ws
  have htrim : jsTrim (joinNl (canonLines (items.map Prod.fst)) ++ List.replicate k '\n') =
      joinNl (canonLines (items.map Prod.fst)) := by
    unfold jsTrim
    rw [trimStart_eq_self hhd, trimEnd_append_sp (by
      intro c hc
      rw [List.eq_of_mem_replicate hc]
      rfl), trimEnd_eq_self hlast]
  rw [htrim]
  rfl

/-! ## Parsing a canonical file (`getAllConnections`) -/

theorem parseStep_body {acc : List SSHConnection} {c : SSHConnection} {l : Str}
    (hnh : (strLit "Host ").isPrefixOf l = false) :
    parseStep (acc, some c) l =
      (acc, some (applyField c ((splitSp (jsTrim l)).headD []) (joinSp (splitSp (jsTrim l)).tail))) := by
  unfold parseStep
  rw [if_neg (by simp [hnh])]

theorem parseStep_keyline (acc : List SSHConnection) (c : SSHConnection) (k v : Str)
    (hk_ne : k ≠ []) (hk_sp : ' ' ∉ k) (hk_hd : isJsSpace (k.headD '.') = false)
    (hv_ne : v ≠ []) (hv_last : isJsSpace (v.getLastD '.') = false) :
    parseStep (acc, some c) (strLit "  " ++ (k ++ ' ' :: v)) = (acc, some (applyField c k v)) := by
  have hsp2 : strLit "  " = [' ', ' '] := rfl
  have hnh : (strLit "Host ").isPrefixOf (strLit "  " ++ (k ++ ' ' :: v)) = false := by
    rw [hsp2]
    show (strLit "Host ").isPrefixOf (' ' :: ' ' :: (k ++ ' ' :: v)) = false
    simp [strLit, List.isPrefixOf]
  have htr : jsTrim (strLit "  " ++ (k ++ ' ' :: v)) = k ++ ' ' :: v := by
    apply jsTrim_two_sp
    · rwa [headD_append_left '.' hk_ne]
    · rw [show (k ++ ' ' :: v) = (k ++ [' ']) ++ v from by simp,
        getLastD_append_right '.' hv_ne]
      exact hv_last
  rw [parseStep_body hnh, htr, splitSp_append_cons v hk_sp]
  simp only [List.headD_cons, List.tail_cons]
  rw [joinSp_splitSp]

theorem applyField_hostname (c : SSHConnection) (v : Str) :
    applyField c (strLit "HostName") v = { c with hostname := v } := by
  unfold applyField
  rw [if_pos rfl]

theorem applyField_user (c : SSHConnection) (v : Str) :
    applyField c (strLit "User") v = { c with user := some v } := by
  unfold applyField
  rw [if_neg (by decide), if_pos rfl]

theorem applyField_port (c : SSHConnection) (v : Str) :
    applyField c (strLit "Port") v = { c with port := parseIntJS v } := by
  unfold applyField
  rw [if_neg (by decide), if_neg (by decide), if_pos rfl]

theorem applyField_identityFile (c : SSHConnection) (v : Str) :
    applyField c (strLit "IdentityFile") v = { c with identityFile := some v } := by
  unfold applyField
  rw [if_neg (by decide), if_neg (by decide), if_neg (by decide), if_pos rfl]

theorem applyField_proxyCommand (c : SSHConnection) (v : Str) :
    applyField c (strLit "ProxyCommand") v = { c with proxyCommand := some v } := by
  unfold applyField
  rw [if_neg (by decide), if_neg (by decide), if_neg (by decide), if_neg (by decide),
    if_pos rfl]

theorem applyField_forwardAgent (c : SSHConnection) (v : Str) :
    applyField c (strLit "ForwardAgent") v = { c with forwardAgent := some (v = strLit "yes") } := by
  unfold applyField
  rw [if_neg (by decide), if_neg (by decide), if_neg (by decide), if_neg (by decide),
    if_neg (by decide), if_pos rfl]

theorem applyField_localForward (c : SSHConnection) (v : Str) :
    applyField c (strLit "LocalForward") v = { c with localForward := some v } := by
  unfold applyField
  rw [if_neg (by decide), if_neg (by decide), if_neg (by decide), if_neg (by decide),
    if_neg (by decide), if_neg (by decide), if_pos rfl]

theorem applyField_remoteForward (c : SSHConnection) (v : Str) :
    applyField c (strLit "RemoteForward") v = { c with remoteForward := some v } := by
  unfold applyField
  rw [if_neg (by decide), if_neg (by decide), if_neg (by decide), if_neg (by decide),
    if_neg (by decide), if_neg (by decide), if_neg (by decide), if_pos rfl]

theorem applyField_compression (c : SSHConnection) (v : Str) :
    applyField c (strLit "Compression") v = { c with compression := some (v = strLit "yes") } := by
  unfold applyField
  rw [if_neg (by decide), if_neg (by decide), if_neg (by decide), if_neg (by decide),
    if_neg (by decide), if_neg (by decide), if_neg (by decide), if_neg (by decide),
    if_pos rfl]

theorem applyField_serverAliveInterval (c : SSHConnection) (v : Str) :
    applyField c (strLit "ServerAliveInterval") v = { c with serverAliveInterval := parseIntJS v } := by
  unfold applyField
  rw [if_neg (by decide), if_neg (by decide), if_neg (by decide), if_neg (by decide),
    if_neg (by decide), if_neg (by decide), if_neg (by decide), if_neg (by decide),
    if_neg (by decide), if_pos rfl]

theorem applyField_serverAliveCountMax (c : SSHConnection) (v : Str) :
    applyField c (strLit "ServerAliveCountMax") v = { c with serverAliveCountMax := parseIntJS v } := by
  unfold applyField
  rw [if_neg (by decide), if_neg (by decide), if_neg (by decide), if_neg (by decide),
    if_neg (by decide), if_neg (by decide), if_neg (by decide), if_neg (by decide),
    if_neg (by decide), if_neg (by decide), if_pos rfl]

theorem applyField_logLevel (c : SSHConnection) (v : Str) :
    applyField c (strLit "LogLevel") v = { c with logLevel := some v } := by
  unfold applyField
  rw [if_neg (by decide), if_neg (by decide), if_neg (by decide), if_neg (by decide),
    if_neg (by decide), if_neg (by decide), if_neg (by decide), if_neg (by decide),
    if_neg (by decide), if_neg (by decide), if_neg (by decide), if_pos rfl]

theorem splitColonSpace_ne_nil (s : Str) : splitColonSpace s ≠ [] := by
  induction s with
  | nil => simp [splitColonSpace]
  | cons c cs ih =>
    rw [splitColonSpace.eq_def]
    split
    · simp
    · simp
    · rcases h : splitColonSpace _ with _ | ⟨x, xs⟩ <;> simp

theorem splitColonSpace_cons_ne {c : Char} (rest : Str) (hc : c ≠ ':') :
    splitColonSpace (c :: rest) =
      match splitColonSpace rest with
      | [] => [[c]]
      | h :: t => (c :: h) :: t := by
  rw [splitColonSpace.eq_def]
  split
  · rename_i heq
    exact absurd heq (by simp)
  · rename_i r heq
    rw [List.cons_eq_cons] at heq
    exact absurd heq.1 hc
  · rename_i h2
    obtain ⟨e1, e2⟩ := List.cons_eq_cons.mp h2
    subst e1
    subst e2
    rfl

theorem splitColonSpace_append {k : Str} (rest : Str) {h : Str} {t : List Str}
    (hk : ':' ∉ k) (hr : splitColonSpace rest = h :: t) :
    splitColonSpace (k ++ rest) = (k ++ h) :: t := by
  induction k with
  | nil => simpa using hr
  | cons c cs ih =>
    have hc : c ≠ ':' := fun hq => hk (hq ▸ List.mem_cons_self c cs)
    have ihr := ih (fun hm => hk (List.mem_cons_of_mem _ hm))
    rw [List.cons_append, splitColonSpace_cons_ne _ hc, ihr]
    simp

theorem applyField_tag (c : SSHConnection) {t : Str}
    (hfree : splitColonSpace t = [t]) :
    applyField c ['#'] (strLit "vFolderTag: " ++ t) = { c with vFolderTag := some t } := by
  unfold applyField
  rw [if_neg (by decide), if_neg (by decide), if_neg (by decide), if_neg (by decide),
    if_neg (by decide), if_neg (by decide), if_neg (by decide), if_neg (by decide),
    if_neg (by decide), if_neg (by decide), if_neg (by decide), if_neg (by decide),
    if_pos rfl]
  have hpre : (strLit "vFolderTag:").isPrefixOf (strLit "vFolderTag: " ++ t) = true := by
    rw [show strLit "vFolderTag: " ++ t = strLit "vFolderTag:" ++ (' ' :: t) from rfl,
      List.isPrefixOf_iff_prefix]
    exact List.prefix_append _ _
  rw [if_pos hpre]
  have hsplit : splitColonSpace (strLit "vFolderTag: " ++ t) = [strLit "vFolderTag", t] := by
    rw [show strLit "vFolderTag: " ++ t = strLit "vFolderTag" ++ (':' :: ' ' :: t) from rfl,
      splitColonSpace_append (':' :: ' ' :: t) (by decide)
        (show splitColonSpace (':' :: ' ' :: t) = [] :: [t] from by
          rw [show splitColonSpace (':' :: ' ' :: t) = [] :: splitColonSpace t from rfl, hfree])]
    simp
  rw [hsplit]
  rfl

theorem foldl_parse_opt (o : Option Str) (rest : List (Option Str))
    (st : List SSHConnection × Option SSHConnection) :
    ((o :: rest).filterMap id).foldl parseStep st =
      (rest.filterMap id).foldl parseStep
        (match o with | some l => parseStep st l | none => st) := by
  cases o <;> simp

theorem strT_false_none {o : Option Str} (hc : optClean o = true) (h : strT o = false) :
    o = none := by
  cases o with
  | none => rfl
  | some v =>
    obtain ⟨h1, _, _, _⟩ := cleanVal_facts (by simpa [optClean] using hc)
    have : v = [] := by simpa [strT] using h
    exact absurd this h1

theorem numT_false_none {o : Option Int} (hc : optPos o = true) (h : numT o = false) :
    o = none := by
  cases o with
  | none => rfl
  | some v =>
    have hpos : 0 < v := by simpa [optPos] using hc
    simp only [numT, bne_eq_false_iff_eq] at h
    omega

theorem strT_of_tagOk {o : Option Str} (hok : tagOk o = true) (h : o ≠ none) :
    strT o = true := by
  cases o with
  | none => exact absurd rfl h
  | some v =>
    have hokv : cleanVal v = true := by
      simp only [tagOk, Bool.and_eq_true] at hok
      exact hok.1
    obtain ⟨h1, _, _, _⟩ := cleanVal_facts hokv
    rcases v with _ | ⟨x, xs⟩
    · exact absurd rfl h1
    · rfl

theorem parse_opt_tag (acc : List SSHConnection) (c : SSHConnection) {o : Option Str}
    (hok : tagOk o = true) :
    (match (if strT o then some (strLit "  # vFolderTag: " ++ o.getD []) else none) with
      | some l => parseStep (acc, some c) l
      | none => (acc, some c)) = (acc, some { c with vFolderTag := o.or c.vFolderTag }) := by
  by_cases hst : strT o = true
  · obtain ⟨hsome, _⟩ := strT_getD hst
    obtain ⟨hcv, hfree⟩ := tagOk_val hok hst
    obtain ⟨h1, h2, h3, h4⟩ := cleanVal_facts hcv
    rw [if_pos hst]
    show parseStep (acc, some c) (strLit "  # vFolderTag: " ++ o.getD []) = _
    rw [show strLit "  # vFolderTag: " ++ o.getD [] =
        strLit "  " ++ (['#'] ++ ' ' :: (strLit "vFolderTag: " ++ o.getD [])) from rfl,
      parseStep_keyline acc c ['#'] _ (by decide) (by decide) (by decide)
        (by simp [strLit]) (by rwa [getLastD_append_right '.' h1]),
      applyField_tag c hfree]
    rw [hsome]
    rfl
  · have ho : o = none := by
      by_contra hq
      exact hst (strT_of_tagOk hok hq)
    rw [if_neg hst, ho]
    rfl

theorem parse_opt_host (acc : List SSHConnection) (cur : Option SSHConnection) {h : Str}
    (hok : tokenVal h = true) :
    (match (some (strLit "Host " ++ h) : Option Str) with
      | some l => parseStep (acc, cur) l
      | none => (acc, cur)) =
      (acc ++ cur.toList, some { host := h, hostname := [] }) := by
  obtain ⟨hne, hws⟩ := tokenVal_facts hok
  show parseStep (acc, cur) (strLit "Host " ++ h) = _
  unfold parseStep
  rw [if_pos (by rw [List.isPrefixOf_iff_prefix]; exact List.prefix_append _ _)]
  rw [show strLit "Host " ++ h = strLit "Host" ++ ' ' :: h from rfl,
    splitSp_append_cons h (by decide),
    splitSp_single (fun hm => by have := hws ' ' hm; simp [isJsSpace] at this)]
  rfl

theorem parse_opt_hostname (acc : List SSHConnection) (c : SSHConnection) {v : Str}
    (hok : cleanVal v = true) :
    (match (some (strLit "  HostName " ++ v) : Option Str) with
      | some l => parseStep (acc, some c) l
      | none => (acc, some c)) = (acc, some { c with hostname := v }) := by
  obtain ⟨h1, h2, h3, h4⟩ := cleanVal_facts hok
  show parseStep (acc, some c) (strLit "  HostName " ++ v) = _
  rw [show strLit "  HostName " ++ v = strLit "  " ++ (strLit "HostName" ++ ' ' :: v) from rfl,
    parseStep_keyline acc c (strLit "HostName") _ (by decide) (by decide) (by decide) h1 h4,
    applyField_hostname]

theorem parse_opt_user (acc : List SSHConnection) (c : SSHConnection) {o : Option Str}
    (hok : optClean o = true) :
    (match (if strT o then some (strLit "  User " ++ o.getD []) else none) with
      | some l => parseStep (acc, some c) l
      | none => (acc, some c)) = (acc, some { c with user := o.or c.user }) := by
  by_cases hst : strT o = true
  · obtain ⟨hsome, _⟩ := strT_getD hst
    obtain ⟨h1, h2, h3, h4⟩ := optClean_val hok hst
    rw [if_pos hst]
    show parseStep (acc, some c) (strLit "  User " ++ o.getD []) = _
    rw [show strLit "  User " ++ o.getD [] =
        strLit "  " ++ (strLit "User" ++ ' ' :: o.getD []) from rfl,
      parseStep_keyline acc c (strLit "User") _ (by decide) (by decide) (by decide) h1 h4,
      applyField_user]
    rw [hsome]
    rfl
  · rw [if_neg hst, strT_false_none hok (Bool.not_eq_true _ ▸ hst)]
    rfl

theorem parse_opt_port (acc : List SSHConnection) (c : SSHConnection) {o : Option Int}
    (hok : optPos o = true) :
    (match (if numT o then some (strLit "  Port " ++ intToStr (o.getD 0)) else none) with
      | some l => parseStep (acc, some c) l
      | none => (acc, some c)) = (acc, some { c with port := o.or c.port }) := by
  by_cases hst : numT o = true
  · obtain ⟨hsome, hpos⟩ := numT_pos hst hok
    obtain ⟨h1, h2, h3⟩ := intToStr_val_facts hpos
    rw [if_pos hst]
    show parseStep (acc, some c) (strLit "  Port " ++ intToStr (o.getD 0)) = _
    rw [show strLit "  Port " ++ intToStr (o.getD 0) =
        strLit "  " ++ (strLit "Port" ++ ' ' :: intToStr (o.getD 0)) from rfl,
      parseStep_keyline acc c (strLit "Port") _ (by decide) (by decide) (by decide) h1 h3,
      applyField_port, parseIntJS_intToStr hpos]
    rw [hsome]
    rfl
  · rw [if_neg hst, numT_false_none hok (Bool.not_eq_true _ ▸ hst)]
    rfl

theorem parse_opt_identityFile (acc : List SSHConnection) (c : SSHConnection) {o : Option Str}
    (hok : optClean o = true) :
    (match (if strT o then some (strLit "  IdentityFile " ++ o.getD []) else none) with
      | some l => parseStep (acc, some c) l
      | none => (acc, some c)) = (acc, some { c with identityFile := o.or c.identityFile }) := by
  by_cases hst : strT o = true
  · obtain ⟨hsome, _⟩ := strT_getD hst
    obtain ⟨h1, h2, h3, h4⟩ := optClean_val hok hst
    rw [if_pos hst]
    show parseStep (acc, some c) (strLit "  IdentityFile " ++ o.getD []) = _
    rw [show strLit "  IdentityFile " ++ o.getD [] =
        strLit "  " ++ (strLit "IdentityFile" ++ ' ' :: o.getD []) from rfl,
      parseStep_keyline acc c (strLit "IdentityFile") _ (by decide) (by decide) (by decide) h1 h4,
      applyField_identityFile]
    rw [hsome]
    rfl
  · rw [if_neg hst, strT_false_none hok (Bool.not_eq_true _ ▸ hst)]
    rfl

theorem parse_opt_proxyCommand (acc : List SSHConnection) (c : SSHConnection) {o : Option Str}
    (hok : optClean o = true) :
    (match (if strT o then some (strLit "  ProxyCommand " ++ o.getD []) else none) with
      | some l => parseStep (acc, some c) l
      | none => (acc, some c)) = (acc, some { c with proxyCommand := o.or c.proxyCommand }) := by
  by_cases hst : strT o = true
  · obtain ⟨hsome, _⟩ := strT_getD hst
    obtain ⟨h1, h2, h3, h4⟩ := optClean_val hok hst
    rw [if_pos hst]
    show parseStep (acc, some c) (strLit "  ProxyCommand " ++ o.getD []) = _
    rw [show strLit "  ProxyCommand " ++ o.getD [] =
        strLit "  " ++ (strLit "ProxyCommand" ++ ' ' :: o.getD []) from rfl,
      parseStep_keyline acc c (strLit "ProxyCommand") _ (by decide) (by decide) (by decide) h1 h4,
      applyField_proxyCommand]
    rw [hsome]
    rfl
  · rw [if_neg hst, strT_false_none hok (Bool.not_eq_true _ ▸ hst)]
    rfl

theorem parse_opt_forwardAgent (acc : List SSHConnection) (c : SSHConnection)
    (o : Option Bool) :
    (match (match o with
        | some b => some (strLit "  ForwardAgent " ++ strLit (if b then "yes" else "no"))
        | none => none) with
      | some l => parseStep (acc, some c) l
      | none => (acc, some c)) = (acc, some { c with forwardAgent := o.or c.forwardAgent }) := by
  cases o with
  | none => rfl
  | some b =>
    obtain ⟨h1, h2, h3⟩ := yesno_facts b
    show parseStep (acc, some c)
        (strLit "  ForwardAgent " ++ strLit (if b then "yes" else "no")) = _
    rw [show strLit "  ForwardAgent " ++ strLit (if b then "yes" else "no") =
        strLit "  " ++ (strLit "ForwardAgent" ++ ' ' :: strLit (if b then "yes" else "no"))
        from rfl,
      parseStep_keyline acc c (strLit "ForwardAgent") _ (by decide) (by decide) (by decide)
        h1 h3,
      applyField_forwardAgent]
    cases b <;> rfl

theorem parse_opt_localForward (acc : List SSHConnection) (c : SSHConnection) {o : Option Str}
    (hok : optClean o = true) :
    (match (if strT o then some (strLit "  LocalForward " ++ o.getD []) else none) with
      | some l => parseStep (acc, some c) l
      | none => (acc, some c)) = (acc, some { c with localForward := o.or c.localForward }) := by
  by_cases hst : strT o = true
  · obtain ⟨hsome, _⟩ := strT_getD hst
    obtain ⟨h1, h2, h3, h4⟩ := optClean_val hok hst
    rw [if_pos hst]
    show parseStep (acc, some c) (strLit "  LocalForward " ++ o.getD []) = _
    rw [show strLit "  LocalForward " ++ o.getD [] =
        strLit "  " ++ (strLit "LocalForward" ++ ' ' :: o.getD []) from rfl,
      parseStep_keyline acc c (strLit "LocalForward") _ (by decide) (by decide) (by decide) h1 h4,
      applyField_localForward]
    rw [hsome]
    rfl
  · rw [if_neg hst, strT_false_none hok (Bool.not_eq_true _ ▸ hst)]
    rfl

theorem parse_opt_remoteForward (acc : List SSHConnection) (c : SSHConnection) {o : Option Str}
    (hok : optClean o = true) :
    (match (if strT o then some (strLit "  RemoteForward " ++ o.getD []) else none) with
      | some l => parseStep (acc, some c) l
      | none => (acc, some c)) = (acc, some { c with remoteForward := o.or c.remoteForward }) := by
  by_cases hst : strT o = true
  · obtain ⟨hsome, _⟩ := strT_getD hst
    obtain ⟨h1, h2, h3, h4⟩ := optClean_val hok hst
    rw [if_pos hst]
    show parseStep (acc, some c) (strLit "  RemoteForward " ++ o.getD []) = _
    rw [show strLit "  RemoteForward " ++ o.getD [] =
        strLit "  " ++ (strLit "RemoteForward" ++ ' ' :: o.getD []) from rfl,
      parseStep_keyline acc c (strLit "RemoteForward") _ (by decide) (by decide) (by decide) h1 h4,
      applyField_remoteForward]
    rw [hsome]
    rfl
  · rw [if_neg hst, strT_false_none hok (Bool.not_eq_true _ ▸ hst)]
    rfl

theorem parse_opt_compression (acc : List SSHConnection) (c : SSHConnection)
    (o : Option Bool) :
    (match (match o with
        | some b => some (strLit "  Compression " ++ strLit (if b then "yes" else "no"))
        | none => none) with
      | some l => parseStep (acc, some c) l
      | none => (acc, some c)) = (acc, some { c with compression := o.or c.compression }) := by
  cases o with
  | none => rfl
  | some b =>
    obtain ⟨h1, h2, h3⟩ := yesno_facts b
    show parseStep (acc, some c)
        (strLit "  Compression " ++ strLit (if b then "yes" else "no")) = _
    rw [show strLit "  Compression " ++ strLit (if b then "yes" else "no") =
        strLit "  " ++ (strLit "Compression" ++ ' ' :: strLit (if b then "yes" else "no"))
        from rfl,
      parseStep_keyline acc c (strLit "Compression") _ (by decide) (by decide) (by decide)
        h1 h3,
      applyField_compression]
    cases b <;> rfl

theorem parse_opt_serverAliveInterval (acc : List SSHConnection) (c : SSHConnection)
    {o : Option Int} (hok : optPos o = true) :
    (match (if numT o then some (strLit "  ServerAliveInterval " ++ intToStr (o.getD 0)) else none) with
      | some l => parseStep (acc, some c) l
      | none => (acc, some c)) =
      (acc, some { c with serverAliveInterval := o.or c.serverAliveInterval }) := by
  by_cases hst : numT o = true
  · obtain ⟨hsome, hpos⟩ := numT_pos hst hok
    obtain ⟨h1, h2, h3⟩ := intToStr_val_facts hpos
    rw [if_pos hst]
    show parseStep (acc, some c) (strLit "  ServerAliveInterval " ++ intToStr (o.getD 0)) = _
    rw [show strLit "  ServerAliveInterval " ++ intToStr (o.getD 0) =
        strLit "  " ++ (strLit "ServerAliveInterval" ++ ' ' :: intToStr (o.getD 0)) from rfl,
      parseStep_keyline acc c (strLit "ServerAliveInterval") _ (by decide) (by decide)
        (by decide) h1 h3,
      applyField_serverAliveInterval, parseIntJS_intToStr hpos]
    rw [hsome]
    rfl
  · rw [if_neg hst, numT_false_none hok (Bool.not_eq_true _ ▸ hst)]
    rfl

theorem parse_opt_serverAliveCountMax (acc : List SSHConnection) (c : SSHConnection)
    {o : Option Int} (hok : optPos o = true) :
    (match (if numT o then some (strLit "  ServerAliveCountMax " ++ intToStr (o.getD 0)) else none) with
      | some l => parseStep (acc, some c) l
      | none => (acc, some c)) =
      (acc, some { c with serverAliveCountMax := o.or c.serverAliveCountMax }) := by
  by_cases hst : numT o = true
  · obtain ⟨hsome, hpos⟩ := numT_pos hst hok
    obtain ⟨h1, h2, h3⟩ := intToStr_val_facts hpos
    rw [if_pos hst]
    show parseStep (acc, some c) (strLit "  ServerAliveCountMax " ++ intToStr (o.getD 0)) = _
    rw [show strLit "  ServerAliveCountMax " ++ intToStr (o.getD 0) =
        strLit "  " ++ (strLit "ServerAliveCountMax" ++ ' ' :: intToStr (o.getD 0)) from rfl,
      parseStep_keyline acc c (strLit "ServerAliveCountMax") _ (by decide) (by decide)
        (by decide) h1 h3,
      applyField_serverAliveCountMax, parseIntJS_intToStr hpos]
    rw [hsome]
    rfl
  · rw [if_neg hst, numT_false_none hok (Bool.not_eq_true _ ▸ hst)]
    rfl

theorem parse_opt_logLevel (acc : List SSHConnection) (c : SSHConnection) {o : Option Str}
    (hok : optClean o = true) :
    (match (if strT o then some (strLit "  LogLevel " ++ o.getD []) else none) with
      | some l => parseStep (acc, some c) l
      | none => (acc, some c)) = (acc, some { c with logLevel := o.or c.logLevel }) := by
  by_cases hst : strT o = true
  · obtain ⟨hsome, _⟩ := strT_getD hst
    obtain ⟨h1, h2, h3, h4⟩ := optClean_val hok hst
    rw [if_pos hst]
    show parseStep (acc, some c) (strLit "  LogLevel " ++ o.getD []) = _
    rw [show strLit "  LogLevel " ++ o.getD [] =
        strLit "  " ++ (strLit "LogLevel" ++ ' ' :: o.getD []) from rfl,
      parseStep_keyline acc c (strLit "LogLevel") _ (by decide) (by decide) (by decide) h1 h4,
      applyField_logLevel]
    rw [hsome]
    rfl
  · rw [if_neg hst, strT_false_none hok (Bool.not_eq_true _ ▸ hst)]
    rfl

/-- Parsing a serialized block recovers the record: the fold of `parseStep`
over `entryLines r` flushes the pending record and rebuilds `r` exactly. -/
theorem parse_entry_lines (r : SSHConnection) (hwf : wfRec r = true)
    (acc : List SSHConnection) (cur : Option SSHConnection) :
    (entryLines r).foldl parseStep (acc, cur) = (acc ++ cur.toList, some r) := by
  obtain ⟨hhost, hhn, huser, hport, hid, hproxy, hlf, hrf, hsai, hsacm, hll, htag⟩ :=
    wfRec_parts hwf
  rw [entryLines, entryLinesOpt,
    foldl_parse_opt, parse_opt_host _ _ hhost,
    foldl_parse_opt, parse_opt_tag _ _ htag,
    foldl_parse_opt, parse_opt_hostname _ _ hhn,
    foldl_parse_opt, parse_opt_user _ _ huser,
    foldl_parse_opt, parse_opt_port _ _ hport,
    foldl_parse_opt, parse_opt_identityFile _ _ hid,
    foldl_parse_opt, parse_opt_proxyCommand _ _ hproxy,
    foldl_parse_opt, parse_opt_forwardAgent _ _ r.forwardAgent,
    foldl_parse_opt, parse_opt_localForward _ _ hlf,
    foldl_parse_opt, parse_opt_remoteForward _ _ hrf,
    foldl_parse_opt, parse_opt_compression _ _ r.compression,
    foldl_parse_opt, parse_opt_serverAliveInterval _ _ hsai,
    foldl_parse_opt, parse_opt_serverAliveCountMax _ _ hsacm,
    foldl_parse_opt, parse_opt_logLevel _ _ hll]
  simp only [List.filterMap_nil, List.foldl_nil, Option.or_none]

theorem parseStep_blank (a : List SSHConnection) (cur : Option SSHConnection) :
    parseStep (a, cur) [] = (a, cur) := by
  cases cur with
  | none => rfl
  | some c => rfl

theorem parse_canon_aux (r : SSHConnection) (rs : List SSHConnection)
    (hwf : ∀ x ∈ r :: rs, wfRec x = true) (acc : List SSHConnection)
    (cur : Option SSHConnection) :
    (canonLines (r :: rs)).foldl parseStep (acc, cur) =
      (acc ++ cur.toList ++ (r :: rs).dropLast, some ((r :: rs).getLast (by simp))) := by
  induction rs generalizing r acc cur with
  | nil =>
    rw [show canonLines [r] = entryLines r from rfl,
      parse_entry_lines r (hwf r (by simp))]
    simp
  | cons q qs ih =>
    rw [show canonLines (r :: q :: qs) =
        entryLines r ++ ([] : Str) :: canonLines (q :: qs) from rfl,
      List.foldl_append, parse_entry_lines r (hwf r (by simp)),
      List.foldl_cons, parseStep_blank,
      ih q (fun x hx => hwf x (List.mem_cons_of_mem _ hx))]
    simp [List.getLast_cons]

/-- Parsing a canonical config file recovers exactly the record list it
serializes (`getAllConnections` after the store's own normal form). -/
theorem parse_canon (rs : List SSHConnection) (hwf : ∀ r ∈ rs, wfRec r = true) :
    getAllConnections (canonFile rs) = rs := by
  cases rs with
  | nil => rfl
  | cons r rs' =>
    have hsplit : splitNl (canonFile (r :: rs')) = canonLines (r :: rs') ++ [[]] := by
      rw [canonFile, splitNl_append_blank,
        splitNl_joinNl ?h1 (canonLines_ne_nil (by simp))]
      case h1 =>
        intro l hl
        rcases mem_canonLines hl with rfl | ⟨x, hx, hlx⟩
        · simp
        · exact fun hm => (entryLines_facts (hwf x hx) l hlx).2 hm
    show ((splitNl (canonFile (r :: rs'))).foldl parseStep ([], none)).1 ++
        ((splitNl (canonFile (r :: rs'))).foldl parseStep ([], none)).2.toList = r :: rs'
    rw [hsplit, List.foldl_append, parse_canon_aux r rs' hwf,
      List.foldl_cons, parseStep_blank, List.foldl_nil]
    simp [List.dropLast_append_getLast]

/-! ## The update loops (`insertOrUpdateConnection`, `removeConnection`)
on canonical files -/

theorem catNl_cons (l : Str) (L : List Str) :
    catNl (l :: L) = l ++ '\n' :: catNl L := by
  simp [catNl]

theorem catNl_append (A B : List Str) : catNl (A ++ B) = catNl A ++ catNl B := by
  simp [catNl]

theorem catNl_eq_joinNl {L : List Str} (h : L ≠ []) : catNl L = joinNl L ++ ['\n'] := by
  induction L with
  | nil => exact absurd rfl h
  | cons l ls ih =>
    cases ls with
    | nil => simp [catNl, joinNl]
    | cons m ms =>
      rw [catNl_cons, ih (by simp)]
      show _ = (l ++ '\n' :: joinNl (m :: ms)) ++ ['\n']
      simp

theorem hostLine_isPrefix (h : Str) :
    (strLit "Host ").isPrefixOf (strLit "Host " ++ h) = true := by
  rw [List.isPrefixOf_iff_prefix]
  exact List.prefix_append _ _

theorem blkLines_append (A B : List (SSHConnection × Nat)) :
    blkLines (A ++ B) = blkLines A ++ blkLines B := by
  induction A with
  | nil => rfl
  | cons p rest ih =>
    obtain ⟨r, a⟩ := p
    show blkLines ((r, a) :: (rest ++ B)) = blkLines ((r, a) :: rest) ++ blkLines B
    rw [blkLines, blkLines, ih]
    simp

theorem blkLines_cons_head (p : SSHConnection × Nat) (rest : List (SSHConnection × Nat)) :
    blkLines (p :: rest) =
      (strLit "Host " ++ p.1.host) :: (entryBody p.1 ++ List.replicate p.2 [] ++ blkLines rest) := by
  obtain ⟨r, a⟩ := p
  show blkLines ((r, a) :: rest) = _
  rw [blkLines, entryLines_eq]
  simp

theorem entryLines_last {r : SSHConnection} (hwf : wfRec r = true) :
    (entryLines r).getLastD [] ≠ [] ∧
    isJsSpace (((entryLines r).getLastD []).getLastD '.') = false := by
  have hmem : (entryLines r).getLastD [] ∈ entryLines r :=
    mem_getLastD [] (entryLines_ne_nil r)
  rcases mem_entryLines.mp hmem with hm | hm
  · rw [hm]
    exact ⟨by simp [strLit], hostLine_last (wfRec_parts hwf).1⟩
  · obtain ⟨h1, _, _, _, _, _, h7⟩ := entryBody_ok hwf _ hm
    exact ⟨h1, h7⟩

theorem blkLines_last0 {M : List (SSHConnection × Nat)} {r : SSHConnection} :
    (blkLines (M ++ [(r, 0)])).getLastD [] = (entryLines r).getLastD [] := by
  rw [blkLines_append, show blkLines [(r, 0)] = entryLines r from by
    rw [blkLines]
    simp [blkLines],
    getLastD_append_right _ (entryLines_ne_nil r)]

/-- Writing `trim() + '\n'` of a block stream that ends on a block with no
trailing blank, then running `beautifySSHConfig`, lands on the canonical file
of the streamed records (the common final step of both update loops). -/
theorem store_write_canon {items : List (SSHConnection × Nat)} (M : List (SSHConnection × Nat))
    (r : SSHConnection) (hitems : items = M ++ [(r, 0)])
    (hwf : ∀ p ∈ items, wfRec p.1 = true) (ha : ∀ p ∈ items, p.2 ≤ 2) (j k : Nat) :
    beautifySSHConfig (jsTrim (List.replicate j '\n' ++
        (joinNl (blkLines items) ++ List.replicate k '\n')) ++ ['\n']) =
      canonFile (items.map Prod.fst) := by
  have hne : items ≠ [] := by rw [hitems]; simp
  rcases hcons : items with _ | ⟨p, rest⟩
  · exact absurd hcons hne
  rw [← hcons]
  have hjB_ne : joinNl (blkLines items) ≠ [] := by
    rw [hcons, blkLines_cons_head]
    exact joinNl_cons_ne_nil _ (by simp [strLit])
  have hhd : isJsSpace ((joinNl (blkLines items) ++ List.replicate k '\n').headD '.') = false := by
    rw [headD_append_left '.' hjB_ne, hcons, blkLines_cons_head,
      joinNl_headD_cons _ '.' (by simp [strLit]), headD_append_left '.' (by simp [strLit])]
    decide
  have hrwf : wfRec r = true := by
    refine hwf (r, 0) ?_
    rw [hitems]
    simp
  obtain ⟨hlast_ne, hlast_ws⟩ := entryLines_last hrwf
  have hlast : isJsSpace ((joinNl (blkLines items)).getLastD '.') = false := by
    rw [getLastD_joinNl_lastline '.' (blkLines_ne_nil hne) ?hln]
    case hln => rw [hitems, blkLines_last0]; exact hlast_ne
    rw [hitems, blkLines_last0]
    exact hlast_ws
  have htrim : jsTrim (List.replicate j '\n' ++
      (joinNl (blkLines items) ++ List.replicate k '\n')) =
      joinNl (blkLines items) := by
    unfold jsTrim
    rw [trimStart_append_sp (by
        intro c hc
        rw [List.eq_of_mem_replicate hc]
        rfl),
      trimStart_eq_self hhd, trimEnd_append_sp (by
      intro c hc
      rw [List.eq_of_mem_replicate hc]
      rfl), trimEnd_eq_self hlast]
  rw [htrim]
  exact beautify_canon hne hwf ha

theorem blkLines_single0 (r : SSHConnection) : blkLines [(r, 0)] = entryLines r := by
  rw [blkLines]
  simp [blkLines]

theorem blkLines_cons (r : SSHConnection) (a : Nat) (rest : List (SSHConnection × Nat)) :
    blkLines ((r, a) :: rest) = entryLines r ++ List.replicate a [] ++ blkLines rest := by
  rw [blkLines]

theorem canon_blk {rs : List SSHConnection} (h : rs ≠ []) :
    canonLines rs ++ [[]] = blkLines (rs.map (fun r => (r, 1))) := by
  induction rs with
  | nil => exact absurd rfl h
  | cons r rest ih =>
    cases rest with
    | nil =>
      show canonLines [r] ++ [[]] = blkLines [(r, 1)]
      rw [canonLines, blkLines]
      simp [blkLines]
    | cons q qs =>
      show (entryLines r ++ ([] : Str) :: canonLines (q :: qs)) ++ [[]] = _
      rw [List.map_cons, blkLines, ← ih (by simp)]
      simp

theorem entryBlock_nonhost {q : SSHConnection} (hwf : wfRec q = true) (a : Nat) :
    ∀ l ∈ entryBody q ++ List.replicate a [],
      (strLit "Host ").isPrefixOf l = false := by
  intro l hl
  rcases List.mem_append.mp hl with hl | hl
  · exact (entryBody_ok hwf l hl).2.2.2.1
  · rw [List.eq_of_mem_replicate hl]
    decide

theorem insertStep_nonhost_keep (c : SSHConnection) (out : Str) (tgt upd : Bool) {l : Str}
    (hl : (strLit "Host ").isPrefixOf l = false)
    (hcond : tgt = false ∨ upd = true) :
    insertStep c (out, tgt, upd) l = (out ++ l ++ ['\n'], tgt, upd) := by
  rcases hcond with rfl | rfl <;> simp [insertStep, hl]

theorem insertStep_nonhost_skip (c : SSHConnection) (out : Str) {l : Str}
    (hl : (strLit "Host ").isPrefixOf l = false) :
    insertStep c (out, true, false) l = (out, true, false) := by
  simp [insertStep, hl]

theorem hostLine_getD1 {q : Str} (hok : tokenVal q = true) :
    (splitSp (strLit "Host " ++ q))[1]?.getD [] = q := by
  have := hostLine_split hok
  simpa [List.getD_eq_getElem?_getD] using this

theorem insertStep_host_other (c : SSHConnection) (out : Str) (upd : Bool) {q : Str}
    (hok : tokenVal q = true) (hne : q ≠ c.host) :
    insertStep c (out, false, upd) (strLit "Host " ++ q) =
      (out ++ (strLit "Host " ++ q) ++ ['\n'], false, upd) := by
  simp [insertStep, hostLine_isPrefix, hostLine_getD1 hok, hne]

theorem insertStep_host_match (c : SSHConnection) (out : Str)
    (hok : tokenVal c.host = true) :
    insertStep c (out, false, false) (strLit "Host " ++ c.host) = (out, true, false) := by
  simp [insertStep, hostLine_isPrefix, hostLine_getD1 hok]

theorem insertStep_host_insert (c : SSHConnection) (out : Str) {q : Str}
    (hok : tokenVal q = true) (hne : q ≠ c.host) :
    insertStep c (out, true, false) (strLit "Host " ++ q) =
      (out ++ buildConnectionEntry c ++ ['\n'] ++ (strLit "Host " ++ q) ++ ['\n'],
        false, true) := by
  simp [insertStep, hostLine_isPrefix, hostLine_getD1 hok, hne, List.append_assoc]

theorem insertStep_fold_nonhost_keep (c : SSHConnection) (L : List Str) (out : Str)
    (tgt upd : Bool) (hL : ∀ l ∈ L, (strLit "Host ").isPrefixOf l = false)
    (hcond : tgt = false ∨ upd = true) :
    L.foldl (insertStep c) (out, tgt, upd) = (out ++ catNl L, tgt, upd) := by
  induction L generalizing out with
  | nil => simp [catNl]
  | cons l ls ih =>
    rw [List.foldl_cons, insertStep_nonhost_keep c out tgt upd (hL l (by simp)) hcond,
      ih _ (fun x hx => hL x (by simp [hx])), catNl_cons]
    simp

theorem insertStep_fold_nonhost_skip (c : SSHConnection) (L : List Str) (out : Str)
    (hL : ∀ l ∈ L, (strLit "Host ").isPrefixOf l = false) :
    L.foldl (insertStep c) (out, true, false) = (out, true, false) := by
  induction L with
  | nil => rfl
  | cons l ls ih =>
    rw [List.foldl_cons, insertStep_nonhost_skip c out (hL l (by simp)),
      ih (fun x hx => hL x (by simp [hx]))]

theorem insertStep_block_keep (c : SSHConnection) {q : SSHConnection} (a : Nat) (out : Str)
    (upd : Bool) (hwf : wfRec q = true) (hne : q.host ≠ c.host) :
    (entryLines q ++ List.replicate a []).foldl (insertStep c) (out, false, upd) =
      (out ++ catNl (entryLines q ++ List.replicate a []), false, upd) := by
  rw [entryLines_eq, List.cons_append, List.foldl_cons,
    insertStep_host_other c out upd (wfRec_parts hwf).1 hne,
    insertStep_fold_nonhost_keep c _ _ _ _ (entryBlock_nonhost hwf a) (Or.inl rfl),
    catNl_cons]
  simp

theorem insertStep_block_target (c : SSHConnection) {t : SSHConnection} (a : Nat) (out : Str)
    (hwf : wfRec t = true) (ht : t.host = c.host) :
    (entryLines t ++ List.replicate a []).foldl (insertStep c) (out, false, false) =
      (out, true, false) := by
  rw [entryLines_eq, List.cons_append, List.foldl_cons, ht,
    insertStep_host_match c out (ht ▸ (wfRec_parts hwf).1),
    insertStep_fold_nonhost_skip c _ _ (entryBlock_nonhost hwf a)]

theorem insertStep_block_insert (c : SSHConnection) {q : SSHConnection} (a : Nat) (out : Str)
    (hwf : wfRec q = true) (hne : q.host ≠ c.host) :
    (entryLines q ++ List.replicate a []).foldl (insertStep c) (out, true, false) =
      (out ++ catNl (entryLines c) ++ catNl (entryLines q ++ List.replicate a []),
        false, true) := by
  rw [entryLines_eq, List.cons_append, List.foldl_cons,
    insertStep_host_insert c out (wfRec_parts hwf).1 hne,
    insertStep_fold_nonhost_keep c _ _ _ _ (entryBlock_nonhost hwf a) (Or.inr rfl),
    catNl_cons, catNl_eq_joinNl (entryLines_ne_nil c)]
  show _ = (out ++ (joinNl (entryLines c) ++ ['\n']) ++
    ((strLit "Host " ++ q.host) ++ '\n' :: catNl (entryBody q ++ List.replicate a [])),
    false, true)
  rw [show buildConnectionEntry c = joinNl (entryLines c) from rfl]
  simp

theorem insertStep_stream_keep (c : SSHConnection) (items : List (SSHConnection × Nat))
    (out : Str) (upd : Bool) (hwf : ∀ p ∈ items, wfRec p.1 = true)
    (hne : ∀ p ∈ items, p.1.host ≠ c.host) :
    (blkLines items).foldl (insertStep c) (out, false, upd) =
      (out ++ catNl (blkLines items), false, upd) := by
  induction items generalizing out with
  | nil => simp [blkLines, catNl]
  | cons p rest ih =>
    obtain ⟨r, a⟩ := p
    rw [show blkLines ((r, a) :: rest) =
        (entryLines r ++ List.replicate a []) ++ blkLines rest from by
      rw [blkLines],
      List.foldl_append,
      insertStep_block_keep c a out upd (hwf (r, a) (by simp)) (hne (r, a) (by simp)),
      ih _ (fun x hx => hwf x (by simp [hx])) (fun x hx => hne x (by simp [hx]))]
    simp [catNl_append]

theorem insertStep_stream_insert (c : SSHConnection) (p : SSHConnection × Nat)
    (items : List (SSHConnection × Nat)) (out : Str)
    (hwf : ∀ x ∈ p :: items, wfRec x.1 = true)
    (hne : ∀ x ∈ p :: items, x.1.host ≠ c.host) :
    (blkLines (p :: items)).foldl (insertStep c) (out, true, false) =
      (out ++ catNl (entryLines c) ++ catNl (blkLines (p :: items)), false, true) := by
  obtain ⟨r, a⟩ := p
  rw [show blkLines ((r, a) :: items) =
      (entryLines r ++ List.replicate a []) ++ blkLines items from by
    rw [blkLines],
    List.foldl_append,
    insertStep_block_insert c a out (hwf (r, a) (by simp)) (hne (r, a) (by simp)),
    insertStep_stream_keep c items _ true (fun x hx => hwf x (by simp [hx]))
      (fun x hx => hne x (by simp [hx]))]
  simp [catNl_append]

theorem upsertL_not_found {rs : List SSHConnection} {c : SSHConnection}
    (h : ∀ x ∈ rs, x.host ≠ c.host) : upsertL rs c = rs ++ [c] := by
  have hany : rs.any (fun x => x.host = c.host) = false := by
    rw [List.any_eq_false]
    intro x hx
    simpa using h x hx
  simp [upsertL, hany]

theorem upsertL_found {P S : List SSHConnection} {t c : SSHConnection}
    (ht : t.host = c.host) (hP : ∀ x ∈ P, x.host ≠ c.host)
    (hS : ∀ x ∈ S, x.host ≠ c.host) :
    upsertL (P ++ t :: S) c = P ++ c :: S := by
  have hany : (P ++ t :: S).any (fun x => x.host = c.host) = true := by
    rw [List.any_eq_true]
    exact ⟨t, by simp, by simp [ht]⟩
  have hfP : P.map (fun x => if x.host = c.host then c else x) = P := by
    conv_rhs => rw [show P = P.map id from by simp]
    refine List.map_congr_left ?_
    intro x hx
    simp [hP x hx]
  have hfS : S.map (fun x => if x.host = c.host then c else x) = S := by
    conv_rhs => rw [show S = S.map id from by simp]
    refine List.map_congr_left ?_
    intro x hx
    simp [hS x hx]
  simp only [upsertL, hany, if_true, List.map_append, List.map_cons]
  rw [hfP, hfS, if_pos ht]

theorem uniq_split {P S : List SSHConnection} {t : SSHConnection}
    (huniq : uniqHosts (P ++ t :: S) = true) :
    (∀ x ∈ P, x.host ≠ t.host) ∧ (∀ x ∈ S, x.host ≠ t.host) := by
  have hnd : ((P ++ t :: S).map (fun x => x.host)).Nodup := by
    simpa [uniqHosts] using huniq
  rw [List.map_append, List.map_cons] at hnd
  obtain ⟨h1, h2, hdisj⟩ := List.nodup_append.mp hnd
  constructor
  · intro x hx hq
    exact hdisj (List.mem_map_of_mem _ hx) (by simp [hq])
  · intro x hx hq
    exact (List.nodup_cons.mp h2).1 (hq ▸ List.mem_map_of_mem _ hx)

theorem splitNl_canonFile {rs : List SSHConnection} (hne : rs ≠ [])
    (hwf : ∀ r ∈ rs, wfRec r = true) :
    splitNl (canonFile rs) = canonLines rs ++ [[]] := by
  rw [canonFile, splitNl_append_blank, splitNl_joinNl ?h1 (canonLines_ne_nil hne)]
  case h1 =>
    intro l hl
    rcases mem_canonLines hl with rfl | ⟨x, hx, hlx⟩
    · simp
    · exact fun hm => (entryLines_facts (hwf x hx) l hlx).2 hm

theorem joinNl_two_blanks {X E : List Str} (hX : X ≠ []) (hE : E ≠ []) :
    joinNl (X ++ [[], []] ++ E) = joinNl X ++ '\n' :: '\n' :: '\n' :: joinNl E := by
  rw [List.append_assoc, joinNl_append hX (by simp),
    show ([[], []] : List Str) ++ E = [] :: [] :: E from rfl,
    joinNl_blank_cons (by simp [hE]), joinNl_blank_cons hE]

theorem catNl_blk_last1 (A : List (SSHConnection × Nat)) (r : SSHConnection) :
    catNl (blkLines (A ++ [(r, 1)])) =
      joinNl (blkLines (A ++ [(r, 0)])) ++ List.replicate 2 '\n' := by
  have h1 : blkLines (A ++ [(r, 1)]) = blkLines (A ++ [(r, 0)]) ++ [[]] := by
    rw [blkLines_append, blkLines_append, blkLines_single0,
      show blkLines [(r, 1)] = entryLines r ++ [[]] from by rw [blkLines]; simp [blkLines]]
    simp
  have h2 : blkLines (A ++ [(r, 0)]) ≠ [] := blkLines_ne_nil (by simp)
  rw [h1, catNl_eq_joinNl (by simp [h2]), joinNl_append_blank h2]
  simp [List.replicate]

theorem insertOrUpdate_eq (file : Str) (c : SSHConnection) {st : Str × Bool × Bool}
    (hst : (splitNl file).foldl (insertStep c) ([], false, false) = st) :
    insertOrUpdateConnection file c =
      beautifySSHConfig (jsTrim (if st.2.2 then st.1
        else st.1 ++ ['\n'] ++ buildConnectionEntry c ++ ['\n']) ++ ['\n']) := by
  rw [← hst]
  rfl

theorem remove_eq (file h : Str) {st : List Str × Bool}
    (hst : (splitNl file).foldl (removeStep h) ([], false) = st) :
    removeConnection file h = beautifySSHConfig (jsTrim (joinNl st.1) ++ ['\n']) := by
  rw [← hst]
  rfl

/-- Common final step of `insertOrUpdateConnection` when the alias is new or
last: the entry is appended after the streamed blocks. -/
theorem upsert_write_append {Q : List SSHConnection} {c : SSHConnection}
    (hwfQ : ∀ r ∈ Q, wfRec r = true) (hc : wfRec c = true) :
    beautifySSHConfig (jsTrim (catNl (blkLines (Q.map (fun r => (r, 1)))) ++
        ['\n'] ++ buildConnectionEntry c ++ ['\n']) ++ ['\n']) =
      canonFile (Q ++ [c]) := by
  rcases List.eq_nil_or_concat Q with rfl | ⟨T, ql, hq⟩
  · have harg : catNl (blkLines (([] : List SSHConnection).map (fun r => (r, 1)))) ++
        ['\n'] ++ buildConnectionEntry c ++ ['\n'] =
        List.replicate 1 '\n' ++ (joinNl (blkLines [(c, 0)]) ++ List.replicate 1 '\n') := by
      rw [blkLines_single0, show buildConnectionEntry c = joinNl (entryLines c) from rfl]
      simp [catNl, blkLines, List.replicate]
    rw [harg, store_write_canon [] c (by simp)
      (by intro p hp; simp only [List.nil_append, List.mem_singleton] at hp; subst hp; exact hc)
      (by intro p hp; simp only [List.nil_append, List.mem_singleton] at hp; subst hp
          show (0 : Nat) ≤ 2; decide)
      1 1]
    simp
  · rw [List.concat_eq_append] at hq
    subst hq
    have hmap : (T ++ [ql]).map (fun r => (r, 1)) = T.map (fun r => (r, 1)) ++ [(ql, 1)] := by
      simp
    have hblk : blkLines ((T.map (fun r => (r, 1)) ++ [(ql, 2)]) ++ [(c, 0)]) =
        blkLines (T.map (fun r => (r, 1)) ++ [(ql, 0)]) ++ [[], []] ++ entryLines c := by
      rw [blkLines_append, blkLines_append, blkLines_append, blkLines_single0,
        blkLines_single0,
        show blkLines [(ql, 2)] = entryLines ql ++ [[], []] from by
          rw [blkLines]; simp [blkLines, List.replicate]]
      simp
    have harg : catNl (blkLines ((T ++ [ql]).map (fun r => (r, 1)))) ++
        ['\n'] ++ buildConnectionEntry c ++ ['\n'] =
        List.replicate 0 '\n' ++
          (joinNl (blkLines ((T.map (fun r => (r, 1)) ++ [(ql, 2)]) ++ [(c, 0)])) ++
            List.replicate 1 '\n') := by
      rw [hmap, catNl_blk_last1, hblk,
        joinNl_two_blanks (blkLines_ne_nil (by simp)) (entryLines_ne_nil c),
        show buildConnectionEntry c = joinNl (entryLines c) from rfl]
      simp [List.replicate]
    rw [harg, store_write_canon (T.map (fun r => (r, 1)) ++ [(ql, 2)]) c
      (by simp)
      ?hw ?ha 0 1]
    case hw =>
      intro p hp
      simp only [List.append_assoc, List.mem_append, List.mem_map,
        List.mem_singleton, List.mem_cons, List.not_mem_nil, or_false] at hp
      rcases hp with ⟨x, hx, rfl⟩ | rfl | rfl
      · exact hwfQ x (by simp [hx])
      · exact hwfQ ql (by simp)
      · exact hc
    case ha =>
      intro p hp
      simp only [List.append_assoc, List.mem_append, List.mem_map,
        List.mem_singleton, List.mem_cons, List.not_mem_nil, or_false] at hp
      rcases hp with ⟨x, hx, rfl⟩ | rfl | rfl
      · show (1 : Nat) ≤ 2; decide
      · show (2 : Nat) ≤ 2; decide
      · show (0 : Nat) ≤ 2; decide
    have : List.map (Prod.fst ∘ fun r => (r, 1)) T = T := by
      simp [Function.comp_def]
    simp [this]

/-- Final step of `insertOrUpdateConnection` when the replaced alias has
blocks after it: the new entry sits directly before the next block. -/
theorem upsert_write_mid {P S' : List SSHConnection} {s0 c : SSHConnection}
    (hwfP : ∀ x ∈ P, wfRec x = true) (hc : wfRec c = true)
    (hwfS : ∀ x ∈ s0 :: S', wfRec x = true) :
    beautifySSHConfig (jsTrim (catNl (blkLines (P.map (fun r => (r, 1)))) ++
        catNl (entryLines c) ++
        catNl (blkLines ((s0 :: S').map (fun r => (r, 1))))) ++ ['\n']) =
      canonFile (P ++ c :: s0 :: S') := by
  rcases List.eq_nil_or_concat (s0 :: S') with hq | ⟨W, sl, hq⟩
  · exact absurd hq (by simp)
  rw [List.concat_eq_append] at hq
  have hcat : catNl (blkLines (P.map (fun r => (r, 1)))) ++ catNl (entryLines c) ++
      catNl (blkLines ((s0 :: S').map (fun r => (r, 1)))) =
      catNl (blkLines ((P.map (fun r => (r, 1)) ++ (c, 0) :: W.map (fun r => (r, 1)))
        ++ [(sl, 1)])) := by
    rw [hq]
    rw [show blkLines ((P.map (fun r => (r, 1)) ++ (c, 0) :: W.map (fun r => (r, 1)))
          ++ [(sl, 1)]) =
        blkLines (P.map (fun r => (r, 1))) ++ entryLines c ++
          blkLines ((W ++ [sl]).map (fun r => (r, 1))) from by
      rw [List.append_assoc, List.cons_append, blkLines_append, blkLines_cons,
        show (W ++ [sl]).map (fun r => (r, 1)) = W.map (fun r => (r, 1)) ++ [(sl, 1)] from
          by simp,
        blkLines_append]
      simp]
    rw [catNl_append, catNl_append]
  rw [hcat,
    show (P.map (fun r => (r, 1)) ++ (c, 0) :: W.map (fun r => (r, 1))) ++ [(sl, 1)] =
      (P.map (fun r => (r, 1)) ++ (c, 0) :: W.map (fun r => (r, 1))) ++ [(sl, 1)] from rfl,
    catNl_blk_last1]
  have harg : joinNl (blkLines ((P.map (fun r => (r, 1)) ++ (c, 0) :: W.map (fun r => (r, 1)))
      ++ [(sl, 0)])) ++ List.replicate 2 '\n' =
      List.replicate 0 '\n' ++
        (joinNl (blkLines ((P.map (fun r => (r, 1)) ++ (c, 0) :: W.map (fun r => (r, 1)))
          ++ [(sl, 0)])) ++ List.replicate 2 '\n') := by
    simp
  rw [harg, store_write_canon (P.map (fun r => (r, 1)) ++ (c, 0) :: W.map (fun r => (r, 1)))
    sl rfl ?hw ?ha 0 2]
  case hw =>
    intro p hp
    rcases List.mem_append.mp hp with hp | hp
    · rcases List.mem_append.mp hp with hp | hp
      · obtain ⟨x, hx, rfl⟩ := List.mem_map.mp hp
        exact hwfP x hx
      · rcases List.mem_cons.mp hp with rfl | hp
        · exact hc
        · obtain ⟨x, hx, rfl⟩ := List.mem_map.mp hp
          exact hwfS x (by rw [hq]; simp [hx])
    · rw [List.mem_singleton.mp hp]
      exact hwfS sl (by rw [hq]; simp)
  case ha =>
    intro p hp
    rcases List.mem_append.mp hp with hp | hp
    · rcases List.mem_append.mp hp with hp | hp
      · obtain ⟨x, hx, rfl⟩ := List.mem_map.mp hp
        show (1 : Nat) ≤ 2; decide
      · rcases List.mem_cons.mp hp with rfl | hp
        · show (0 : Nat) ≤ 2; decide
        · obtain ⟨x, hx, rfl⟩ := List.mem_map.mp hp
          show (1 : Nat) ≤ 2; decide
    · rw [List.mem_singleton.mp hp]
      show (0 : Nat) ≤ 2; decide
  have hmP : List.map Prod.fst (P.map (fun r => (r, 1))) = P := by
    simp [Function.comp_def]
  have hmW : List.map Prod.fst (W.map (fun r => (r, 1))) = W := by
    simp [Function.comp_def]
  simp only [List.append_assoc, List.map_append, List.map_cons, List.map_singleton,
    List.map_nil, List.cons_append, hmP, hmW]
  rw [← hq]

/-- `insertOrUpdateConnection` on a canonical file realises the reference
upsert: replace the block in place, or append a new block at the end. -/
theorem upsert_canon {rs : List SSHConnection} {c : SSHConnection}
    (hwf : ∀ r ∈ rs, wfRec r = true) (huniq : uniqHosts rs = true)
    (hc : wfRec c = true) :
    insertOrUpdateConnection (canonFile rs) c = canonFile (upsertL rs c) := by
  by_cases hfound : ∃ t ∈ rs, t.host = c.host
  · obtain ⟨t, htmem, ht⟩ := hfound
    obtain ⟨P, S, rfl⟩ := List.append_of_mem htmem
    obtain ⟨hPt, hSt⟩ := uniq_split huniq
    have hP : ∀ x ∈ P, x.host ≠ c.host := fun x hx => ht ▸ hPt x hx
    have hS : ∀ x ∈ S, x.host ≠ c.host := fun x hx => ht ▸ hSt x hx
    have hwfP : ∀ x ∈ P, wfRec x = true := fun x hx => hwf x (by simp [hx])
    have hwfS : ∀ x ∈ S, wfRec x = true := fun x hx => hwf x (by simp [hx])
    have hwft : wfRec t = true := hwf t (by simp)
    have hwfP1 : ∀ p ∈ P.map (fun r => (r, 1)), wfRec p.1 = true := by
      intro p hp
      obtain ⟨x, hx, rfl⟩ := List.mem_map.mp hp
      exact hwfP x hx
    have hP1 : ∀ p ∈ P.map (fun r => (r, 1)), p.1.host ≠ c.host := by
      intro p hp
      obtain ⟨x, hx, rfl⟩ := List.mem_map.mp hp
      exact hP x hx
    have hsplit : splitNl (canonFile (P ++ t :: S)) =
        blkLines ((P ++ t :: S).map (fun r => (r, 1))) := by
      rw [splitNl_canonFile (by simp) hwf, canon_blk (by simp)]
    rw [upsertL_found ht hP hS]
    cases S with
    | nil =>
      have hst : (splitNl (canonFile (P ++ t :: []))).foldl (insertStep c)
          ([], false, false) =
          (catNl (blkLines (P.map (fun r => (r, 1)))), true, false) := by
        rw [hsplit,
          show (P ++ t :: []).map (fun r => (r, 1)) =
            P.map (fun r => (r, 1)) ++ [(t, 1)] from by simp,
          show blkLines (P.map (fun r => (r, 1)) ++ [(t, 1)]) =
            blkLines (P.map (fun r => (r, 1))) ++ (entryLines t ++ List.replicate 1 [])
            from by
            rw [blkLines_append, blkLines_cons]
            simp [blkLines],
          List.foldl_append,
          insertStep_stream_keep c _ _ false hwfP1 hP1,
          insertStep_block_target c 1 _ hwft ht]
        simp
      rw [insertOrUpdate_eq _ _ hst]
      show beautifySSHConfig (jsTrim (catNl (blkLines (P.map (fun r => (r, 1)))) ++
        ['\n'] ++ buildConnectionEntry c ++ ['\n']) ++ ['\n']) = canonFile (P ++ [c])
      exact upsert_write_append hwfP hc
    | cons s0 S' =>
      have hwfS1 : ∀ x ∈ (s0 :: S').map (fun r => (r, 1)), wfRec x.1 = true := by
        intro p hp
        obtain ⟨x, hx, rfl⟩ := List.mem_map.mp hp
        exact hwfS x hx
      have hS1 : ∀ x ∈ (s0 :: S').map (fun r => (r, 1)), x.1.host ≠ c.host := by
        intro p hp
        obtain ⟨x, hx, rfl⟩ := List.mem_map.mp hp
        exact hS x hx
      have hst : (splitNl (canonFile (P ++ t :: s0 :: S'))).foldl (insertStep c)
          ([], false, false) =
          (catNl (blkLines (P.map (fun r => (r, 1)))) ++ catNl (entryLines c) ++
            catNl (blkLines ((s0 :: S').map (fun r => (r, 1)))), false, true) := by
        rw [hsplit,
          show (P ++ t :: s0 :: S').map (fun r => (r, 1)) =
            P.map (fun r => (r, 1)) ++ (t, 1) :: (s0 :: S').map (fun r => (r, 1))
            from by simp,
          show blkLines (P.map (fun r => (r, 1)) ++
              (t, 1) :: (s0 :: S').map (fun r => (r, 1))) =
            blkLines (P.map (fun r => (r, 1))) ++
              ((entryLines t ++ List.replicate 1 []) ++
                blkLines ((s0 :: S').map (fun r => (r, 1)))) from by
            rw [blkLines_append, blkLines_cons],
          List.foldl_append, List.foldl_append,
          insertStep_stream_keep c _ _ false hwfP1 hP1,
          insertStep_block_target c 1 _ hwft ht,
          show (s0 :: S').map (fun r => (r, 1)) =
            (s0, 1) :: S'.map (fun r => (r, 1)) from by simp,
          insertStep_stream_insert c (s0, 1) (S'.map (fun r => (r, 1))) _
            (by intro x hx; exact hwfS1 x (by simpa using hx))
            (by intro x hx; exact hS1 x (by simpa using hx))]
        simp
      rw [insertOrUpdate_eq _ _ hst]
      show beautifySSHConfig (jsTrim (catNl (blkLines (P.map (fun r => (r, 1)))) ++
        catNl (entryLines c) ++
        catNl (blkLines ((s0 :: S').map (fun r => (r, 1))))) ++ ['\n']) =
        canonFile (P ++ c :: s0 :: S')
      exact upsert_write_mid hwfP hc hwfS
  · have hne : ∀ x ∈ rs, x.host ≠ c.host := by
      intro x hx hq
      exact hfound ⟨x, hx, hq⟩
    rw [upsertL_not_found hne]
    cases rs with
    | nil =>
      have hst : (splitNl (canonFile ([] : List SSHConnection))).foldl (insertStep c)
          ([], false, false) = (['\n', '\n'], false, false) := by
        rw [show splitNl (canonFile ([] : List SSHConnection)) = [[], []] from rfl,
          List.foldl_cons, insertStep_nonhost_keep c [] false false (by decide) (Or.inl rfl),
          List.foldl_cons, insertStep_nonhost_keep c _ false false (by decide) (Or.inl rfl),
          List.foldl_nil]
        rfl
      rw [insertOrUpdate_eq _ _ hst]
      show beautifySSHConfig (jsTrim (['\n', '\n'] ++ ['\n'] ++
        buildConnectionEntry c ++ ['\n']) ++ ['\n']) = canonFile ([] ++ [c])
      have harg : ['\n', '\n'] ++ ['\n'] ++ buildConnectionEntry c ++ ['\n'] =
          List.replicate 3 '\n' ++
            (joinNl (blkLines [(c, 0)]) ++ List.replicate 1 '\n') := by
        rw [blkLines_single0, show buildConnectionEntry c = joinNl (entryLines c) from rfl]
        simp [List.replicate]
      rw [harg, store_write_canon [] c (by simp)
        (by intro p hp; simp only [List.nil_append, List.mem_singleton] at hp; subst hp
            exact hc)
        (by intro p hp; simp only [List.nil_append, List.mem_singleton] at hp; subst hp
            show (0 : Nat) ≤ 2; decide)
        3 1]
      simp
    | cons r0 rest =>
      have hwf1 : ∀ p ∈ (r0 :: rest).map (fun r => (r, 1)), wfRec p.1 = true := by
        intro p hp
        obtain ⟨x, hx, rfl⟩ := List.mem_map.mp hp
        exact hwf x hx
      have hne1 : ∀ p ∈ (r0 :: rest).map (fun r => (r, 1)), p.1.host ≠ c.host := by
        intro p hp
        obtain ⟨x, hx, rfl⟩ := List.mem_map.mp hp
        exact hne x hx
      have hst : (splitNl (canonFile (r0 :: rest))).foldl (insertStep c)
          ([], false, false) =
          (catNl (blkLines ((r0 :: rest).map (fun r => (r, 1)))), false, false) := by
        rw [splitNl_canonFile (by simp) hwf, canon_blk (by simp),
          insertStep_stream_keep c _ _ false hwf1 hne1]
        simp
      rw [insertOrUpdate_eq _ _ hst]
      show beautifySSHConfig (jsTrim (catNl (blkLines ((r0 :: rest).map (fun r => (r, 1)))) ++
        ['\n'] ++ buildConnectionEntry c ++ ['\n']) ++ ['\n']) = canonFile ((r0 :: rest) ++ [c])
      exact upsert_write_append hwf hc

theorem popComments_nil : popComments [] = [] := by
  rw [popComments]
  split
  · rename_i l hsome
    simp at hsome
  · rfl

theorem popComments_last_blank (A : List Str) : popComments (A ++ [[]]) = A ++ [[]] := by
  rw [popComments]
  split
  · rename_i l hsome
    have hl : l = [] := by
      rw [List.getLast?_concat] at hsome
      exact (Option.some.inj hsome).symm
    subst hl
    rw [if_neg (by decide)]
  · rfl

theorem removeStep_nonhost_out (h : Str) (acc : List Str) {l : Str}
    (hl : (strLit "Host ").isPrefixOf l = false) :
    removeStep h (acc, false) l = (acc ++ [l], false) := by
  simp [removeStep, hl]

theorem removeStep_nonhost_in (h : Str) (acc : List Str) {l : Str}
    (hl : (strLit "Host ").isPrefixOf l = false) :
    removeStep h (acc, true) l = (acc, true) := by
  simp [removeStep, hl]

theorem removeStep_host_match (h : Str) (acc : List Str) (ins : Bool)
    (hok : tokenVal h = true) :
    removeStep h (acc, ins) (strLit "Host " ++ h) = (popComments acc, true) := by
  simp [removeStep, hostLine_isPrefix, hostLine_getD1 hok]

theorem removeStep_host_other (h : Str) (acc : List Str) (ins : Bool) {q : Str}
    (hok : tokenVal q = true) (hq : q ≠ h) :
    removeStep h (acc, ins) (strLit "Host " ++ q) =
      (acc ++ [strLit "Host " ++ q], false) := by
  simp [removeStep, hostLine_isPrefix, hostLine_getD1 hok, hq]

theorem removeStep_fold_nonhost_out (h : Str) (L : List Str) (acc : List Str)
    (hL : ∀ l ∈ L, (strLit "Host ").isPrefixOf l = false) :
    L.foldl (removeStep h) (acc, false) = (acc ++ L, false) := by
  induction L generalizing acc with
  | nil => simp
  | cons l ls ih =>
    rw [List.foldl_cons, removeStep_nonhost_out h acc (hL l (by simp)),
      ih _ (fun x hx => hL x (by simp [hx]))]
    simp

theorem removeStep_fold_nonhost_in (h : Str) (L : List Str) (acc : List Str)
    (hL : ∀ l ∈ L, (strLit "Host ").isPrefixOf l = false) :
    L.foldl (removeStep h) (acc, true) = (acc, true) := by
  induction L with
  | nil => rfl
  | cons l ls ih =>
    rw [List.foldl_cons, removeStep_nonhost_in h acc (hL l (by simp)),
      ih (fun x hx => hL x (by simp [hx]))]

theorem removeStep_block_other (h : Str) {q : SSHConnection} (a : Nat) (acc : List Str)
    (ins : Bool) (hwf : wfRec q = true) (hne : q.host ≠ h) :
    (entryLines q ++ List.replicate a []).foldl (removeStep h) (acc, ins) =
      (acc ++ (entryLines q ++ List.replicate a []), false) := by
  rw [entryLines_eq, List.cons_append, List.foldl_cons,
    removeStep_host_other h acc ins (wfRec_parts hwf).1 hne,
    removeStep_fold_nonhost_out h _ _ (entryBlock_nonhost hwf a)]
  simp

theorem removeStep_block_match (h : Str) {t : SSHConnection} (a : Nat) (acc : List Str)
    (hwf : wfRec t = true) (ht : t.host = h) :
    (entryLines t ++ List.replicate a []).foldl (removeStep h) (acc, false) =
      (popComments acc, true) := by
  rw [entryLines_eq, List.cons_append, List.foldl_cons, ht,
    removeStep_host_match h acc false (ht ▸ (wfRec_parts hwf).1),
    removeStep_fold_nonhost_in h _ _ (entryBlock_nonhost hwf a)]

theorem removeStep_stream_other (h : Str) (items : List (SSHConnection × Nat))
    (acc : List Str) (hwf : ∀ p ∈ items, wfRec p.1 = true)
    (hne : ∀ p ∈ items, p.1.host ≠ h) :
    (blkLines items).foldl (removeStep h) (acc, false) =
      (acc ++ blkLines items, false) := by
  induction items generalizing acc with
  | nil => simp [blkLines]
  | cons p rest ih =>
    obtain ⟨r, a⟩ := p
    rw [show blkLines ((r, a) :: rest) =
        (entryLines r ++ List.replicate a []) ++ blkLines rest from by
      rw [blkLines_cons],
      List.foldl_append,
      removeStep_block_other h a acc false (hwf (r, a) (by simp)) (hne (r, a) (by simp)),
      ih _ (fun x hx => hwf x (by simp [hx])) (fun x hx => hne x (by simp [hx]))]
    simp

theorem removeStep_stream_after (h : Str) (p : SSHConnection × Nat)
    (items : List (SSHConnection × Nat)) (acc : List Str)
    (hwf : ∀ x ∈ p :: items, wfRec x.1 = true)
    (hne : ∀ x ∈ p :: items, x.1.host ≠ h) :
    (blkLines (p :: items)).foldl (removeStep h) (acc, true) =
      (acc ++ blkLines (p :: items), false) := by
  obtain ⟨r, a⟩ := p
  rw [show blkLines ((r, a) :: items) =
      (entryLines r ++ List.replicate a []) ++ blkLines items from by
    rw [blkLines_cons],
    List.foldl_append, entryLines_eq, List.cons_append, List.foldl_cons,
    removeStep_host_other h acc true (wfRec_parts (hwf (r, a) (by simp))).1
      (hne (r, a) (by simp)),
    removeStep_fold_nonhost_out h _ _ (entryBlock_nonhost (hwf (r, a) (by simp)) a),
    removeStep_stream_other h items _ (fun x hx => hwf x (by simp [hx]))
      (fun x hx => hne x (by simp [hx]))]
  simp [entryLines_eq]

theorem removeL_not_found {rs : List SSHConnection} {h : Str}
    (hne : ∀ x ∈ rs, x.host ≠ h) : removeL rs h = rs := by
  rw [removeL, List.filter_eq_self]
  intro x hx
  simpa using hne x hx

theorem removeL_found {P S : List SSHConnection} {t : SSHConnection} {h : Str}
    (ht : t.host = h) (hP : ∀ x ∈ P, x.host ≠ h) (hS : ∀ x ∈ S, x.host ≠ h) :
    removeL (P ++ t :: S) h = P ++ S := by
  rw [removeL, List.filter_append, List.filter_cons]
  rw [if_neg (by simp [ht])]
  rw [List.filter_eq_self.mpr (fun x hx => by simpa using hP x hx),
    List.filter_eq_self.mpr (fun x hx => by simpa using hS x hx)]

/-- Final step of `removeConnection`: writing back the kept canonical lines. -/
theorem remove_write {Q : List SSHConnection} (hwfQ : ∀ x ∈ Q, wfRec x = true) :
    beautifySSHConfig (jsTrim (joinNl (blkLines (Q.map (fun r => (r, 1))))) ++ ['\n']) =
      canonFile Q := by
  rcases List.eq_nil_or_concat Q with rfl | ⟨V, pl, hq⟩
  · rfl
  · rw [List.concat_eq_append] at hq
    subst hq
    have hblk : blkLines ((V ++ [pl]).map (fun r => (r, 1))) =
        blkLines (V.map (fun r => (r, 1)) ++ [(pl, 0)]) ++ [[]] := by
      rw [show (V ++ [pl]).map (fun r => (r, 1)) =
          V.map (fun r => (r, 1)) ++ [(pl, 1)] from by simp,
        blkLines_append, blkLines_append, blkLines_single0,
        show blkLines [(pl, 1)] = entryLines pl ++ [[]] from by
          rw [blkLines_cons]; simp [blkLines, List.replicate]]
      simp
    have harg : joinNl (blkLines ((V ++ [pl]).map (fun r => (r, 1)))) =
        List.replicate 0 '\n' ++
          (joinNl (blkLines (V.map (fun r => (r, 1)) ++ [(pl, 0)])) ++
            List.replicate 1 '\n') := by
      rw [hblk, joinNl_append_blank (blkLines_ne_nil (by simp))]
      simp [List.replicate]
    rw [harg, store_write_canon (V.map (fun r => (r, 1))) pl rfl ?hw ?ha 0 1]
    case hw =>
      intro p hp
      rcases List.mem_append.mp hp with hp | hp
      · obtain ⟨x, hx, rfl⟩ := List.mem_map.mp hp
        exact hwfQ x (by simp [hx])
      · rw [List.mem_singleton.mp hp]
        exact hwfQ pl (by simp)
    case ha =>
      intro p hp
      rcases List.mem_append.mp hp with hp | hp
      · obtain ⟨x, hx, rfl⟩ := List.mem_map.mp hp
        show (1 : Nat) ≤ 2; decide
      · rw [List.mem_singleton.mp hp]
        show (0 : Nat) ≤ 2; decide
    have hmV : List.map Prod.fst (V.map (fun r => (r, 1))) = V := by
      simp [Function.comp_def]
    simp [hmV]

theorem blk_map1_concat (V : List SSHConnection) (pl : SSHConnection) :
    blkLines ((V ++ [pl]).map (fun r => (r, 1))) =
      blkLines (V.map (fun r => (r, 1)) ++ [(pl, 0)]) ++ [[]] := by
  rw [show (V ++ [pl]).map (fun r => (r, 1)) =
      V.map (fun r => (r, 1)) ++ [(pl, 1)] from by simp,
    blkLines_append, blkLines_append, blkLines_single0,
    show blkLines [(pl, 1)] = entryLines pl ++ [[]] from by
      rw [blkLines_cons]; simp [blkLines, List.replicate]]
  simp

/-- `removeConnection` on a canonical file realises the reference removal:
the matching block disappears, all other blocks stay in order. -/
theorem remove_canon {rs : List SSHConnection} {h : Str}
    (hwf : ∀ r ∈ rs, wfRec r = true) (huniq : uniqHosts rs = true) :
    removeConnection (canonFile rs) h = canonFile (removeL rs h) := by
  by_cases hfound : ∃ t ∈ rs, t.host = h
  · obtain ⟨t, htmem, ht⟩ := hfound
    obtain ⟨P, S, rfl⟩ := List.append_of_mem htmem
    obtain ⟨hPt, hSt⟩ := uniq_split huniq
    have hP : ∀ x ∈ P, x.host ≠ h := fun x hx => ht ▸ hPt x hx
    have hS : ∀ x ∈ S, x.host ≠ h := fun x hx => ht ▸ hSt x hx
    have hwfP : ∀ x ∈ P, wfRec x = true := fun x hx => hwf x (by simp [hx])
    have hwfS : ∀ x ∈ S, wfRec x = true := fun x hx => hwf x (by simp [hx])
    have hwft : wfRec t = true := hwf t (by simp)
    have hwfP1 : ∀ p ∈ P.map (fun r => (r, 1)), wfRec p.1 = true := by
      intro p hp
      obtain ⟨x, hx, rfl⟩ := List.mem_map.mp hp
      exact hwfP x hx
    have hP1 : ∀ p ∈ P.map (fun r => (r, 1)), p.1.host ≠ h := by
      intro p hp
      obtain ⟨x, hx, rfl⟩ := List.mem_map.mp hp
      exact hP x hx
    have hsplit : splitNl (canonFile (P ++ t :: S)) =
        blkLines ((P ++ t :: S).map (fun r => (r, 1))) := by
      rw [splitNl_canonFile (by simp) hwf, canon_blk (by simp)]
    have hpop : popComments (blkLines (P.map (fun r => (r, 1)))) =
        blkLines (P.map (fun r => (r, 1))) := by
      rcases List.eq_nil_or_concat P with rfl | ⟨V, pl, hq⟩
      · exact popComments_nil
      · rw [List.concat_eq_append] at hq
        subst hq
        rw [blk_map1_concat]
        exact popComments_last_blank _
    rw [removeL_found ht hP hS]
    cases S with
    | nil =>
      have hst : (splitNl (canonFile (P ++ t :: []))).foldl (removeStep h)
          ([], false) = (blkLines (P.map (fun r => (r, 1))), true) := by
        rw [hsplit,
          show (P ++ t :: []).map (fun r => (r, 1)) =
            P.map (fun r => (r, 1)) ++ [(t, 1)] from by simp,
          show blkLines (P.map (fun r => (r, 1)) ++ [(t, 1)]) =
            blkLines (P.map (fun r => (r, 1))) ++ (entryLines t ++ List.replicate 1 [])
            from by
            rw [blkLines_append, blkLines_cons]
            simp [blkLines],
          List.foldl_append,
          removeStep_stream_other h _ _ hwfP1 hP1,
          removeStep_block_match h 1 _ hwft ht,
          List.nil_append, hpop]
      rw [remove_eq _ _ hst]
      show beautifySSHConfig (jsTrim (joinNl (blkLines (P.map (fun r => (r, 1))))) ++
        ['\n']) = canonFile (P ++ [])
      rw [List.append_nil]
      exact remove_write hwfP
    | cons s0 S' =>
      have hwfS1 : ∀ x ∈ (s0, 1) :: S'.map (fun r => (r, 1)), wfRec x.1 = true := by
        intro p hp
        rcases List.mem_cons.mp hp with rfl | hp
        · exact hwfS s0 (by simp)
        · obtain ⟨x, hx, rfl⟩ := List.mem_map.mp hp
          exact hwfS x (by simp [hx])
      have hS1 : ∀ x ∈ (s0, 1) :: S'.map (fun r => (r, 1)), x.1.host ≠ h := by
        intro p hp
        rcases List.mem_cons.mp hp with rfl | hp
        · exact hS s0 (by simp)
        · obtain ⟨x, hx, rfl⟩ := List.mem_map.mp hp
          exact hS x (by simp [hx])
      have hst : (splitNl (canonFile (P ++ t :: s0 :: S'))).foldl (removeStep h)
          ([], false) =
          (blkLines (P.map (fun r => (r, 1))) ++
            blkLines ((s0, 1) :: S'.map (fun r => (r, 1))), false) := by
        rw [hsplit,
          show (P ++ t :: s0 :: S').map (fun r => (r, 1)) =
            P.map (fun r => (r, 1)) ++ (t, 1) :: (s0, 1) :: S'.map (fun r => (r, 1))
            from by simp,
          show blkLines (P.map (fun r => (r, 1)) ++
              (t, 1) :: (s0, 1) :: S'.map (fun r => (r, 1))) =
            blkLines (P.map (fun r => (r, 1))) ++
              ((entryLines t ++ List.replicate 1 []) ++
                blkLines ((s0, 1) :: S'.map (fun r => (r, 1)))) from by
            rw [blkLines_append, blkLines_cons],
          List.foldl_append, List.foldl_append,
          removeStep_stream_other h _ _ hwfP1 hP1,
          removeStep_block_match h 1 _ hwft ht,
          List.nil_append, hpop,
          removeStep_stream_after h (s0, 1) (S'.map (fun r => (r, 1))) _ hwfS1 hS1]
      rw [remove_eq _ _ hst]
      show beautifySSHConfig (jsTrim (joinNl (blkLines (P.map (fun r => (r, 1))) ++
        blkLines ((s0, 1) :: S'.map (fun r => (r, 1))))) ++ ['\n']) =
        canonFile (P ++ s0 :: S')
      rw [show blkLines (P.map (fun r => (r, 1))) ++
          blkLines ((s0, 1) :: S'.map (fun r => (r, 1))) =
          blkLines ((P ++ s0 :: S').map (fun r => (r, 1))) from by
        rw [List.map_append, blkLines_append]
        simp]
      exact remove_write (fun x hx => by
        rcases List.mem_append.mp hx with hx | hx
        · exact hwfP x hx
        · exact hwfS x hx)
  · have hne : ∀ x ∈ rs, x.host ≠ h := by
      intro x hx hq
      exact hfound ⟨x, hx, hq⟩
    rw [removeL_not_found hne]
    cases rs with
    | nil =>
      have hst : (splitNl (canonFile ([] : List SSHConnection))).foldl (removeStep h)
          ([], false) = ([[], []], false) := by
        rw [show splitNl (canonFile ([] : List SSHConnection)) = [[], []] from rfl,
          List.foldl_cons, removeStep_nonhost_out h [] (by decide),
          List.foldl_cons, removeStep_nonhost_out h _ (by decide), List.foldl_nil]
        rfl
      rw [remove_eq _ _ hst]
      rfl
    | cons r0 rest =>
      have hwf1 : ∀ p ∈ (r0 :: rest).map (fun r => (r, 1)), wfRec p.1 = true := by
        intro p hp
        obtain ⟨x, hx, rfl⟩ := List.mem_map.mp hp
        exact hwf x hx
      have hne1 : ∀ p ∈ (r0 :: rest).map (fun r => (r, 1)), p.1.host ≠ h := by
        intro p hp
        obtain ⟨x, hx, rfl⟩ := List.mem_map.mp hp
        exact hne x hx
      have hst : (splitNl (canonFile (r0 :: rest))).foldl (removeStep h)
          ([], false) = (blkLines ((r0 :: rest).map (fun r => (r, 1))), false) := by
        rw [splitNl_canonFile (by simp) hwf, canon_blk (by simp),
          removeStep_stream_other h _ _ hwf1 hne1, List.nil_append]
      rw [remove_eq _ _ hst]
      exact remove_write hwf

theorem upsertL_wf {rs : List SSHConnection} {c : SSHConnection}
    (hwf : ∀ r ∈ rs, wfRec r = true) (hc : wfRec c = true) :
    ∀ r ∈ upsertL rs c, wfRec r = true := by
  intro r hr
  unfold upsertL at hr
  split at hr
  · obtain ⟨x, hx, rfl⟩ := List.mem_map.mp hr
    by_cases hxc : x.host = c.host
    · rw [if_pos hxc]
      exact hc
    · rw [if_neg hxc]
      exact hwf x hx
  · rcases List.mem_append.mp hr with hr | hr
    · exact hwf r hr
    · rw [List.mem_singleton.mp hr]
      exact hc

theorem removeL_wf {rs : List SSHConnection} {h : Str}
    (hwf : ∀ r ∈ rs, wfRec r = true) :
    ∀ r ∈ removeL rs h, wfRec r = true := by
  intro r hr
  exact hwf r (List.mem_of_mem_filter hr)

theorem uniqHosts_iff {rs : List SSHConnection} :
    uniqHosts rs = true ↔ (rs.map (fun r => r.host)).Nodup := by
  simp [uniqHosts]

theorem upsertL_uniq {rs : List SSHConnection} {c : SSHConnection}
    (huniq : uniqHosts rs = true) : uniqHosts (upsertL rs c) = true := by
  rw [uniqHosts_iff] at huniq ⊢
  unfold upsertL
  split
  · rw [List.map_map,
      show ((fun r : SSHConnection => r.host) ∘
          fun x => if x.host = c.host then c else x) =
        fun x : SSHConnection => if x.host = c.host then c.host else x.host from by
        funext x
        by_cases hxc : x.host = c.host <;> simp [Function.comp, hxc]]
    rw [show (rs.map fun x : SSHConnection => if x.host = c.host then c.host else x.host) =
        rs.map fun x : SSHConnection => x.host from
      List.map_congr_left (fun x hx => by
        by_cases hxc : x.host = c.host <;> simp [hxc])]
    exact huniq
  · rename_i hany
    rw [List.map_append]
    rw [List.nodup_append]
    refine ⟨huniq, by simp, ?_⟩
    intro a ha hb
    simp only [List.map_singleton, List.mem_singleton] at hb
    subst hb
    obtain ⟨x, hx, hxh⟩ := List.mem_map.mp ha
    exact hany (List.any_eq_true.mpr ⟨x, hx, by simp [hxh]⟩)

theorem removeL_uniq {rs : List SSHConnection} {h : Str}
    (huniq : uniqHosts rs = true) : uniqHosts (removeL rs h) = true := by
  rw [uniqHosts_iff] at huniq ⊢
  exact huniq.sublist (List.Sublist.map _ (List.filter_sublist rs))

theorem applyOp_canon {rs : List SSHConnection} {op : CfgOp}
    (hwf : ∀ r ∈ rs, wfRec r = true) (huniq : uniqHosts rs = true)
    (hop : wfOp op = true) :
    applyOpFile (canonFile rs) op = canonFile (applyOpSpec rs op) := by
  cases op with
  | upsert c => exact upsert_canon hwf huniq (by simpa [wfOp] using hop)
  | removeByAlias a => exact remove_canon hwf huniq

theorem applyOpSpec_wf {rs : List SSHConnection} {op : CfgOp}
    (hwf : ∀ r ∈ rs, wfRec r = true) (hop : wfOp op = true) :
    ∀ r ∈ applyOpSpec rs op, wfRec r = true := by
  cases op with
  | upsert c => exact upsertL_wf hwf (by simpa [wfOp] using hop)
  | removeByAlias a => exact removeL_wf hwf

theorem applyOpSpec_uniq {rs : List SSHConnection} {op : CfgOp}
    (huniq : uniqHosts rs = true) : uniqHosts (applyOpSpec rs op) = true := by
  cases op with
  | upsert c => exact upsertL_uniq huniq
  | removeByAlias a => exact removeL_uniq huniq

theorem fold_canon (ops : List CfgOp) (rs : List SSHConnection)
    (hwf : ∀ r ∈ rs, wfRec r = true) (huniq : uniqHosts rs = true)
    (hops : ∀ op ∈ ops, wfOp op = true) :
    ops.foldl applyOpFile (canonFile rs) = canonFile (ops.foldl applyOpSpec rs) := by
  induction ops generalizing rs with
  | nil => rfl
  | cons op rest ih =>
    rw [List.foldl_cons, List.foldl_cons,
      applyOp_canon hwf huniq (hops op (by simp)),
      ih _ (applyOpSpec_wf hwf (hops op (by simp))) (applyOpSpec_uniq huniq)
        (fun x hx => hops x (by simp [hx]))]

theorem foldSpec_wf (ops : List CfgOp) (rs : List SSHConnection)
    (hwf : ∀ r ∈ rs, wfRec r = true) (hops : ∀ op ∈ ops, wfOp op = true) :
    ∀ r ∈ ops.foldl applyOpSpec rs, wfRec r = true := by
  induction ops generalizing rs with
  | nil => exact hwf
  | cons op rest ih =>
    rw [List.foldl_cons]
    exact ih _ (applyOpSpec_wf hwf (hops op (by simp)))
      (fun x hx => hops x (by simp [hx]))

theorem upsertL_hosts (rs : List SSHConnection) (c : SSHConnection) :
    (upsertL rs c).map (fun r => r.host) =
      if rs.any (fun x => x.host = c.host) then rs.map (fun r => r.host)
      else rs.map (fun r => r.host) ++ [c.host] := by
  by_cases hany : rs.any (fun x => x.host = c.host) = true
  · rw [if_pos hany]
    unfold upsertL
    rw [if_pos hany, List.map_map]
    refine List.map_congr_left ?_
    intro x hx
    by_cases hxc : x.host = c.host <;> simp [Function.comp, hxc]
  · rw [if_neg hany]
    unfold upsertL
    rw [if_neg hany]
    simp

theorem upsertL_absorb {rs : List SSHConnection} {c1 c2 : SSHConnection}
    (hh : c2.host = c1.host) : upsertL (upsertL rs c1) c2 = upsertL rs c2 := by
  by_cases hany : rs.any (fun x => x.host = c1.host) = true
  · have hany2 : rs.any (fun x => x.host = c2.host) = true := by rwa [hh]
    obtain ⟨x0, hx0, hx0h⟩ := List.any_eq_true.mp hany
    have hx0h' : x0.host = c1.host := by simpa using hx0h
    have hany1' : (rs.map (fun x => if x.host = c1.host then c1 else x)).any
        (fun x => x.host = c2.host) = true := by
      refine List.any_eq_true.mpr
        ⟨if x0.host = c1.host then c1 else x0, List.mem_map_of_mem _ hx0, ?_⟩
      rw [if_pos hx0h']
      simp [hh]
    have e1 : upsertL rs c1 = rs.map (fun x => if x.host = c1.host then c1 else x) := by
      unfold upsertL
      rw [if_pos hany]
    have e2 : upsertL rs c2 = rs.map (fun x => if x.host = c2.host then c2 else x) := by
      unfold upsertL
      rw [if_pos hany2]
    have e3 : upsertL (rs.map (fun x => if x.host = c1.host then c1 else x)) c2 =
        (rs.map (fun x => if x.host = c1.host then c1 else x)).map
          (fun x => if x.host = c2.host then c2 else x) := by
      unfold upsertL
      rw [if_pos hany1']
    rw [e1, e3, e2, List.map_map]
    refine List.map_congr_left ?_
    intro x hx
    by_cases hxc : x.host = c1.host
    · simp [Function.comp, hxc, hh]
    · have hxc2 : ¬ x.host = c2.host := by rw [hh]; exact hxc
      simp [Function.comp, hxc, hxc2]
  · have hanyF : rs.any (fun x => x.host = c1.host) = false := by
      revert hany
      cases rs.any (fun x => x.host = c1.host) <;> simp
    have hany2 : rs.any (fun x => x.host = c2.host) = false := by rwa [hh]
    have e1 : upsertL rs c1 = rs ++ [c1] := by
      unfold upsertL
      rw [if_neg hany]
    have e2 : upsertL rs c2 = rs ++ [c2] := by
      unfold upsertL
      rw [if_neg (by rw [hany2]; simp)]
    have hany1' : (rs ++ [c1]).any (fun x => x.host = c2.host) = true := by
      refine List.any_eq_true.mpr ⟨c1, by simp, ?_⟩
      simp [hh]
    have e3 : upsertL (rs ++ [c1]) c2 =
        (rs ++ [c1]).map (fun x => if x.host = c2.host then c2 else x) := by
      unfold upsertL
      rw [if_pos hany1']
    have hmapid : rs.map (fun x => if x.host = c2.host then c2 else x) = rs := by
      conv_rhs => rw [show rs = rs.map id from by simp]
      refine List.map_congr_left ?_
      intro x hx
      have hne1 : ¬ x.host = c1.host := by
        intro hq
        have := List.any_eq_false.mp hanyF x hx
        simp [hq] at this
      simp only [id]
      rw [if_neg (by rw [hh]; exact hne1)]
    rw [e1, e3, e2, List.map_append, hmapid]
    simp [hh]

/-- C5: for every sequence of `insertOrUpdateConnection` / `removeConnection`
operations on the config text (well-formed records, unique aliases), re-parsing
the resulting text with `getAllConnections` yields exactly the reference record
list — every recognized field of every upserted record round-trips unchanged
through serialization, the `beautifySSHConfig` pass, and parsing. -/
theorem C5_roundtrip_law (rs0 : List SSHConnection) (ops : List CfgOp)
    (h0 : ∀ r ∈ rs0, wfRec r = true) (hu : uniqHosts rs0 = true)
    (hops : ∀ op ∈ ops, wfOp op = true) :
    getAllConnections (ops.foldl applyOpFile (canonFile rs0)) =
      ops.foldl applyOpSpec rs0 := by
  rw [fold_canon ops rs0 h0 hu hops]
  exact parse_canon _ (foldSpec_wf ops rs0 h0 hops)

theorem C5_roundtrip_law_witness :
    ((∀ r ∈ ([] : List SSHConnection), wfRec r = true) ∧
      uniqHosts ([] : List SSHConnection) = true ∧
      (∀ op ∈ wOps, wfOp op = true)) ∧
    getAllConnections (wOps.foldl applyOpFile (canonFile [])) =
      wOps.foldl applyOpSpec [] :=
  ⟨⟨by decide, by decide, by decide⟩,
    C5_roundtrip_law [] wOps (by decide) (by decide) (by decide)⟩

/-- C6: upserting twice with the same alias never produces two blocks for that
alias: the parsed store equals a single in-place replacement, alias uniqueness
holds afterwards, and the block order of all other aliases is preserved. -/
theorem C6_upsert_replaces_in_place (rs : List SSHConnection) (c1 c2 : SSHConnection)
    (hwf : ∀ r ∈ rs, wfRec r = true) (huniq : uniqHosts rs = true)
    (hc1 : wfRec c1 = true) (hc2 : wfRec c2 = true) (hh : c2.host = c1.host) :
    getAllConnections
        (insertOrUpdateConnection (insertOrUpdateConnection (canonFile rs) c1) c2) =
      upsertL rs c2 ∧
    uniqHosts (getAllConnections
        (insertOrUpdateConnection (insertOrUpdateConnection (canonFile rs) c1) c2)) =
      true ∧
    (getAllConnections
        (insertOrUpdateConnection (insertOrUpdateConnection (canonFile rs) c1) c2)).map
        (fun r => r.host) =
      (if rs.any (fun x => x.host = c2.host) then rs.map (fun r => r.host)
       else rs.map (fun r => r.host) ++ [c2.host]) := by
  have h1 : insertOrUpdateConnection (canonFile rs) c1 = canonFile (upsertL rs c1) :=
    upsert_canon hwf huniq hc1
  have h2 : insertOrUpdateConnection (canonFile (upsertL rs c1)) c2 =
      canonFile (upsertL (upsertL rs c1) c2) :=
    upsert_canon (upsertL_wf hwf hc1) (upsertL_uniq huniq) hc2
  have hparse : getAllConnections
      (insertOrUpdateConnection (insertOrUpdateConnection (canonFile rs) c1) c2) =
      upsertL rs c2 := by
    rw [h1, h2, upsertL_absorb hh]
    exact parse_canon _ (upsertL_wf hwf hc2)
  refine ⟨hparse, ?_, ?_⟩
  · rw [hparse]
    exact upsertL_uniq huniq
  · rw [hparse]
    exact upsertL_hosts rs c2

theorem C6_upsert_replaces_in_place_witness :
    ((∀ r ∈ [wRecA], wfRec r = true) ∧ uniqHosts [wRecA] = true ∧
      wfRec wRecB = true ∧ wfRec wRecB2 = true ∧ wRecB2.host = wRecB.host) ∧
    getAllConnections
        (insertOrUpdateConnection
          (insertOrUpdateConnection (canonFile [wRecA]) wRecB) wRecB2) =
      upsertL [wRecA] wRecB2 :=
  ⟨⟨by decide, by decide, by decide, by decide, by decide⟩,
    (C6_upsert_replaces_in_place [wRecA] wRecB wRecB2
      (by decide) (by decide) (by decide) (by decide) (by decide)).1⟩

/-- C7 counterexample: a folder-tag comment line immediately preceding the
`Host b` line is attributed to the PREVIOUS record `a`, not to `b`. -/
theorem C7_counterexample :
    getAllConnections
        (strLit "Host a\n  HostName h1\n  # vFolderTag: work\nHost b\n  HostName h2\n") =
      [{ host := strLit "a", hostname := strLit "h1",
          vFolderTag := some (strLit "work") },
        { host := strLit "b", hostname := strLit "h2" }] := by
  decide

/-- C7 (amended): the folder-tag comment line of a serialized block is placed
immediately AFTER the block's `Host` line (inside the block it annotates), and
the parser attributes a folder-tag comment line to the record of the most
recent preceding `Host` line — never to a following block. -/
theorem C7_tag_attribution (r : SSHConnection) (hwf : wfRec r = true)
    (ht : strT r.vFolderTag = true) :
    (entryLines r).take 2 = [strLit "Host " ++ r.host,
      strLit "  # vFolderTag: " ++ r.vFolderTag.getD []] ∧
    ∀ (acc : List SSHConnection) (c : SSHConnection),
      parseStep (acc, some c) (strLit "  # vFolderTag: " ++ r.vFolderTag.getD []) =
        (acc, some { c with vFolderTag := some (r.vFolderTag.getD []) }) := by
  have htag : tagOk r.vFolderTag = true := (wfRec_parts hwf).2.2.2.2.2.2.2.2.2.2.2
  obtain ⟨hcv, hfree⟩ := tagOk_val htag ht
  obtain ⟨h1, h2, h3, h4⟩ := cleanVal_facts hcv
  constructor
  · rw [entryLines, entryLinesOpt, if_pos ht]
    simp
  · intro acc c
    rw [show strLit "  # vFolderTag: " ++ r.vFolderTag.getD [] =
        strLit "  " ++ (['#'] ++ ' ' :: (strLit "vFolderTag: " ++ r.vFolderTag.getD []))
        from rfl,
      parseStep_keyline acc c ['#'] _ (by decide) (by decide) (by decide)
        (by simp [strLit]) (by rwa [getLastD_append_right '.' h1]),
      applyField_tag c hfree]

theorem C7_tag_attribution_witness :
    (wfRec wRecB = true ∧ strT wRecB.vFolderTag = true) ∧
    (entryLines wRecB).take 2 = [strLit "Host " ++ wRecB.host,
      strLit "  # vFolderTag: " ++ wRecB.vFolderTag.getD []] :=
  ⟨⟨by decide, by decide⟩,
    (C7_tag_attribution wRecB (by decide) (by decide)).1⟩

/-! ## Session Registry (`src/sshConnection.ts`, `SSHViewProvider`) -/

/-- C9: the remote file browser's listing is a permutation of the protocol
client's entries with all directories before all files, both groups sorted
case-insensitively by name; in particular {b.txt, Afolder, a.txt, Bfolder}
lists as Afolder, Bfolder, a.txt, b.txt. -/
theorem C9_listing_order (list : List RemoteFile) :
    (sortRemoteFiles list).Perm list ∧
    (∃ ds fs, sortRemoteFiles list = ds ++ fs ∧
      (∀ d ∈ ds, d.isDirectory = true) ∧ (∀ f ∈ fs, f.isDirectory = false) ∧
      List.Sorted leKey ds ∧ List.Sorted leKey fs) ∧
    sortRemoteFiles
        [⟨strLit "b.txt", false⟩, ⟨strLit "Afolder", true⟩,
          ⟨strLit "a.txt", false⟩, ⟨strLit "Bfolder", true⟩] =
      [⟨strLit "Afolder", true⟩, ⟨strLit "Bfolder", true⟩,
        ⟨strLit "a.txt", false⟩, ⟨strLit "b.txt", false⟩] := by
  haveI : IsTotal RemoteFile leKey := ⟨fun a b => le_total (lowerKey a) (lowerKey b)⟩
  haveI : IsTrans RemoteFile leKey := ⟨fun a b c hab hbc => le_trans hab hbc⟩
  refine ⟨?_, ⟨_, _, rfl, ?_, ?_, ?_, ?_⟩, ?_⟩
  · exact ((List.perm_insertionSort leKey _).append
      (List.perm_insertionSort leKey _)).trans (List.filter_append_perm _ list)
  · intro d hd
    exact (List.mem_filter.mp ((List.mem_insertionSort leKey).mp hd)).2
  · intro f hf
    simpa using (List.mem_filter.mp ((List.mem_insertionSort leKey).mp hf)).2
  · exact List.sorted_insertionSort leKey _
  · exact List.sorted_insertionSort leKey _
  · decide

theorem C10_counterexample : isKnownHostT c10Env = (true, none) := by
  decide

/-- C10 (amended): `isKnownHost` is total; a missing trust file, a failing
`ssh-keygen -F`, an empty lookup result, or a failing `ssh-keygen -lf` all
yield `{exists: false, key: null}` — but an unparseable fingerprint on a found
entry yields `{exists: true, key: null}`, which IS distinguishable from an
unknown host. -/
theorem C10_lookup_fallbacks (env : KeyToolEnv) :
    (env.knownHostsExists = false → isKnownHostT env = (false, none)) ∧
    (env.keygenF = none → isKnownHostT env = (false, none)) ∧
    (∀ out, env.keygenF = some out → ¬ (jsTrim out).length > 0 →
      isKnownHostT env = (false, none)) ∧
    (∀ out, env.knownHostsExists = true → env.keygenF = some out →
      (jsTrim out).length > 0 → env.keygenLf = none →
      isKnownHostT env = (false, none)) ∧
    (∀ out out2, env.knownHostsExists = true → env.keygenF = some out →
      (jsTrim out).length > 0 → env.keygenLf = some out2 →
      isKnownHostT env = (true, findSha256 (jsTrim out2))) := by
  obtain ⟨ex, kf, kl⟩ := env
  refine ⟨?_, ?_, ?_, ?_, ?_⟩
  · intro h
    subst h
    rfl
  · intro h
    subst h
    cases ex <;> rfl
  · intro out h hlen
    subst h
    cases ex <;> simp [isKnownHostT, hlen]
  · intro out hex h hlen hkl
    subst hex
    subst h
    subst hkl
    simp [isKnownHostT, hlen]
  · intro out out2 hex h hlen hkl
    subst hex
    subst h
    subst hkl
    simp [isKnownHostT, hlen]

theorem C10_lookup_fallbacks_witness :
    c10EnvMissing.knownHostsExists = false ∧
    isKnownHostT c10EnvMissing = (false, none) :=
  ⟨rfl, (C10_lookup_fallbacks c10EnvMissing).1 rfl⟩

/-! ## Registry fixtures -/

/-- C1 counterexample: calling `connect` on the already-connected key-based
alias `dev` is not a no-op — a second client object (handle 1) is allocated
while handle 0 is still recorded before the call. -/
theorem C1_counterexample :
    connectR envHappy stKeyConnected (strLit "dev") ≠ stKeyConnected ∧
    (findConn stKeyConnected (strLit "dev")).map (fun c => c.client) =
      some (some 0) ∧
    (findConn (connectR envHappy stKeyConnected (strLit "dev"))
        (strLit "dev")).map (fun c => c.client) = some (some 1) := by
  refine ⟨?_, by decide, by decide⟩
  decide

/-- C2: after a failed connect attempt (key-based alias, `sshpass` probe
rejects), the registry still holds the client handle allocated at the start of
the attempt and the alias's entry — the state does not return to its
pre-attempt value. -/
theorem C2_missing_teardown :
    (findConn (connectR envNoSshpass stKeyDisconnected (strLit "dev"))
        (strLit "dev")).map (fun c => c.client) = some (some 5) ∧
    (findConn stKeyDisconnected (strLit "dev")).map (fun c => c.client) =
      some none ∧
    connectR envNoSshpass stKeyDisconnected (strLit "dev") ≠ stKeyDisconnected := by
  refine ⟨by decide, by decide, ?_⟩
  decide

/-- C4 counterexample: the key-based connect spawns a terminal whose visible
command line contains the passphrase `hunter2` as a literal substring. -/
theorem C4_counterexample :
    (connectR envHappy stKeyConnected (strLit "dev")).terminals =
      [⟨sshpassKeyArgs (strLit "~/.ssh/id_rsa") (strLit "hunter2")
        (some (strLit "alice")) (strLit "dev.example.com") none, none⟩] ∧
    (strLit "hunter2") <:+:
      sshpassKeyArgs (strLit "~/.ssh/id_rsa") (strLit "hunter2")
        (some (strLit "alice")) (strLit "dev.example.com") none := by
  refine ⟨by decide, by decide⟩

/-- Full characterisation of a successful password-path reconnect on a
single-connection registry: the existing client handle is reused (no
allocation), the terminal gets the fixed argument template plus the `SSHPASS`
environment binding. -/
theorem connect_pwd_char (env : ConnectEnv) (cfg : Str) (c : Conn)
    (kh : List (Str × Str)) (ts : List VTerminal) (pv : List (Str × Nat))
    (n m k : Nat) (kk k2 pw : Str)
    (hcl : c.client = some k)
    (hhost : lookupKH kh c.crec.hostname = some kk)
    (hk2 : env.scanKey = some k2)
    (hsame : env.fprOf k2 = env.fprOf kk)
    (huser : strT c.crec.user = true)
    (hkeyf : c.usePrivateKey = false)
    (hpw : env.promptPassword = some pw)
    (hpwne : pw.isEmpty = false)
    (hsp : env.sshpassInstalled = some true)
    (hok : env.connectOk = true)
    (hpv : pv.find? (fun q => q.1 = c.id) = none) :
    connectR env ⟨cfg, [c], kh, ts, pv, n, m⟩ c.id =
      ⟨cfg, [{ c with password := some pw }], kh,
        ts ++ [⟨sshpassPwdArgs c.crec.user c.crec.hostname c.crec.port,
          some (strLit "SSHPASS", pw)⟩],
        pv ++ [(c.id, m)], n, m + 1⟩ := by
  have hlook : lookupKH kh c.crec.hostname = some kk := hhost
  simp [connectR, findConn, tryConnectR, tryConnect2, connectWithPasswordR,
    fireConnect, updConn, isKnownHostR, updateKnownHostsR, getHostKeyFromKeyscanR,
    hlook, hcl, hk2, hsame, huser, hkeyf, hpw, hpwne, hsp, hok, hpv]

/-- Full characterisation of a successful key-path reconnect on a
single-connection registry: a fresh client handle replaces the existing one,
and the terminal's argument string interpolates the passphrase. -/
theorem connect_key_char (env : ConnectEnv) (cfg : Str) (c : Conn)
    (kh : List (Str × Str)) (ts : List VTerminal) (pv : List (Str × Nat))
    (n m k : Nat) (kk k2 idf kd pp : Str)
    (hcl : c.client = some k)
    (hhost : lookupKH kh c.crec.hostname = some kk)
    (hk2 : env.scanKey = some k2)
    (hsame : env.fprOf k2 = env.fprOf kk)
    (huser : strT c.crec.user = true)
    (hkeyt : c.usePrivateKey = true)
    (hid : env.identityFileOf = some idf)
    (hkr : env.keyRead = some kd)
    (henc : env.keyEncrypted = false)
    (hpp : c.passphrase = some pp)
    (hppne : pp.isEmpty = false)
    (hsp : env.sshpassInstalled = some true)
    (hok : env.connectOk = true)
    (hpv : pv.find? (fun q => q.1 = c.id) = none) :
    connectR env ⟨cfg, [c], kh, ts, pv, n, m⟩ c.id =
      ⟨cfg, [{ c with
          crec := { c.crec with identityFile := some idf }
          client := some n }], kh,
        ts ++ [⟨sshpassKeyArgs idf pp c.crec.user c.crec.hostname c.crec.port, none⟩],
        pv ++ [(c.id, m)], n + 1, m + 1⟩ := by
  have hlook : lookupKH kh c.crec.hostname = some kk := hhost
  have hstT : strT (some pp) = true := by simp [strT, hppne]
  simp [connectR, findConn, tryConnectR, tryConnect2, connectWithSSHKeyR,
    fireConnect, updConn, isKnownHostR, updateKnownHostsR, getHostKeyFromKeyscanR,
    hlook, hcl, hk2, hsame, huser, hkeyt, hid, hkr, henc, hpp, hstT, hsp, hok, hpv]

theorem removeList_kh (st : RegState) :
    (removeConnectionFromList st).knownHosts = st.knownHosts := rfl

theorem removeList_terminals (st : RegState) :
    (removeConnectionFromList st).terminals = st.terminals := rfl

theorem updConn_kh (st : RegState) (cid : Str) (f : Conn → Conn) :
    (updConn st cid f).knownHosts = st.knownHosts := rfl

theorem fireConnect_kh (env : ConnectEnv) (st : RegState) (cid : Str) (a : Str)
    (t : Option (Str × Str)) : (fireConnect env st cid a t).knownHosts = st.knownHosts := by
  unfold fireConnect
  try simp only []
  repeat' split <;> try rfl

theorem connectWithPasswordR_kh (env : ConnectEnv) (st : RegState) (cid : Str)
    (pw : Str) : (connectWithPasswordR env st cid pw).knownHosts = st.knownHosts := by
  unfold connectWithPasswordR
  try simp only []
  repeat' split <;> try rfl
  all_goals exact fireConnect_kh _ _ _ _ _

theorem connectWithSSHKeyR_kh (env : ConnectEnv) (st : RegState) (cid : Str) :
    (connectWithSSHKeyR env st cid).knownHosts = st.knownHosts := by
  unfold connectWithSSHKeyR
  try simp only []
  repeat' split <;> try rfl
  all_goals exact fireConnect_kh _ _ _ _ _

theorem tryConnect2_kh (env : ConnectEnv) (st : RegState) (cid : Str) :
    (tryConnect2 env st cid).knownHosts = st.knownHosts := by
  unfold tryConnect2
  try simp only []
  repeat' split <;> try rfl
  all_goals first
  | exact connectWithSSHKeyR_kh _ _ _
  | exact connectWithPasswordR_kh _ _ _ _

theorem tryConnectR_kh (env : ConnectEnv) (st : RegState) (cid : Str) :
    (tryConnectR env st cid).knownHosts = st.knownHosts := by
  unfold tryConnectR
  try simp only []
  repeat' split <;> try rfl
  all_goals exact tryConnect2_kh _ _ _

theorem find_filter_ne_none (l : List (Str × Str)) (h : Str) :
    (l.filter (fun p => ¬ p.1 = h)).find? (fun p => p.1 = h) = none := by
  rw [List.find?_eq_none]
  intro x hx
  have := List.of_mem_filter hx
  simpa using this

/-- C3: on a fingerprint mismatch (stored key's fingerprint differs from the
fresh scan's), `connect` does not touch the trust store nor spawn a terminal
unless the user approves; on approval the trust store ends up with exactly the
newly scanned key for that hostname. -/
theorem C3_trust_mismatch (env : ConnectEnv) (st : RegState) (cid : Str)
    (c : Conn) (kk k2 : Str)
    (hfind : findConn st cid = some c)
    (hhost : lookupKH st.knownHosts c.crec.hostname = some kk)
    (hk2 : env.scanKey = some k2)
    (hdiff : ¬ env.fprOf k2 = env.fprOf kk) :
    (env.mismatchAnswer = false →
      (connectR env st cid).knownHosts = st.knownHosts ∧
      (connectR env st cid).terminals = st.terminals) ∧
    (env.mismatchAnswer = true →
      lookupKH (connectR env st cid).knownHosts c.crec.hostname = some k2 ∧
      (connectR env st cid).knownHosts.filter (fun p => p.1 = c.crec.hostname) =
        [(c.crec.hostname, k2)]) := by
  simp only [connectR, hfind]
  have hkh0 : ∀ b : Bool, ((if c.client = none then
      { updConn st cid (fun x => { x with client := some st.nextClient }) with
        nextClient := st.nextClient + 1 } else st)).knownHosts = st.knownHosts := by
    intro b
    by_cases hcl : c.client = none <;> simp [hcl, updConn]
  have hkh : ((if c.client = none then
      { updConn st cid (fun x => { x with client := some st.nextClient }) with
        nextClient := st.nextClient + 1 } else st)).knownHosts = st.knownHosts :=
    hkh0 true
  set st0 := (if c.client = none then
      { updConn st cid (fun x => { x with client := some st.nextClient }) with
        nextClient := st.nextClient + 1 } else st) with hst0
  have hterm0 : st0.terminals = st.terminals := by
    rw [hst0]
    by_cases hcl : c.client = none <;> simp [hcl, updConn]
  have hknown : isKnownHostR env st0 c.crec.hostname = (true, some (env.fprOf kk)) := by
    unfold isKnownHostR
    rw [hkh, hhost]
  rw [hknown]
  simp only [Bool.true_eq_false, if_false]
  have hdiff2 : ¬ env.fprOf kk = env.fprOf k2 := fun hq => hdiff hq.symm
  have hupd : updateKnownHostsR env st0 c.crec.hostname =
      (if env.mismatchAnswer then
        .ok (addKnownHostR env (removeKnownHostR st0 c.crec.hostname)
          c.crec.hostname (env.fprOf k2))
      else .error ()) := by
    unfold updateKnownHostsR getHostKeyFromKeyscanR
    rw [hk2]
    show (match lookupKH st0.knownHosts c.crec.hostname with
      | some k => _ | none => _) = _
    rw [hkh, hhost]
    simp [hdiff2]
  rw [hupd]
  constructor
  · intro hans
    rw [if_neg (by simp [hans])]
    exact ⟨removeList_kh st0 ▸ hkh, removeList_terminals st0 ▸ hterm0⟩
  · intro hans
    rw [if_pos (by simp [hans])]
    have hrem : (removeKnownHostR st0 c.crec.hostname).knownHosts =
        st.knownHosts.filter (fun p => ¬ p.1 = c.crec.hostname) := by
      unfold removeKnownHostR
      simp only [hkh]
    have hlook0 : lookupKH (removeKnownHostR st0 c.crec.hostname).knownHosts
        c.crec.hostname = none := by
      rw [hrem]
      unfold lookupKH
      rw [find_filter_ne_none]
      rfl
    have hadd : (addKnownHostR env (removeKnownHostR st0 c.crec.hostname)
        c.crec.hostname (env.fprOf k2)).knownHosts =
        st.knownHosts.filter (fun p => ¬ p.1 = c.crec.hostname) ++
          [(c.crec.hostname, k2)] := by
      unfold addKnownHostR
      rw [hlook0, hk2]
      show (removeKnownHostR st0 c.crec.hostname).knownHosts ++
        [(c.crec.hostname, k2)] = _
      rw [hrem]
    rw [tryConnectR_kh, hadd]
    constructor
    · unfold lookupKH
      rw [List.find?_append, find_filter_ne_none]
      simp
    · rw [List.filter_append]
      rw [List.filter_eq_nil_iff.mpr (by
        intro x hx
        have := List.of_mem_filter hx
        simpa using this)]
      simp

/-- C1 (amended): `connect` on an already-connected alias is not a guarded
no-op — the flow re-runs end to end.  The password path reuses the recorded
client handle (the client slot and the allocation counter are unchanged, so no
second client object is created), while the key path discards the recorded
handle and allocates a fresh replacement client. -/
theorem C1_connect_client_allocation (env : ConnectEnv) (cfg : Str) (c : Conn)
    (kh : List (Str × Str)) (ts : List VTerminal) (pv : List (Str × Nat))
    (n m k : Nat) (kk k2 : Str)
    (hcl : c.client = some k)
    (hhost : lookupKH kh c.crec.hostname = some kk)
    (hk2 : env.scanKey = some k2)
    (hsame : env.fprOf k2 = env.fprOf kk)
    (huser : strT c.crec.user = true)
    (hsp : env.sshpassInstalled = some true)
    (hok : env.connectOk = true)
    (hpv : pv.find? (fun q => q.1 = c.id) = none) :
    (∀ pw, c.usePrivateKey = false → env.promptPassword = some pw →
      pw.isEmpty = false →
      (connectR env ⟨cfg, [c], kh, ts, pv, n, m⟩ c.id).connections =
        [{ c with password := some pw }] ∧
      (connectR env ⟨cfg, [c], kh, ts, pv, n, m⟩ c.id).nextClient = n) ∧
    (∀ idf kd pp, c.usePrivateKey = true → env.identityFileOf = some idf →
      env.keyRead = some kd → env.keyEncrypted = false → c.passphrase = some pp →
      pp.isEmpty = false →
      (connectR env ⟨cfg, [c], kh, ts, pv, n, m⟩ c.id).connections =
        [{ c with
            crec := { c.crec with identityFile := some idf }
            client := some n }] ∧
      (connectR env ⟨cfg, [c], kh, ts, pv, n, m⟩ c.id).nextClient = n + 1) := by
  constructor
  · intro pw hkeyf hpw hpwne
    rw [connect_pwd_char env cfg c kh ts pv n m k kk k2 pw hcl hhost hk2 hsame huser
      hkeyf hpw hpwne hsp hok hpv]
    exact ⟨rfl, rfl⟩
  · intro idf kd pp hkeyt hid hkr henc hpp hppne
    rw [connect_key_char env cfg c kh ts pv n m k kk k2 idf kd pp hcl hhost hk2 hsame
      huser hkeyt hid hkr henc hpp hppne hsp hok hpv]
    exact ⟨rfl, rfl⟩

theorem C1_connect_client_allocation_witness :
    (({ mkLoadedConn webRec with client := some 7 } : Conn).client = some 7) ∧
    ((connectR envHappy ⟨canonFile [webRec],
        [{ mkLoadedConn webRec with client := some 7 }],
        [(strLit "web.example.com", regKey1)], [], [], 8, 0⟩
        ({ mkLoadedConn webRec with client := some 7 } : Conn).id).connections =
      [{ ({ mkLoadedConn webRec with client := some 7 } : Conn) with
          password := some (strLit "s3cret") }] ∧
      (connectR envHappy ⟨canonFile [webRec],
        [{ mkLoadedConn webRec with client := some 7 }],
        [(strLit "web.example.com", regKey1)], [], [], 8, 0⟩
        ({ mkLoadedConn webRec with client := some 7 } : Conn).id).nextClient = 8) :=
  ⟨rfl,
    (C1_connect_client_allocation envHappy (canonFile [webRec])
      { mkLoadedConn webRec with client := some 7 }
      [(strLit "web.example.com", regKey1)] [] [] 8 0 7 regKey1 regKey1
      rfl (by decide) rfl rfl (by decide) rfl rfl rfl).1
      (strLit "s3cret") (by decide) rfl (by decide)⟩

/-- C4 (amended): the password path's spawned terminal carries a command line
that is a fixed template of user, hostname and port — the secret travels only
in the `SSHPASS` environment binding; the key path's spawned terminal embeds
the passphrase as a literal substring of its visible command line. -/
theorem C4_secret_placement (env : ConnectEnv) (cfg : Str) (c : Conn)
    (kh : List (Str × Str)) (ts : List VTerminal) (pv : List (Str × Nat))
    (n m k : Nat) (kk k2 : Str)
    (hcl : c.client = some k)
    (hhost : lookupKH kh c.crec.hostname = some kk)
    (hk2 : env.scanKey = some k2)
    (hsame : env.fprOf k2 = env.fprOf kk)
    (huser : strT c.crec.user = true)
    (hsp : env.sshpassInstalled = some true)
    (hok : env.connectOk = true)
    (hpv : pv.find? (fun q => q.1 = c.id) = none) :
    (∀ pw, c.usePrivateKey = false → env.promptPassword = some pw →
      pw.isEmpty = false →
      (connectR env ⟨cfg, [c], kh, ts, pv, n, m⟩ c.id).terminals =
        ts ++ [⟨sshpassPwdArgs c.crec.user c.crec.hostname c.crec.port,
          some (strLit "SSHPASS", pw)⟩]) ∧
    (∀ idf kd pp, c.usePrivateKey = true → env.identityFileOf = some idf →
      env.keyRead = some kd → env.keyEncrypted = false → c.passphrase = some pp →
      pp.isEmpty = false →
      (connectR env ⟨cfg, [c], kh, ts, pv, n, m⟩ c.id).terminals =
        ts ++ [⟨sshpassKeyArgs idf pp c.crec.user c.crec.hostname c.crec.port,
          none⟩] ∧
      pp <:+: sshpassKeyArgs idf pp c.crec.user c.crec.hostname c.crec.port) := by
  constructor
  · intro pw hkeyf hpw hpwne
    rw [connect_pwd_char env cfg c kh ts pv n m k kk k2 pw hcl hhost hk2 hsame huser
      hkeyf hpw hpwne hsp hok hpv]
  · intro idf kd pp hkeyt hid hkr henc hpp hppne
    rw [connect_key_char env cfg c kh ts pv n m k kk k2 idf kd pp hcl hhost hk2 hsame
      huser hkeyt hid hkr henc hpp hppne hsp hok hpv]
    refine ⟨rfl, ?_⟩
    refine ⟨strLit "sshpass -P \"Enter passphrase for key '" ++ idf ++
      strLit "':\" -p ",
      strLit " ssh -i " ++ idf ++ [' '] ++ jsShowStr c.crec.user ++ ['@'] ++
        c.crec.hostname ++ strLit " -p " ++ jsShowInt c.crec.port, ?_⟩
    simp [sshpassKeyArgs]

theorem C4_secret_placement_witness :
    devConn.usePrivateKey = true ∧
    ((connectR envHappy ⟨canonFile [devRec], [devConn],
        [(strLit "dev.example.com", regKey1)], [], [], 1, 0⟩ devConn.id).terminals =
      [] ++ [⟨sshpassKeyArgs (strLit "~/.ssh/id_rsa") (strLit "hunter2")
        devConn.crec.user devConn.crec.hostname devConn.crec.port, none⟩] ∧
      (strLit "hunter2") <:+: sshpassKeyArgs (strLit "~/.ssh/id_rsa")
        (strLit "hunter2") devConn.crec.user devConn.crec.hostname
        devConn.crec.port) :=
  ⟨rfl,
    (C4_secret_placement envHappy (canonFile [devRec]) devConn
      [(strLit "dev.example.com", regKey1)] [] [] 1 0 0 regKey1 regKey1
      rfl (by decide) rfl rfl (by decide) rfl rfl rfl).2
      (strLit "~/.ssh/id_rsa") (strLit "KEYDATA") (strLit "hunter2")
      rfl rfl rfl rfl rfl (by decide)⟩

theorem C3_trust_mismatch_witness :
    envMismatch.mismatchAnswer = false ∧
    ((connectR envMismatch stPwdConnected (strLit "web")).knownHosts =
      stPwdConnected.knownHosts ∧
    (connectR envMismatch stPwdConnected (strLit "web")).terminals =
      stPwdConnected.terminals) :=
  ⟨rfl,
    (C3_trust_mismatch envMismatch stPwdConnected (strLit "web")
      { mkLoadedConn webRec with client := some 7 } regKey1 regKey2
      (by decide) (by decide) rfl (by decide)).1 rfl⟩

theorem find?_eq_of_unique {α : Type _} (p : α → Bool) (l : List α) (x : α)
    (hx : x ∈ l) (hpx : p x = true)
    (huq : ∀ y ∈ l, p y = true → y = x) :
    l.find? p = some x := by
  have hsome : (l.find? p).isSome := List.find?_isSome.mpr ⟨x, hx, hpx⟩
  obtain ⟨y, hy⟩ := Option.isSome_iff_exists.mp hsome
  rw [hy, huq y (List.mem_of_find?_eq_some hy) (List.find?_some hy)]

theorem self_mem_upsertL (rs : List SSHConnection) (c : SSHConnection) :
    c ∈ upsertL rs c := by
  unfold upsertL
  split
  · rename_i h
    obtain ⟨t, ht, hth⟩ := List.any_eq_true.mp h
    refine List.mem_map.mpr ⟨t, ht, ?_⟩
    rw [if_pos (by simpa using hth)]
  · simp

theorem wfRec_setTag {r : SSHConnection} {t : Option Str} (h : wfRec r = true)
    (ht : tagOk t = true) : wfRec { r with vFolderTag := t } = true := by
  obtain ⟨h1, h2, h3, h4, h5, h6, h7, h8, h9, h10, h11, _⟩ := wfRec_parts h
  simp [wfRec, h1, h2, h3, h4, h5, h6, h7, h8, h9, h10, h11, ht]

theorem mem_loadConns {cfg : Str} {x : Conn} :
    x ∈ loadConns cfg ↔
      ∃ r ∈ getAllConnections cfg, r.host.isEmpty = false ∧ x = mkLoadedConn r := by
  unfold loadConns
  rw [List.mem_insertionSort]
  constructor
  · intro hx
    obtain ⟨r, hr, hrx⟩ := List.mem_map.mp hx
    exact ⟨r, (List.mem_filter.mp hr).1,
      by simpa using (List.mem_filter.mp hr).2, hrx.symm⟩
  · rintro ⟨r, hr, hne, rfl⟩
    exact List.mem_map.mpr ⟨r, List.mem_filter.mpr ⟨hr, by simp [hne]⟩, rfl⟩

/-- C8: `moveConnectionToFolder` on a canonically stored registry is a
metadata-only change for the moved alias: the config gains exactly the new
folder tag (a blank input clears it), while the alias's live client handle,
its transient secrets, the provider map, and the spawned terminals are all
unchanged. -/
theorem C8_move_preserves_session (recs : List SSHConnection) (st : RegState)
    (cid : Str) (c : Conn) (fname : Str)
    (hwf : ∀ r ∈ recs, wfRec r = true)
    (huniq : uniqHosts recs = true)
    (hcfg : st.config = canonFile recs)
    (hfind : findConn st cid = some c)
    (hwrec : wfRec c.crec = true)
    (htag : tagOk (if (jsTrim fname).isEmpty then none else some (jsTrim fname)) = true) :
    (moveConnectionToFolderR (some fname) st cid).terminals = st.terminals ∧
    (moveConnectionToFolderR (some fname) st cid).providers = st.providers ∧
    (moveConnectionToFolderR (some fname) st cid).config =
      canonFile (upsertL recs { c.crec with vFolderTag := if (jsTrim fname).isEmpty then none else some (jsTrim fname) }) ∧
    ({ mkLoadedConn { c.crec with vFolderTag := if (jsTrim fname).isEmpty then none else some (jsTrim fname) } with
      client := c.client
      password := c.password
      privateKey := c.privateKey
      passphrase := c.passphrase } ∈
        (moveConnectionToFolderR (some fname) st cid).connections) ∧
    (∀ x ∈ (moveConnectionToFolderR (some fname) st cid).connections,
      x.crec.host = c.crec.host →
      x.client = c.client ∧ x.password = c.password ∧
      x.privateKey = c.privateKey ∧ x.passphrase = c.passphrase ∧
      x.crec = { c.crec with vFolderTag := if (jsTrim fname).isEmpty then none else some (jsTrim fname) }) := by
  have hwf2 : wfRec { c.crec with vFolderTag := if (jsTrim fname).isEmpty then none else some (jsTrim fname) } = true :=
    wfRec_setTag hwrec htag
  have hcfg2 : insertOrUpdateConnection st.config { c.crec with vFolderTag := if (jsTrim fname).isEmpty then none else some (jsTrim fname) } =
      canonFile (upsertL recs { c.crec with vFolderTag := if (jsTrim fname).isEmpty then none else some (jsTrim fname) }) := by
    rw [hcfg]
    exact upsert_canon hwf huniq hwf2
  have hparse : getAllConnections (canonFile (upsertL recs { c.crec with vFolderTag := if (jsTrim fname).isEmpty then none else some (jsTrim fname) })) =
      upsertL recs { c.crec with vFolderTag := if (jsTrim fname).isEmpty then none else some (jsTrim fname) } :=
    parse_canon _ (upsertL_wf hwf hwf2)
  have hhostne : ({ c.crec with vFolderTag := if (jsTrim fname).isEmpty then none else some (jsTrim fname) } : SSHConnection).host.isEmpty = false := by
    have hne := (tokenVal_facts (wfRec_parts hwf2).1).1
    cases hq : ({ c.crec with vFolderTag := if (jsTrim fname).isEmpty then none else some (jsTrim fname) } : SSHConnection).host.isEmpty
    · rfl
    · exact absurd (List.isEmpty_iff.mp hq) hne
  have huq2 : ((upsertL recs { c.crec with vFolderTag := if (jsTrim fname).isEmpty then none else some (jsTrim fname) }).map
        (fun r => r.host)).Nodup :=
    uniqHosts_iff.mp (upsertL_uniq huniq)
  have hmemL : mkLoadedConn { c.crec with vFolderTag := if (jsTrim fname).isEmpty then none else some (jsTrim fname) } ∈
      loadConns (insertOrUpdateConnection st.config { c.crec with vFolderTag := if (jsTrim fname).isEmpty then none else some (jsTrim fname) }) := by
    rw [mem_loadConns, hcfg2, hparse]
    exact ⟨_, self_mem_upsertL _ _, hhostne, rfl⟩
  have hyChar : ∀ y ∈ loadConns (insertOrUpdateConnection st.config { c.crec with vFolderTag := if (jsTrim fname).isEmpty then none else some (jsTrim fname) }),
      y.crec.host = c.crec.host →
      y = mkLoadedConn { c.crec with vFolderTag := if (jsTrim fname).isEmpty then none else some (jsTrim fname) } := by
    intro y hy hyh
    rw [mem_loadConns, hcfg2, hparse] at hy
    obtain ⟨r, hr, hrne, rfl⟩ := hy
    have hreq : r = { c.crec with vFolderTag := if (jsTrim fname).isEmpty then none else some (jsTrim fname) } :=
      List.inj_on_of_nodup_map huq2 hr (self_mem_upsertL _ _) (by simpa using hyh)
    rw [hreq]
  have hfindL : (loadConns (insertOrUpdateConnection st.config { c.crec with vFolderTag := if (jsTrim fname).isEmpty then none else some (jsTrim fname) })).find?
        (fun x => x.crec.host = c.crec.host ∧ x.crec.user = c.crec.user) =
      some (mkLoadedConn { c.crec with vFolderTag := if (jsTrim fname).isEmpty then none else some (jsTrim fname) }) := by
    apply find?_eq_of_unique _ _ _ hmemL
    · simp [mkLoadedConn]
    · intro y hy hpy
      simp only [Bool.and_eq_true, decide_eq_true_eq] at hpy
      exact hyChar y hy hpy.1
  simp only [moveConnectionToFolderR, hfind, hfindL]
  refine ⟨trivial, trivial, ?_, ?_, ?_⟩
  · exact hcfg2
  · refine List.mem_map.mpr ⟨mkLoadedConn { c.crec with vFolderTag := if (jsTrim fname).isEmpty then none else some (jsTrim fname) }, hmemL, ?_⟩
    rw [if_pos rfl]
  · intro x hx hxh
    obtain ⟨y, hy, rfl⟩ := List.mem_map.mp hx
    by_cases hyid : y.id = (mkLoadedConn { c.crec with vFolderTag := if (jsTrim fname).isEmpty then none else some (jsTrim fname) }).id
    · rw [if_pos hyid] at hxh ⊢
      have hyis := hyChar y hy (by simpa [mkLoadedConn] using hxh)
      rw [hyis]
      exact ⟨rfl, rfl, rfl, rfl, rfl⟩
    · rw [if_neg hyid] at hxh ⊢
      exfalso
      apply hyid
      rw [hyChar y hy hxh]

theorem C8_move_preserves_session_witness :
    (moveConnectionToFolderR (some (strLit "work")) stKeyConnected (strLit "dev")).terminals = stKeyConnected.terminals ∧
    (moveConnectionToFolderR (some (strLit "work")) stKeyConnected (strLit "dev")).providers = stKeyConnected.providers ∧
    (moveConnectionToFolderR (some (strLit "work")) stKeyConnected (strLit "dev")).config =
      canonFile (upsertL [devRec] { devConn.crec with vFolderTag := if (jsTrim (strLit "work")).isEmpty then none else some (jsTrim (strLit "work")) }) ∧
    ({ mkLoadedConn { devConn.crec with vFolderTag := if (jsTrim (strLit "work")).isEmpty then none else some (jsTrim (strLit "work")) } with
      client := devConn.client
      password := devConn.password
      privateKey := devConn.privateKey
      passphrase := devConn.passphrase } ∈
        (moveConnectionToFolderR (some (strLit "work")) stKeyConnected (strLit "dev")).connections) ∧
    (∀ x ∈ (moveConnectionToFolderR (some (strLit "work")) stKeyConnected (strLit "dev")).connections,
      x.crec.host = devConn.crec.host →
      x.client = devConn.client ∧ x.password = devConn.password ∧
      x.privateKey = devConn.privateKey ∧ x.passphrase = devConn.passphrase ∧
      x.crec = { devConn.crec with vFolderTag := if (jsTrim (strLit "work")).isEmpty then none else some (jsTrim (strLit "work")) }) :=
  C8_move_preserves_session [devRec] stKeyConnected (strLit "dev") devConn (strLit "work")
    (by decide) (by decide) (by decide) (by decide) (by decide) (by decide)

end SMC
